import Mathlib

/-!
Verification of the dependency-ordered parallel orchestration engine of the
`ork` CLI: the dependency graph resolver (`internal/service`, dependency
resolution file), the level partitioner and launch scheduler (orchestrator
file), and the per-unit lifecycle state machine (service file).

The Go source is shallowly embedded: Go maps become association lists,
`time.Duration` values become natural numbers of nanoseconds (string parsing
of durations is abstracted: a parsed duration is `some d`, an absent or
unparseable string is `none`), goroutine bodies that only touch their own
service's lock-protected state are linearized in completion order, and the
Docker client plus the HTTP prober are replaced by outcome oracles.
Recursive Go functions are embedded with an explicit fuel argument so that
every definition is structurally recursive and computable by the kernel;
callers pass fuel that is proved adequate, and all theorems carry the
corresponding adequacy hypotheses.
-/

namespace Ork

/-- Embeds `config.HealthCheck` (config.go).  `interval` and `timeout`
are the parsed values of the duration strings, in nanoseconds: `none`
stands for an empty or unparseable string (both fall back to the default
in the Go code). -/
structure HealthCheck where
  endpoint : String
  interval : Option Nat
  timeout : Option Nat
  retries : Nat
deriving Repr, DecidableEq

/-- Embeds `config.Service` (config.go), keeping the fields the
orchestration core reads: the dependency list and the optional health
check.  The runtime specification fields (image, ports, env, command,
entrypoint) are opaque to the resolver, partitioner and scheduler and are
elided. -/
structure Service where
  dependsOn : List String
  health : Option HealthCheck
deriving Repr, DecidableEq

/-- A Go `map[string]config.Service` as an association list (first match
wins, mirroring unique map keys). -/
abbrev Services := List (String × Service)

/-- Association-list lookup, the embedding of a Go map read. -/
def lookupSvc : Services → String → Option Service
  | [], _ => none
  | p :: rest, n => if p.1 = n then some p.2 else lookupSvc rest n

/-- `graph.dependencies[n]` from `buildDependencyGraph`: the declared
dependency list of a declared service, and `nil` (the Go zero value read)
for an undeclared name. -/
def depsOf (svcs : Services) (n : String) : List String :=
  match lookupSvc svcs n with
  | some s => s.dependsOn
  | none => []

/-- `graph.dependents[n]` from `buildDependencyGraph`: every declared
service contributes one entry per occurrence of `n` in its dependency
list (Go appends once per occurrence).  Go map iteration order is
unspecified; the list order here follows declaration order. -/
def dependentsOf (svcs : Services) (n : String) : List String :=
  svcs.flatMap (fun p => (p.2.dependsOn.filter (fun d => d = n)).map (fun _ => p.1))

/-- The resolver's error values.  In Go these are `fmt.Errorf` strings;
the constructor identifies the message and carries its payload:
`notFound n` is "service 'n' not found in configuration",
`circular p` is "circular dependency detected: p". -/
inductive ResolveError where
  | notFound (name : String)
  | circular (path : List String)
deriving Repr, DecidableEq

/-- Embeds `validateServices`: first requested name missing from the
configuration yields the error, in request order. -/
def validateServices (svcs : Services) : List String → Except ResolveError Unit
  | [] => .ok ()
  | n :: rest =>
    match lookupSvc svcs n with
    | some _ => validateServices svcs rest
    | none => .error (.notFound n)

/-- State of the closure-collecting DFS of `collectAllDependencies`:
the `visited` set and the post-order `result` list. -/
structure CollectSt where
  visited : List String
  result : List String
deriving Repr, DecidableEq

/-- Embeds the inner `collectDeps` closure of `collectAllDependencies`:
skip if visited, otherwise mark visited, recurse into the dependencies,
then append the node (post-order).  The fuel bounds the recursion depth;
it is spent only when an unvisited node is entered, and callers supply
fuel exceeding the number of declared services, which is proved adequate. -/
def collectNode (svcs : Services) : Nat → String → CollectSt → CollectSt
  | 0, _, st => st
  | f + 1, n, st =>
    if n ∈ st.visited then st
    else
      let st1 : CollectSt := ⟨n :: st.visited, st.result⟩
      let st2 := (depsOf svcs n).foldl (fun acc d => collectNode svcs f d acc) st1
      ⟨st2.visited, st2.result ++ [n]⟩

/-- Embeds `collectAllDependencies`: run the DFS from each requested name
in order, sharing the visited set and the result list. -/
def collectAllDependencies (svcs : Services) (requested : List String) : List String :=
  (requested.foldl (fun st n => collectNode svcs (svcs.length + 1) n st) ⟨[], []⟩).result

/-- State of the cycle-detecting DFS of `detectCircularDependencies`:
the `visited` set, the recursion stack `recStack` (a Go map used as a
set), and the current `path` kept for the error message. -/
structure DetectSt where
  visited : List String
  recStack : List String
  path : List String
deriving Repr, DecidableEq

/-- Embeds the body of `detectCycle` for one node: mark visited, push on
the recursion stack and the path, scan the dependencies (a dependency on
the recursion stack raises the cycle error `path ++ [dep]`; an unvisited
dependency is entered recursively; a visited one is skipped), then pop
the stack and the path.  Fuel is spent on each node entry. -/
def detectNode (svcs : Services) : Nat → String → DetectSt → Except (List String) DetectSt
  | 0, _, st => .ok st
  | f + 1, n, st =>
    let st1 : DetectSt := ⟨n :: st.visited, n :: st.recStack, st.path ++ [n]⟩
    match (depsOf svcs n).foldlM
        (fun acc d =>
          if d ∈ acc.recStack then Except.error (acc.path ++ [d])
          else if d ∈ acc.visited then Except.ok acc
          else detectNode svcs f d acc) st1 with
    | .error e => .error e
    | .ok st2 => .ok ⟨st2.visited, st2.recStack.erase n, st2.path.dropLast⟩

/-- Embeds the outer loop of `detectCircularDependencies` over the node
list: enter each not-yet-visited node. -/
def detectRoots (svcs : Services) : List String → DetectSt → Except (List String) DetectSt
  | [], st => .ok st
  | n :: ns, st =>
    if n ∈ st.visited then detectRoots svcs ns st
    else
      match detectNode svcs (svcs.length + 1) n st with
      | .error e => .error e
      | .ok st2 => detectRoots svcs ns st2

/-- Embeds `detectCircularDependencies`: `some cyclePath` is the cycle
error, `none` means no cycle was found. -/
def detectCircularDependencies (svcs : Services) (services : List String) :
    Option (List String) :=
  match detectRoots svcs services ⟨[], [], []⟩ with
  | .error e => some e
  | .ok _ => none

/-- A Go `map[string]int` as an association list with unique keys. -/
abbrev IntMap := List (String × Int)

/-- Go map read with the zero value `0` for a missing key. -/
def getI : IntMap → String → Int
  | [], _ => 0
  | p :: rest, k => if p.1 = k then p.2 else getI rest k

/-- Go map write: replace the first binding of the key, or append a new
binding. -/
def setI (m : IntMap) (k : String) (v : Int) : IntMap :=
  match m with
  | [] => [(k, v)]
  | p :: rest => if p.1 = k then (k, v) :: rest else p :: setI rest k v

/-- The in-degree initialization loop of `topologicalSort`: each listed
service maps to the number of its dependencies (with multiplicity) that
lie inside the service set. -/
def inDegreeInit (svcs : Services) (sset : List String) : List String → IntMap
  | [] => []
  | n :: rest =>
    setI (inDegreeInit svcs sset rest) n
      (((depsOf svcs n).filter (fun d => d ∈ sset)).length : Int)

/-- The inner dependent-decrement loop of `topologicalSort`: for each
dependent of the popped node that is inside the service set, decrement
its in-degree and enqueue it if the in-degree reached zero. -/
def stepDependents (sset : List String) :
    List String → IntMap → List String → IntMap × List String
  | [], inDeg, queue => (inDeg, queue)
  | d :: rest, inDeg, queue =>
    if d ∈ sset then
      let v := getI inDeg d - 1
      let inDeg2 := setI inDeg d v
      let queue2 := if v = 0 then queue ++ [d] else queue
      stepDependents sset rest inDeg2 queue2
    else stepDependents sset rest inDeg queue

/-- The queue-processing loop of `topologicalSort` (Kahn's algorithm):
pop, emit, decrement the dependents.  The fuel bounds the number of
iterations; `topologicalSort` passes a provably adequate amount. -/
def kahnLoop (svcs : Services) (sset : List String) :
    Nat → List String → IntMap → List String → List String
  | 0, _, _, result => result
  | fuel + 1, queue, inDeg, result =>
    match queue with
    | [] => result
    | current :: rest =>
      let p := stepDependents sset (dependentsOf svcs current) inDeg rest
      kahnLoop svcs sset fuel p.2 p.1 (result ++ [current])

/-- Sum of the positive in-degrees, the potential used to bound the
number of Kahn iterations. -/
def sumDeg : IntMap → Nat
  | [] => 0
  | p :: rest => p.2.toNat + sumDeg rest

/-- Embeds `topologicalSort`: in-degrees restricted to the service set,
a queue seeded with the zero-in-degree services in list order, then the
Kahn loop. -/
def topologicalSort (svcs : Services) (services : List String) : List String :=
  let inDeg0 := inDegreeInit svcs services services
  let queue0 := services.filter (fun n => getI inDeg0 n = 0)
  kahnLoop svcs services (queue0.length + sumDeg inDeg0 + 1) queue0 inDeg0 []

/-- Embeds `ResolveDependencies`: validate the requested names, collect
the closure, detect cycles, and topologically sort the closure. -/
def ResolveDependencies (svcs : Services) (requested : List String) :
    Except ResolveError (List String) :=
  match validateServices svcs requested with
  | .error e => .error e
  | .ok _ =>
    let allNeeded := collectAllDependencies svcs requested
    match detectCircularDependencies svcs allNeeded with
    | some cyc => .error (.circular cyc)
    | none => .ok (topologicalSort svcs allNeeded)

/-! ### Reachability along dependency edges -/

/-- `Reaches svcs a b`: `b` is reachable from `a` by following declared
dependency edges (reflexively and transitively). -/
inductive Reaches (svcs : Services) : String → String → Prop
  | refl (n : String) : Reaches svcs n n
  | step {a b c : String} : b ∈ depsOf svcs a → Reaches svcs b c → Reaches svcs a c

/-- A list of names each of which depends on the next. -/
def DepChain (svcs : Services) (p : List String) : Prop :=
  List.Chain' (fun a b => b ∈ depsOf svcs a) p

/-- The declaration set contains a dependency cycle: a dependency chain of
length at least 2 whose first and last elements coincide (a self-dependency
is the length-2 case `[a, a]`). -/
def HasCycle (svcs : Services) : Prop :=
  ∃ p, DepChain svcs p ∧ 2 ≤ p.length ∧ p.head? = p.getLast?

/-- Acyclicity of the declared dependency relation. -/
def Acyclic (svcs : Services) : Prop := ¬ HasCycle svcs

/-! ### Fuel adequacy potential for the DFS embeddings -/

/-- The declared service names, deduplicated. -/
def declaredNames (svcs : Services) : List String := (svcs.map Prod.fst).dedup

/-- Number of declared names not yet visited: the potential that each
DFS node entry strictly decreases. -/
def unvisitedCount (svcs : Services) (visited : List String) : Nat :=
  ((declaredNames svcs).filter (fun n => n ∉ visited)).length

/-! ### Correctness of `collectAllDependencies` -/

/-- The dependency-list fold inside `collectNode`, named for reasoning. -/
def collectList (svcs : Services) (f : Nat) (ds : List String) (st : CollectSt) : CollectSt :=
  ds.foldl (fun acc d => collectNode svcs f d acc) st

/-! ### Correctness of `detectCircularDependencies` -/

/-- The dependency-scanning fold inside `detectNode`, named for reasoning. -/
def detectList (svcs : Services) (f : Nat) (ds : List String) (st : DetectSt) :
    Except (List String) DetectSt :=
  ds.foldlM
    (fun acc d =>
      if d ∈ acc.recStack then Except.error (acc.path ++ [d])
      else if d ∈ acc.visited then Except.ok acc
      else detectNode svcs f d acc) st

/-- A node is black when it is visited and off the recursion stack. -/
def BlackIn (st : DetectSt) (x : String) : Prop :=
  x ∈ st.visited ∧ x ∉ st.recStack

/-- The black nodes carry a rank strictly decreasing along dependency
edges, and their dependencies are black.  This witnesses acyclicity of
the explored region. -/
def GoodRank (svcs : Services) (st : DetectSt) : Prop :=
  ∃ rank : String → Nat, ∀ x, BlackIn st x →
    ∀ d ∈ depsOf svcs x, BlackIn st d ∧ rank d < rank x

/-- Number of in-set dependencies (with multiplicity): the initial
in-degree of a listed service. -/
def countS (svcs : Services) (S : List String) (n : String) : Nat :=
  ((depsOf svcs n).filter (fun d => d ∈ S)).length

/-- Number of in-set dependencies already emitted (with multiplicity). -/
def processedCount (svcs : Services) (S : List String) (res : List String) (n : String) : Nat :=
  ((depsOf svcs n).filter (fun d => d ∈ S ∧ d ∈ res)).length

/-- The emitted order respects in-set dependencies: every in-set
dependency of an emitted unit occurs strictly earlier. -/
def TopoOrderedOn (svcs : Services) (S : List String) (res : List String) : Prop :=
  ∀ pre n post, res = pre ++ n :: post → ∀ d ∈ depsOf svcs n, d ∈ S → d ∈ pre

/-! ### Concrete example declaration sets used by witnesses -/

/-- web → api → db, acyclic. -/
def exChain : Services :=
  [("web", ⟨["api"], none⟩), ("api", ⟨["db"], none⟩), ("db", ⟨[], none⟩)]

/-- a ↔ b, a two-cycle reachable from `a`. -/
def exCycPair : Services := [("a", ⟨["b"], none⟩), ("b", ⟨["a"], none⟩)]

/-- `a` standalone; `b ↔ c` a cycle not reachable from `a`. -/
def exFarCycle : Services :=
  [("a", ⟨[], none⟩), ("b", ⟨["c"], none⟩), ("c", ⟨["b"], none⟩)]

/-- `a` depends on the undeclared name `ghost`. -/
def exDangling : Services := [("a", ⟨["ghost"], none⟩)]

/-- `a` depends on itself. -/
def exSelf : Services := [("a", ⟨["a"], none⟩)]

/-! ### Unit lifecycle state machine (service file embedding) -/

/-- `State` constants of the service file. -/
inductive SState where
  | pending
  | starting
  | running
  | stopping
  | stopped
  | failed
deriving Repr, DecidableEq

/-- `HealthStatus` constants of the service file. -/
inductive HState where
  | unknown
  | healthy
  | unhealthy
  | starting
deriving Repr, DecidableEq

/-- The mutable runtime record of a `Service` instance.  The per-service
mutex is represented by linearizing all access; timestamps are a logical
clock (`none` is Go's zero `time.Time`); errors are their message
strings. -/
structure ServiceR where
  name : String
  config : Service
  state : SState
  healthStatus : HState
  containerID : String
  networkID : String
  startedAt : Option Nat
  stoppedAt : Option Nat
  lastError : Option String
deriving Repr, DecidableEq

/-- Embeds `New`: a fresh service record. -/
def ServiceR.new (name : String) (cfg : Service) : ServiceR :=
  ⟨name, cfg, .pending, .unknown, "", "", none, none, none⟩

/-- Outcome of `checkAndCleanupExistingContainer`'s Docker interaction,
summarizing the list/inspect/remove loop: no matching container (or a
stopped one removed successfully), a listing error, a matching running
container found, or a removal failure. -/
inductive CleanupOutcome where
  | ok
  | listError (e : String)
  | foundRunning (cid : String)
  | removeError (e : String)
deriving Repr, DecidableEq

/-- Oracle for the external collaborators: the Docker client, the
environment loader and the HTTP probe, replaced by pure outcome
functions.  `probe name tick attempt` is whether the HTTP request of the
given retry attempt in the given polling tick returns a 2xx status.
`connectOk` is the network-connect outcome; the Go code only logs a
warning on its failure. -/
structure Oracle where
  cleanup : String → CleanupOutcome
  loadEnv : String → Except String Unit
  run : String → Except String String
  stopAndRemove : String → Except String Unit
  probe : String → Nat → Nat → Bool
  connectOk : String → Bool

/-- Embeds `checkAndCleanupExistingContainer`: on finding a running
container it records the container and flips the state to running before
returning the error (which `Start` then overwrites with failed). -/
def checkAndCleanupExistingContainer (out : CleanupOutcome) (s : ServiceR) :
    ServiceR × Except String Unit :=
  match out with
  | .ok => (s, .ok ())
  | .listError e => (s, .error ("failed to check existing containers: " ++ e))
  | .foundRunning cid =>
    ({s with containerID := cid, state := .running},
     .error ("service " ++ s.name ++ " is already running (container: " ++ cid ++ ")"))
  | .removeError e => (s, .error ("failed to remove stopped container: " ++ e))

/-- Embeds `Service.Start`.  The network connect (`ConnectContainer`) is
attempted when a network is configured, but its result is discarded by
the Go code apart from a printed warning, so the oracle's `connectOk`
value cannot influence the result. -/
def ServiceR.start (o : Oracle) (now : Nat) (networkID : String) (s : ServiceR) :
    ServiceR × Except String Unit :=
  if s.state = .running then
    (s, .error ("service " ++ s.name ++ " is already running"))
  else
    let s1 : ServiceR := {s with
      state := .starting
      healthStatus := .starting
      lastError := none}
    match checkAndCleanupExistingContainer (o.cleanup s1.name) s1 with
    | (s2, .error e) => ({s2 with state := .failed, lastError := some e}, .error e)
    | (s2, .ok _) =>
      match o.loadEnv s2.name with
      | .error e =>
        let msg := "failed to load environment variables: " ++ e
        ({s2 with state := .failed, lastError := some msg}, .error msg)
      | .ok _ =>
        match o.run s2.name with
        | .error e =>
          let msg := "failed to start container: " ++ e
          ({s2 with state := .failed, lastError := some msg}, .error msg)
        | .ok cid =>
          ({s2 with
            containerID := cid
            networkID := networkID
            startedAt := some now
            state := .running
            healthStatus := .unknown}, .ok ())

/-- Embeds `Service.Stop`. -/
def ServiceR.stop (o : Oracle) (now : Nat) (s : ServiceR) : ServiceR × Except String Unit :=
  if s.state = .stopped ∨ s.state = .pending then
    (s, .error ("service " ++ s.name ++ " is not running"))
  else if s.containerID = "" then
    (s, .error ("service " ++ s.name ++ " has no container ID"))
  else
    let s1 : ServiceR := {s with state := .stopping}
    match o.stopAndRemove s1.containerID with
    | .error e =>
      let msg := "failed to stop container: " ++ e
      ({s1 with state := .failed, lastError := some msg}, .error msg)
    | .ok _ =>
      ({s1 with
        state := .stopped
        healthStatus := .unknown
        stoppedAt := some now
        containerID := ""}, .ok ())

/-- An oracle whose every interaction succeeds and whose network connect
fails: used to exhibit that the connect result is ignored. -/
def oracleConnectFails : Oracle :=
  ⟨fun _ => .ok, fun _ => .ok (), fun _ => .ok "cid0", fun _ => .ok (),
   fun _ _ _ => true, fun _ => false⟩

/-! ### Claim C7 -/

/-- An oracle whose container run fails: produces a failed service with
no recorded container handle. -/
def oracleRunFails : Oracle :=
  ⟨fun _ => .ok, fun _ => .ok (), fun _ => .error "boom", fun _ => .ok (),
   fun _ _ _ => true, fun _ => true⟩

/-! ### Health checking (probe protocol embedding) -/

def secondNs : Nat := 1000000000

/-- `maxWait` of `waitForServiceHealth`: a fixed 30 seconds. -/
def maxWaitNs : Nat := 30 * secondNs

/-- The polling interval: the declared value, defaulting to 5s when the
interval string is absent or unparseable. -/
def parsedInterval (h : HealthCheck) : Nat :=
  match h.interval with
  | some d => d
  | none => 5 * secondNs

/-- The per-attempt HTTP client timeout: the declared value, defaulting
to 3s. -/
def parsedTimeout (h : HealthCheck) : Nat :=
  match h.timeout with
  | some d => d
  | none => 3 * secondNs

/-- The retry count of one polling cycle: declared, defaulting to 3 when
zero. -/
def httpRetries (h : HealthCheck) : Nat :=
  if h.retries = 0 then 3 else h.retries

/-- The retry loop of `performHTTPHealthCheck`: `attempt i` is whether
the i-th request returns 2xx.  Returns the result and the number of
attempts performed. -/
def httpLoop (attempt : Nat → Bool) : Nat → Nat → Except String Unit × Nat
  | _, 0 => (.error "health check failed after retries", 0)
  | i, rem + 1 =>
    if attempt i then (.ok (), 1)
    else
      let r := httpLoop attempt (i + 1) rem
      (r.1, r.2 + 1)

/-- Embeds `performHTTPHealthCheck`: returns the result, the number of
attempts performed, and the HTTP client timeout used. -/
def performHTTPHealthCheck (attempt : Nat → Bool) (h : HealthCheck) :
    Except String Unit × Nat × Nat :=
  ((httpLoop attempt 0 (httpRetries h)).1, (httpLoop attempt 0 (httpRetries h)).2,
    parsedTimeout h)

/-- Embeds `Service.CheckHealth`: valid only while running; no declared
probe (or an empty endpoint) classifies the unit healthy; otherwise the
HTTP probe decides between healthy and unhealthy. -/
def ServiceR.checkHealth (attempt : Nat → Bool) (s : ServiceR) :
    ServiceR × Except String Unit :=
  if s.state ≠ .running then
    (s, .error ("service " ++ s.name ++ " is not running"))
  else
    match s.config.health with
    | none => ({s with healthStatus := .healthy}, .ok ())
    | some h =>
      if h.endpoint ≠ "" then
        match (performHTTPHealthCheck attempt h).1 with
        | .error e => ({s with healthStatus := .unhealthy}, .error e)
        | .ok _ => ({s with healthStatus := .healthy}, .ok ())
      else ({s with healthStatus := .healthy}, .ok ())

def healthTimeoutMsg (name : String) : String :=
  "service " ++ name ++ " did not become healthy within 30s"

/-- Embeds the polling loop of `waitForServiceHealth`.  The ticker fires
at times `k * interval` for `k = 1, 2, ...` (idealized exact ticks); at
each tick the deadline is tested first, then one `CheckHealth` runs.
The returned list records the ticks at which a health check was
performed.  The fuel-exhausted case returns the deadline error; callers
pass fuel so that the deadline fires first, making that case agree with
the Go loop. -/
def waitLoop (o : Oracle) (iv : Nat) : Nat → Nat → ServiceR →
    ServiceR × Except String Unit × List Nat
  | _, 0, s => (s, .error (healthTimeoutMsg s.name), [])
  | k, fuel + 1, s =>
    if maxWaitNs < k * iv then (s, .error (healthTimeoutMsg s.name), [])
    else
      match ServiceR.checkHealth (o.probe s.name k) s with
      | (s2, .ok _) => (s2, .ok (), [k])
      | (s2, .error _) =>
        let w := waitLoop o iv (k + 1) fuel s2
        (w.1, w.2.1, k :: w.2.2)

/-- Embeds `waitForServiceHealth`.  Callers only gate services with a
declared probe; the `none` branch mirrors the 5s default. -/
def waitForServiceHealth (o : Oracle) (s : ServiceR) :
    ServiceR × Except String Unit × List Nat :=
  waitLoop o
    (match s.config.health with
     | some h => parsedInterval h
     | none => 5 * secondNs) 1
    (maxWaitNs /
      (match s.config.health with
       | some h => parsedInterval h
       | none => 5 * secondNs) + 2) s

/-! ### Dependency levels (orchestrator embedding) -/

/-- A Go `map[string]int` used as the level memo, as an association list. -/
def getN : List (String × Nat) → String → Option Nat
  | [], _ => none
  | p :: rest, k => if p.1 = k then some p.2 else getN rest k

def setN (m : List (String × Nat)) (k : String) (v : Nat) : List (String × Nat) :=
  match m with
  | [] => [(k, v)]
  | p :: rest => if p.1 = k then (k, v) :: rest else p :: setN rest k v

/-- Embeds `calculateServiceLevel`: memoized recursion with a visited
guard.  Returns the level together with the updated memo and visited
set (both mutated maps in Go).  The Go code folds `max` starting from
`-1` over a nonempty dependency list; since all levels are ≥ 0, folding
from `0` is identical.  Fuel bounds the recursion depth and is spent on
each memo-miss of an unvisited node; callers pass an adequate amount. -/
def calcNode (svcs : Services) : Nat → String → List (String × Nat) → List String →
    Nat × List (String × Nat) × List String
  | 0, _, levels, visited => (0, levels, visited)
  | f + 1, n, levels, visited =>
    match getN levels n with
    | some l => (l, levels, visited)
    | none =>
      if n ∈ visited then (0, levels, visited)
      else
        match depsOf svcs n with
        | [] => (0, setN levels n 0, n :: visited)
        | d :: ds =>
          let r := (d :: ds).foldl
            (fun acc e =>
              let r1 := calcNode svcs f e acc.2.1 acc.2.2
              (max acc.1 r1.1, r1.2.1, r1.2.2))
            ((0 : Nat), levels, n :: visited)
          (r.1 + 1, setN r.2.1 n (r.1 + 1), r.2.2)

/-- The level memo produced by `buildDependencyLevels`: one
`calculateServiceLevel` call per ordered name, sharing the memo but with
a fresh visited set each time. -/
def levelsMapOf (svcs : Services) (ordered : List String) : List (String × Nat) :=
  ordered.foldl (fun lv n => (calcNode svcs (svcs.length + 1) n lv []).2.1) []

/-- Embeds `buildDependencyLevels`: compute every level, then group the
ordered names by level into `maxLevel + 1` groups (Go builds the groups
by appending in `orderedServiceNames` order, which is exactly a filter
per level). -/
def buildDependencyLevels (svcs : Services) (ordered : List String) : List (List String) :=
  if ordered.isEmpty then []
  else
    (List.range
        (ordered.foldl (fun m n => max m ((getN (levelsMapOf svcs ordered) n).getD 0)) 0
          + 1)).map
      (fun i => ordered.filter (fun n => (getN (levelsMapOf svcs ordered) n).getD 0 = i))

/-! ### Orchestrator run model -/

def getSvc : List (String × ServiceR) → String → Option ServiceR
  | [], _ => none
  | p :: rest, k => if p.1 = k then some p.2 else getSvc rest k

def setSvc (m : List (String × ServiceR)) (k : String) (svc : ServiceR) :
    List (String × ServiceR) :=
  match m with
  | [] => [(k, svc)]
  | p :: rest => if p.1 = k then (k, svc) :: rest else p :: setSvc rest k svc

/-- Run state of the scheduler: the orchestrator's service map, the
shared lock-protected `startedServices` accumulator (names, in start
completion order across the whole run), a logical clock assigning start
timestamps, and a trace recording, for every `Start` invocation, the
invoked name together with a snapshot of the service map at the moment
of invocation. -/
structure RunSt where
  services : List (String × ServiceR)
  started : List String
  clock : Nat
  startTrace : List (String × List (String × ServiceR))

/-- Embeds `startServicesInParallel`, linearized in completion order:
the caller passes the level's names in an arbitrary permutation (the
completion order of the goroutines).  Every name is attempted (a failure
of one start does not prevent the others), successfully started services
are appended to the shared accumulator, and all errors are collected. -/
def startServicesInParallel (o : Oracle) (net : String) (names : List String)
    (st : RunSt) : RunSt × List String :=
  names.foldl
    (fun acc n =>
      match getSvc acc.1.services n with
      | none => (acc.1, acc.2 ++ ["service " ++ n ++ " not found in orchestrator"])
      | some svc =>
        let r := ServiceR.start o acc.1.clock net svc
        let st1 : RunSt := {acc.1 with
          services := setSvc acc.1.services n r.1
          clock := acc.1.clock + 1
          startTrace := acc.1.startTrace ++ [(n, acc.1.services)]}
        match r.2 with
        | .ok _ => ({st1 with started := st1.started ++ [n]}, acc.2)
        | .error e => (st1, acc.2 ++ ["failed to start " ++ n ++ ": " ++ e]))
    (st, [])

/-- Embeds `waitForHealthy`: if no service of the level declares a
health check the gate is skipped entirely; otherwise each service with a
declared check runs `waitForServiceHealth`, all of them are polled (the
goroutines are independent), and the errors are collected. -/
def waitForHealthy (o : Oracle) (names : List String) (st : RunSt) : RunSt × List String :=
  if ¬ names.any (fun n =>
      match getSvc st.services n with
      | some svc => svc.config.health.isSome
      | none => false) then
    (st, [])
  else
    names.foldl
      (fun acc n =>
        match getSvc acc.1.services n with
        | none => acc
        | some svc =>
          match svc.config.health with
          | none => acc
          | some _ =>
            let r := waitForServiceHealth o svc
            let st1 : RunSt := {acc.1 with services := setSvc acc.1.services n r.1}
            match r.2.1 with
            | .ok _ => (st1, acc.2)
            | .error e => (st1, acc.2 ++ [e]))
      (st, [])

/-- Embeds `rollbackStartedServices`: stop the started services in
reverse start order, best-effort (a stop failure is only warned about
and the loop continues).  Returns the updated state and the names in
the order their stop was attempted. -/
def rollbackStartedServices (o : Oracle) (st : RunSt) (startedServices : List String) :
    RunSt × List String :=
  startedServices.reverse.foldl
    (fun acc n =>
      match getSvc acc.1.services n with
      | none => (acc.1, acc.2 ++ [n])
      | some svc =>
        let r := ServiceR.stop o acc.1.clock svc
        ({acc.1 with
          services := setSvc acc.1.services n r.1
          clock := acc.1.clock + 1}, acc.2 ++ [n]))
    (st, [])

/-- Embeds the level loop of `StartServicesInOrder`: start each level in
parallel (linearized by the completion-order function `reorder`), roll
back everything started so far on a start failure or a failed readiness
gate, and otherwise advance to the next level.  Returns the final state,
the result, and the rollback stop order (empty when no rollback ran). -/
def runLevels (o : Oracle) (net : String) (reorder : Nat → List String → List String) :
    Nat → List (List String) → RunSt → RunSt × Except String Unit × List String
  | _, [], st => (st, .ok (), [])
  | k, lvl :: rest, st =>
    let r1 := startServicesInParallel o net (reorder k lvl) st
    if r1.2 ≠ [] then
      let rb := rollbackStartedServices o r1.1 r1.1.started
      (rb.1, .error (r1.2.headD ""), rb.2)
    else
      let r2 := waitForHealthy o lvl r1.1
      if r2.2 ≠ [] then
        let rb := rollbackStartedServices o r2.1 r2.1.started
        (rb.1, .error (r2.2.headD ""), rb.2)
      else runLevels o net reorder (k + 1) rest r2.1

/-- Embeds `StartServicesInOrder`: build the dependency levels from the
resolver's order and the full declaration set, then run them strictly
sequentially. -/
def StartServicesInOrder (o : Oracle) (net : String)
    (reorder : Nat → List String → List String) (cfg : Services)
    (ordered : List String) (st : RunSt) : RunSt × Except String Unit × List String :=
  runLevels o net reorder 0 (buildDependencyLevels cfg ordered) st

/-- Map extension: every binding of the first memo survives in the second. -/
def Submap (L L2 : List (String × Nat)) : Prop :=
  ∀ k v, getN L k = some v → getN L2 k = some v

/-- The level memo is internally coherent: a memoized unit with no
dependencies has level 0, and one with dependencies has all of them
memoized and carries one plus their maximum. -/
def MemoCoherent (svcs : Services) (L : List (String × Nat)) : Prop :=
  ∀ n v, getN L n = some v →
    (depsOf svcs n = [] → v = 0) ∧
    (∀ d ∈ depsOf svcs n, (getN L d).isSome) ∧
    (depsOf svcs n ≠ [] →
      v = ((depsOf svcs n).map (fun d => (getN L d).getD 0)).foldl max 0 + 1)

/-- The dependency fold inside `calcNode`, named for reasoning. -/
def calcFold (svcs : Services) (f : Nat) (ds : List String) (a : Nat)
    (L : List (String × Nat)) (V : List String) :
    Nat × List (String × Nat) × List String :=
  ds.foldl
    (fun acc e =>
      let r1 := calcNode svcs f e acc.2.1 acc.2.2
      (max acc.1 r1.1, r1.2.1, r1.2.2)) (a, L, V)

/-- The root loop of `buildDependencyLevels` from an arbitrary starting
memo: one `calculateServiceLevel` call per name, fresh visited set each
time. -/
def levelsFold (svcs : Services) (names : List String) (L : List (String × Nat)) :
    List (String × Nat) :=
  names.foldl (fun lv n => (calcNode svcs (svcs.length + 1) n lv []).2.1) L

/-- The level assigned to a name by `buildDependencyLevels` (Go reads
`serviceLevels[name]`, with 0 as the missing-key zero value). -/
def lvlOf (svcs : Services) (ordered : List String) (n : String) : Nat :=
  (getN (levelsMapOf svcs ordered) n).getD 0

/-- All stages succeed except the HTTP probe, which never returns 2xx. -/
def oracleProbeFails : Oracle :=
  ⟨fun _ => .ok, fun _ => .ok (), fun _ => .ok "cid0", fun _ => .ok (),
   fun _ _ _ => false, fun _ => true⟩

def exProbe : HealthCheck := ⟨"/h", none, none, 0⟩

/-- A running service declaring `exProbe`, obtained by a successful start. -/
def exProbeSvc : ServiceR :=
  (ServiceR.start oracleProbeFails 0 "net" (ServiceR.new "svc" ⟨[], some exProbe⟩)).1

/-! ### Rollback and level-loop lemmas -/

/-- The per-name step of `startServicesInParallel`, named for reasoning. -/
def startParStep (o : Oracle) (net : String) (acc : RunSt × List String) (n : String) :
    RunSt × List String :=
  match getSvc acc.1.services n with
  | none => (acc.1, acc.2 ++ ["service " ++ n ++ " not found in orchestrator"])
  | some svc =>
    let r := ServiceR.start o acc.1.clock net svc
    let st1 : RunSt := {acc.1 with
      services := setSvc acc.1.services n r.1
      clock := acc.1.clock + 1
      startTrace := acc.1.startTrace ++ [(n, acc.1.services)]}
    match r.2 with
    | .ok _ => ({st1 with started := st1.started ++ [n]}, acc.2)
    | .error e => (st1, acc.2 ++ ["failed to start " ++ n ++ ": " ++ e])

/-- The per-name step of `waitForHealthy`, named for reasoning. -/
def waitHStep (o : Oracle) (acc : RunSt × List String) (n : String) : RunSt × List String :=
  match getSvc acc.1.services n with
  | none => acc
  | some svc =>
    match svc.config.health with
    | none => acc
    | some _ =>
      let r := waitForServiceHealth o svc
      let st1 : RunSt := {acc.1 with services := setSvc acc.1.services n r.1}
      match r.2.1 with
      | .ok _ => (st1, acc.2)
      | .error e => (st1, acc.2 ++ [e])

/-! ### Claim C4 -/

/-- All stages succeed except running the container named `api`. -/
def oracleApiFails : Oracle :=
  ⟨fun _ => .ok, fun _ => .ok (),
   fun n => if n = "api" then .error "boom" else .ok ("c-" ++ n),
   fun _ => .ok (), fun _ _ _ => true, fun _ => true⟩

/-- The identity completion order: goroutines finish in launch order. -/
def idReorder : Nat → List String → List String := fun _ l => l

/-- The orchestrator state `up` builds for `exChain`: one pending
service per ordered name, clock 0, empty accumulators. -/
def exRunSt : RunSt :=
  ⟨["db", "api", "web"].map
      (fun n => (n, ServiceR.new n ((lookupSvc exChain n).getD ⟨[], none⟩))),
   [], 0, []⟩

/-- Hygiene of a level sequence relative to the already-processed names:
each group is duplicate-free and disjoint from everything processed
before it (hence from all earlier groups). -/
def GroupsOK : List String → List (List String) → Prop
  | _, [] => True
  | D, g :: rest => g.Nodup ∧ (∀ n ∈ g, n ∉ D) ∧ GroupsOK (D ++ g) rest

/-- Layering of the dependency relation: every dependency of a group
member was already processed before the group runs. -/
def LayeredOK (cfg : Services) : List String → List (List String) → Prop
  | _, [] => True
  | D, g :: rest => (∀ n ∈ g, ∀ d ∈ depsOf cfg n, d ∈ D) ∧ LayeredOK cfg (D ++ g) rest

theorem Reaches.trans {svcs : Services} {a b c : String}
    (h1 : Reaches svcs a b) (h2 : Reaches svcs b c) : Reaches svcs a c := by
  induction h1 with
  | refl _ => exact h2
  | step hd _ ih => exact .step hd (ih h2)

/-! ### Basic lookup lemmas -/

theorem lookupSvc_isSome_iff (svcs : Services) (n : String) :
    (lookupSvc svcs n).isSome ↔ n ∈ svcs.map Prod.fst := by
  induction svcs with
  | nil => simp [lookupSvc]
  | cons p rest ih =>
    simp only [lookupSvc, List.map_cons, List.mem_cons]
    by_cases h : p.1 = n
    · simp [h]
    · have h2 : ¬ (n = p.1) := fun hh => h hh.symm
      simp [h, h2, ih]

theorem depsOf_eq_nil_of_not_declared {svcs : Services} {n : String}
    (h : n ∉ svcs.map Prod.fst) : depsOf svcs n = [] := by
  have : ¬ (lookupSvc svcs n).isSome := fun hs => h ((lookupSvc_isSome_iff svcs n).mp hs)
  unfold depsOf
  cases hl : lookupSvc svcs n with
  | none => rfl
  | some s => exact absurd (by simp [hl]) this

theorem unvisitedCount_mono {svcs : Services} {v1 v2 : List String} (h : v1 ⊆ v2) :
    unvisitedCount svcs v2 ≤ unvisitedCount svcs v1 := by
  refine List.Sublist.length_le (List.monotone_filter_right _ ?_)
  intro a ha
  simp only [decide_eq_true_eq] at *
  exact fun hmem => ha (h hmem)

theorem unvisitedCount_cons_lt {svcs : Services} {n : String} {visited : List String}
    (hdecl : n ∈ svcs.map Prod.fst) (hnv : n ∉ visited) :
    unvisitedCount svcs (n :: visited) < unvisitedCount svcs visited := by
  have hsub : List.Sublist ((declaredNames svcs).filter (fun a => a ∉ n :: visited))
      ((declaredNames svcs).filter (fun a => a ∉ visited)) := by
    refine List.monotone_filter_right _ ?_
    intro a ha
    simp only [decide_eq_true_eq, List.mem_cons] at *
    exact fun hmem => ha (Or.inr hmem)
  refine Nat.lt_of_le_of_ne hsub.length_le ?_
  intro heq
  have heqlist := hsub.eq_of_length heq
  have hn1 : n ∈ (declaredNames svcs).filter (fun a => a ∉ visited) :=
    List.mem_filter.mpr ⟨List.mem_dedup.mpr hdecl, by simpa using hnv⟩
  rw [← heqlist] at hn1
  have hn2 := (List.mem_filter.mp hn1).2
  rw [decide_eq_true_eq] at hn2
  exact hn2 (List.mem_cons_self _ _)

theorem unvisitedCount_le (svcs : Services) (v : List String) :
    unvisitedCount svcs v ≤ svcs.length := by
  calc unvisitedCount svcs v ≤ (declaredNames svcs).length :=
        (List.filter_sublist _).length_le
    _ ≤ (svcs.map Prod.fst).length := (List.dedup_sublist _).length_le
    _ = svcs.length := List.length_map _ _

theorem collectList_nil (svcs : Services) (f : Nat) (st : CollectSt) :
    collectList svcs f [] st = st := rfl

theorem collectList_cons (svcs : Services) (f : Nat) (d : String) (ds : List String)
    (st : CollectSt) :
    collectList svcs f (d :: ds) st = collectList svcs f ds (collectNode svcs f d st) := rfl

theorem collectNode_succ (svcs : Services) (f : Nat) (n : String) (st : CollectSt) :
    collectNode svcs (f + 1) n st =
      if n ∈ st.visited then st
      else
        let st2 := collectList svcs f (depsOf svcs n) ⟨n :: st.visited, st.result⟩
        ⟨st2.visited, st2.result ++ [n]⟩ := rfl

theorem collect_visited_mono (svcs : Services) : ∀ f : Nat,
    (∀ n st, st.visited ⊆ (collectNode svcs f n st).visited) ∧
    (∀ ds st, st.visited ⊆ (collectList svcs f ds st).visited) := by
  intro f
  induction f with
  | zero =>
    constructor
    · intro n st; simp [collectNode]
    · intro ds
      induction ds with
      | nil => intro st; simp [collectList_nil]
      | cons d ds ih => intro st; rw [collectList_cons]; simpa [collectNode] using ih _
  | succ f ih =>
    have hnode : ∀ n st, st.visited ⊆ (collectNode svcs (f + 1) n st).visited := by
      intro n st
      rw [collectNode_succ]
      split
      · exact fun x hx => hx
      · intro x hx
        exact ih.2 (depsOf svcs n) ⟨n :: st.visited, st.result⟩ (List.mem_cons_of_mem _ hx)
    refine ⟨hnode, ?_⟩
    intro ds
    induction ds with
    | nil => intro st; simp [collectList_nil]
    | cons d ds ihl =>
      intro st
      rw [collectList_cons]
      exact (hnode d st).trans (ihl _)

theorem collectNode_visited_mono (svcs : Services) (f : Nat) (n : String) (st : CollectSt) :
    st.visited ⊆ (collectNode svcs f n st).visited :=
  (collect_visited_mono svcs f).1 n st

theorem collectList_visited_mono (svcs : Services) (f : Nat) (ds : List String)
    (st : CollectSt) : st.visited ⊆ (collectList svcs f ds st).visited :=
  (collect_visited_mono svcs f).2 ds st

theorem collect_result_spec (svcs : Services) : ∀ f : Nat,
    (∀ n st, ∃ t, (collectNode svcs f n st).result = st.result ++ t ∧
      ∀ x ∈ t, x ∉ st.visited) ∧
    (∀ ds st, ∃ t, (collectList svcs f ds st).result = st.result ++ t ∧
      ∀ x ∈ t, x ∉ st.visited) := by
  intro f
  induction f with
  | zero =>
    constructor
    · intro n st; exact ⟨[], by simp [collectNode], by simp⟩
    · intro ds
      induction ds with
      | nil => intro st; exact ⟨[], by simp [collectList_nil], by simp⟩
      | cons d ds ih =>
        intro st
        rw [collectList_cons]
        obtain ⟨t, ht, hf⟩ := ih (collectNode svcs 0 d st)
        exact ⟨t, by simpa [collectNode] using ht, by simpa [collectNode] using hf⟩
  | succ f ih =>
    have hnode : ∀ n st, ∃ t, (collectNode svcs (f + 1) n st).result = st.result ++ t ∧
        ∀ x ∈ t, x ∉ st.visited := by
      intro n st
      rw [collectNode_succ]
      split
      · exact ⟨[], by simp, by simp⟩
      · rename_i hnv
        obtain ⟨t, ht, hf⟩ := ih.2 (depsOf svcs n) ⟨n :: st.visited, st.result⟩
        refine ⟨t ++ [n], ?_, ?_⟩
        · simp [ht]
        · intro x hx
          rcases List.mem_append.mp hx with hx | hx
          · exact fun hv => hf x hx (List.mem_cons_of_mem _ hv)
          · simp only [List.mem_singleton] at hx
            subst hx; exact hnv
    refine ⟨hnode, ?_⟩
    intro ds
    induction ds with
    | nil => intro st; exact ⟨[], by simp [collectList_nil], by simp⟩
    | cons d ds ihl =>
      intro st
      rw [collectList_cons]
      obtain ⟨t1, ht1, hf1⟩ := hnode d st
      obtain ⟨t2, ht2, hf2⟩ := ihl (collectNode svcs (f + 1) d st)
      refine ⟨t1 ++ t2, by rw [ht2, ht1, List.append_assoc], ?_⟩
      intro x hx
      rcases List.mem_append.mp hx with hx | hx
      · exact hf1 x hx
      · exact fun hv => hf2 x hx (collectNode_visited_mono svcs (f + 1) d st hv)

theorem collect_visited_in_result (svcs : Services) : ∀ f : Nat,
    (∀ n st, ∀ x ∈ (collectNode svcs f n st).visited,
      x ∈ st.visited ∨ x ∈ (collectNode svcs f n st).result) ∧
    (∀ ds st, ∀ x ∈ (collectList svcs f ds st).visited,
      x ∈ st.visited ∨ x ∈ (collectList svcs f ds st).result) := by
  intro f
  induction f with
  | zero =>
    constructor
    · intro n st x hx; exact Or.inl (by simpa [collectNode] using hx)
    · intro ds
      induction ds with
      | nil => intro st x hx; exact Or.inl (by simpa [collectList_nil] using hx)
      | cons d ds ih =>
        intro st x hx
        rw [collectList_cons] at hx ⊢
        simpa [collectNode] using ih _ x (by simpa [collectNode] using hx)
  | succ f ih =>
    have hres : ∀ ds st, (st : CollectSt).result ⊆ (collectList svcs (f+1) ds st).result := by
      intro ds st
      obtain ⟨t, ht, _⟩ := (collect_result_spec svcs (f+1)).2 ds st
      rw [ht]; exact fun x hx => List.mem_append.mpr (Or.inl hx)
    have hnode : ∀ n st, ∀ x ∈ (collectNode svcs (f + 1) n st).visited,
        x ∈ st.visited ∨ x ∈ (collectNode svcs (f + 1) n st).result := by
      intro n st x hx
      rw [collectNode_succ] at hx ⊢
      by_cases hnv : n ∈ st.visited
      · simp only [hnv, if_true] at hx ⊢; exact Or.inl hx
      · simp only [hnv, if_false] at hx ⊢
        rcases ih.2 (depsOf svcs n) ⟨n :: st.visited, st.result⟩ x hx with hx2 | hx2
        · rcases List.mem_cons.mp hx2 with rfl | hx3
          · exact Or.inr (List.mem_append.mpr (Or.inr (by simp)))
          · exact Or.inl hx3
        · exact Or.inr (List.mem_append.mpr (Or.inl hx2))
    refine ⟨hnode, ?_⟩
    intro ds
    induction ds with
    | nil => intro st x hx; exact Or.inl (by simpa [collectList_nil] using hx)
    | cons d ds ihl =>
      intro st x hx
      rw [collectList_cons] at hx ⊢
      rcases ihl (collectNode svcs (f + 1) d st) x hx with hx2 | hx2
      · rcases hnode d st x hx2 with hx3 | hx3
        · exact Or.inl hx3
        · exact Or.inr (hres ds _ hx3)
      · exact Or.inr hx2

theorem collect_nodup (svcs : Services) : ∀ f : Nat,
    (∀ n st, st.result.Nodup → (∀ x ∈ st.result, x ∈ st.visited) →
      (collectNode svcs f n st).result.Nodup ∧
      ∀ x ∈ (collectNode svcs f n st).result, x ∈ (collectNode svcs f n st).visited) ∧
    (∀ ds st, st.result.Nodup → (∀ x ∈ st.result, x ∈ st.visited) →
      (collectList svcs f ds st).result.Nodup ∧
      ∀ x ∈ (collectList svcs f ds st).result, x ∈ (collectList svcs f ds st).visited) := by
  intro f
  induction f with
  | zero =>
    constructor
    · intro n st h1 h2; simpa [collectNode] using ⟨h1, h2⟩
    · intro ds
      induction ds with
      | nil => intro st h1 h2; simpa [collectList_nil] using ⟨h1, h2⟩
      | cons d ds ih =>
        intro st h1 h2
        rw [collectList_cons]
        have := ih st
        simpa [collectNode] using ih st h1 h2
  | succ f ih =>
    have hnode : ∀ n st, st.result.Nodup → (∀ x ∈ st.result, x ∈ st.visited) →
        (collectNode svcs (f + 1) n st).result.Nodup ∧
        ∀ x ∈ (collectNode svcs (f + 1) n st).result,
          x ∈ (collectNode svcs (f + 1) n st).visited := by
      intro n st h1 h2
      rw [collectNode_succ]
      by_cases hnv : n ∈ st.visited
      · simp only [hnv, if_true]; exact ⟨h1, h2⟩
      · simp only [hnv, if_false]
        have hst1 := ih.2 (depsOf svcs n) ⟨n :: st.visited, st.result⟩ h1
          (fun x hx => List.mem_cons_of_mem _ (h2 x hx))
        obtain ⟨t, ht, hfresh⟩ :=
          (collect_result_spec svcs f).2 (depsOf svcs n) ⟨n :: st.visited, st.result⟩
        constructor
        · refine List.Nodup.append hst1.1 (List.nodup_singleton n) ?_
          intro x hx hxn
          simp only [List.mem_singleton] at hxn
          subst hxn
          rw [ht] at hx
          rcases List.mem_append.mp hx with hx | hx
          · exact hnv (h2 x hx)
          · exact hfresh x hx (List.mem_cons_self _ _)
        · intro x hx
          rcases List.mem_append.mp hx with hx | hx
          · exact hst1.2 x hx
          · simp only [List.mem_singleton] at hx
            subst hx
            exact collectList_visited_mono svcs f _ _ (List.mem_cons_self _ _)
    refine ⟨hnode, ?_⟩
    intro ds
    induction ds with
    | nil => intro st h1 h2; simpa [collectList_nil] using ⟨h1, h2⟩
    | cons d ds ihl =>
      intro st h1 h2
      rw [collectList_cons]
      have hd := hnode d st h1 h2
      exact ihl _ hd.1 hd.2

theorem collect_reach (svcs : Services) : ∀ f : Nat,
    (∀ n st, unvisitedCount svcs st.visited < f →
      n ∈ (collectNode svcs f n st).visited ∧
      (∀ x ∈ (collectNode svcs f n st).visited, x ∈ st.visited ∨ Reaches svcs n x) ∧
      (∀ x ∈ (collectNode svcs f n st).visited, x ∉ st.visited →
        ∀ d ∈ depsOf svcs x, d ∈ (collectNode svcs f n st).visited)) ∧
    (∀ ds st, unvisitedCount svcs st.visited < f →
      (∀ d ∈ ds, d ∈ (collectList svcs f ds st).visited) ∧
      (∀ x ∈ (collectList svcs f ds st).visited,
        x ∈ st.visited ∨ ∃ d ∈ ds, Reaches svcs d x) ∧
      (∀ x ∈ (collectList svcs f ds st).visited, x ∉ st.visited →
        ∀ e ∈ depsOf svcs x, e ∈ (collectList svcs f ds st).visited)) := by
  intro f
  induction f with
  | zero =>
    exact ⟨fun n st h => absurd h (Nat.not_lt_zero _),
           fun ds st h => absurd h (Nat.not_lt_zero _)⟩
  | succ f ih =>
    have hnode : ∀ n st, unvisitedCount svcs st.visited < f + 1 →
        n ∈ (collectNode svcs (f + 1) n st).visited ∧
        (∀ x ∈ (collectNode svcs (f + 1) n st).visited,
          x ∈ st.visited ∨ Reaches svcs n x) ∧
        (∀ x ∈ (collectNode svcs (f + 1) n st).visited, x ∉ st.visited →
          ∀ d ∈ depsOf svcs x, d ∈ (collectNode svcs (f + 1) n st).visited) := by
      intro n st hcnt
      rw [collectNode_succ]
      by_cases hnv : n ∈ st.visited
      · rw [if_pos hnv]
        exact ⟨hnv, fun x hx => Or.inl hx, fun x hx hnx => absurd hx hnx⟩
      · rw [if_neg hnv]
        by_cases hdecl : n ∈ svcs.map Prod.fst
        · -- declared node: potential strictly decreases, use the list IH
          have hcnt1 : unvisitedCount svcs (n :: st.visited) < f :=
            Nat.lt_of_lt_of_le (unvisitedCount_cons_lt hdecl hnv)
              (Nat.lt_succ_iff.mp hcnt)
          obtain ⟨hmem, hreach, hclosed⟩ :=
            ih.2 (depsOf svcs n) ⟨n :: st.visited, st.result⟩ hcnt1
          refine ⟨?_, ?_, ?_⟩
          · exact collectList_visited_mono svcs f _ _ (List.mem_cons_self _ _)
          · intro x hx
            rcases hreach x hx with hx2 | hx2
            · rcases List.mem_cons.mp hx2 with rfl | hx3
              · exact Or.inr (Reaches.refl x)
              · exact Or.inl hx3
            · obtain ⟨d, hd, hr⟩ := hx2
              exact Or.inr (Reaches.step hd hr)
          · intro x hx hnx d hd
            by_cases hx1 : x ∈ (⟨n :: st.visited, st.result⟩ : CollectSt).visited
            · rcases List.mem_cons.mp hx1 with rfl | hx3
              · exact hmem d hd
              · exact absurd hx3 hnx
            · exact hclosed x hx hx1 d hd
        · -- dangling node: no dependencies, the fold is trivial
          have hdeps : depsOf svcs n = [] := depsOf_eq_nil_of_not_declared hdecl
          rw [hdeps, collectList_nil]
          refine ⟨List.mem_cons_self _ _, ?_, ?_⟩
          · intro x hx
            rcases List.mem_cons.mp hx with rfl | hx2
            · exact Or.inr (Reaches.refl x)
            · exact Or.inl hx2
          · intro x hx hnx d hd
            rcases List.mem_cons.mp hx with rfl | hx2
            · rw [hdeps] at hd; exact absurd hd (List.not_mem_nil d)
            · exact absurd hx2 hnx
    refine ⟨hnode, ?_⟩
    intro ds
    induction ds with
    | nil =>
      intro st _
      exact ⟨fun d hd => absurd hd (List.not_mem_nil d),
             fun x hx => Or.inl (by simpa [collectList_nil] using hx),
             fun x hx hnx => absurd (by simpa [collectList_nil] using hx) hnx⟩
    | cons d ds ihl =>
      intro st hcnt
      rw [collectList_cons]
      have hcntA : unvisitedCount svcs (collectNode svcs (f + 1) d st).visited < f + 1 :=
        Nat.lt_of_le_of_lt (unvisitedCount_mono (collectNode_visited_mono svcs (f + 1) d st))
          hcnt
      obtain ⟨hdmem, hdreach, hdclosed⟩ := hnode d st hcnt
      obtain ⟨hmem, hreach, hclosed⟩ := ihl (collectNode svcs (f + 1) d st) hcntA
      refine ⟨?_, ?_, ?_⟩
      · intro e he
        rcases List.mem_cons.mp he with rfl | he2
        · exact collectList_visited_mono svcs (f + 1) ds _ hdmem
        · exact hmem e he2
      · intro x hx
        rcases hreach x hx with hx2 | hx2
        · rcases hdreach x hx2 with hx3 | hx3
          · exact Or.inl hx3
          · exact Or.inr ⟨d, List.mem_cons_self _ _, hx3⟩
        · obtain ⟨e, he, hr⟩ := hx2
          exact Or.inr ⟨e, List.mem_cons_of_mem _ he, hr⟩
      · intro x hx hnx e he
        by_cases hxA : x ∈ (collectNode svcs (f + 1) d st).visited
        · exact collectList_visited_mono svcs (f + 1) ds _ (hdclosed x hxA hnx e he)
        · exact hclosed x hx hxA e he

/-- Anything reachable from a member of a dependency-closed set is a member. -/
theorem Reaches.mem_closed {svcs : Services} {V : List String}
    (hcl : ∀ x ∈ V, ∀ d ∈ depsOf svcs x, d ∈ V) :
    ∀ {a b : String}, Reaches svcs a b → a ∈ V → b ∈ V := by
  intro a b hr
  induction hr with
  | refl n => exact id
  | step hd _ ih => intro ha; exact ih (hcl _ ha _ hd)

/-- Full characterization of `collectAllDependencies`: the closure has no
duplicates, contains exactly the names reachable from the requested ones,
and is dependency-closed. -/
theorem collectAllDependencies_spec (svcs : Services) (requested : List String) :
    (collectAllDependencies svcs requested).Nodup ∧
    (∀ x, x ∈ collectAllDependencies svcs requested ↔
      ∃ n ∈ requested, Reaches svcs n x) ∧
    (∀ x ∈ collectAllDependencies svcs requested,
      ∀ d ∈ depsOf svcs x, d ∈ collectAllDependencies svcs requested) := by
  have hrw : collectAllDependencies svcs requested =
      (collectList svcs (svcs.length + 1) requested ⟨[], []⟩).result := rfl
  have hcnt : unvisitedCount svcs ([] : List String) < svcs.length + 1 :=
    Nat.lt_succ_of_le (unvisitedCount_le svcs [])
  obtain ⟨hmem, hreach, hclosed⟩ :=
    (collect_reach svcs (svcs.length + 1)).2 requested ⟨[], []⟩ hcnt
  have hnodup := (collect_nodup svcs (svcs.length + 1)).2 requested ⟨[], []⟩
    List.nodup_nil (by simp)
  have hvin := (collect_visited_in_result svcs (svcs.length + 1)).2 requested ⟨[], []⟩
  -- on this run, visited and result coincide as sets
  have hiff : ∀ x, x ∈ (collectList svcs (svcs.length + 1) requested ⟨[], []⟩).result ↔
      x ∈ (collectList svcs (svcs.length + 1) requested ⟨[], []⟩).visited := by
    intro x
    constructor
    · exact hnodup.2 x
    · intro hx
      rcases hvin x hx with hx2 | hx2
      · exact absurd hx2 (List.not_mem_nil x)
      · exact hx2
  rw [hrw]
  refine ⟨hnodup.1, ?_, ?_⟩
  · intro x
    rw [hiff]
    constructor
    · intro hx
      rcases hreach x hx with hx2 | hx2
      · exact absurd hx2 (List.not_mem_nil x)
      · exact hx2
    · rintro ⟨n, hn, hr⟩
      -- reachable names are visited: the visited set is dependency-closed
      exact Reaches.mem_closed
        (fun y hy d hd => hclosed y hy (List.not_mem_nil y) d hd) hr (hmem n hn)
  · intro x hx d hd
    rw [hiff] at hx ⊢
    exact hclosed x hx (List.not_mem_nil x) d hd

theorem detectList_nil (svcs : Services) (f : Nat) (st : DetectSt) :
    detectList svcs f [] st = .ok st := rfl

theorem detectList_cons (svcs : Services) (f : Nat) (d : String) (ds : List String)
    (st : DetectSt) :
    detectList svcs f (d :: ds) st =
      match (if d ∈ st.recStack then Except.error (st.path ++ [d])
             else if d ∈ st.visited then Except.ok st
             else detectNode svcs f d st : Except (List String) DetectSt) with
      | .error e => .error e
      | .ok st2 => detectList svcs f ds st2 := by
  show List.foldlM _ _ _ = _
  rw [List.foldlM_cons]
  cases hstep : (if d ∈ st.recStack then Except.error (st.path ++ [d])
      else if d ∈ st.visited then Except.ok st
      else detectNode svcs f d st : Except (List String) DetectSt) with
  | error e => rfl
  | ok st2 => rfl

theorem detectNode_succ (svcs : Services) (f : Nat) (n : String) (st : DetectSt) :
    detectNode svcs (f + 1) n st =
      match detectList svcs f (depsOf svcs n) ⟨n :: st.visited, n :: st.recStack, st.path ++ [n]⟩ with
      | .error e => .error e
      | .ok st2 => .ok ⟨st2.visited, st2.recStack.erase n, st2.path.dropLast⟩ := rfl

/-- Success postconditions of the cycle-detecting DFS: the path and the
recursion stack are restored, the visited set only grows, and every
entered node ends up visited.  The entered node must be unvisited, which
both call sites check. -/
theorem detect_post (svcs : Services) : ∀ f : Nat,
    (∀ n st st', unvisitedCount svcs st.visited < f → n ∉ st.visited →
      detectNode svcs f n st = .ok st' →
      st'.path = st.path ∧ st'.recStack = st.recStack ∧
      st.visited ⊆ st'.visited ∧ n ∈ st'.visited) ∧
    (∀ ds st st', unvisitedCount svcs st.visited < f →
      detectList svcs f ds st = .ok st' →
      st'.path = st.path ∧ st'.recStack = st.recStack ∧
      st.visited ⊆ st'.visited ∧ ∀ d ∈ ds, d ∈ st'.visited) := by
  intro f
  induction f with
  | zero =>
    exact ⟨fun n st st' h => absurd h (Nat.not_lt_zero _),
           fun ds st st' h => absurd h (Nat.not_lt_zero _)⟩
  | succ f ih =>
    have hnode : ∀ n st st', unvisitedCount svcs st.visited < f + 1 → n ∉ st.visited →
        detectNode svcs (f + 1) n st = .ok st' →
        st'.path = st.path ∧ st'.recStack = st.recStack ∧
        st.visited ⊆ st'.visited ∧ n ∈ st'.visited := by
      intro n st st' hcnt hnv hok
      rw [detectNode_succ] at hok
      cases hfold : detectList svcs f (depsOf svcs n)
          ⟨n :: st.visited, n :: st.recStack, st.path ++ [n]⟩ with
      | error e => rw [hfold] at hok; exact Except.noConfusion hok
      | ok st2 =>
        rw [hfold] at hok
        injection hok with hst'
        subst hst'
        -- establish the fold's postconditions
        have hpost : st2.path = st.path ++ [n] ∧ st2.recStack = n :: st.recStack ∧
            (n :: st.visited : List String) ⊆ st2.visited := by
          by_cases hdecl : n ∈ svcs.map Prod.fst
          · have hcnt1 : unvisitedCount svcs (n :: st.visited) < f :=
              Nat.lt_of_lt_of_le (unvisitedCount_cons_lt hdecl hnv) (Nat.lt_succ_iff.mp hcnt)
            obtain ⟨h1, h2, h3, _⟩ := ih.2 (depsOf svcs n)
              ⟨n :: st.visited, n :: st.recStack, st.path ++ [n]⟩ st2 hcnt1 hfold
            exact ⟨h1, h2, h3⟩
          · rw [depsOf_eq_nil_of_not_declared hdecl, detectList_nil] at hfold
            injection hfold with hst2
            rw [← hst2]
            exact ⟨rfl, rfl, fun x hx => hx⟩
        obtain ⟨hp, hr, hv⟩ := hpost
        refine ⟨?_, ?_, ?_, ?_⟩
        · simp [hp]
        · simp [hr]
        · exact fun x hx => hv (List.mem_cons_of_mem _ hx)
        · exact hv (List.mem_cons_self _ _)
    refine ⟨hnode, ?_⟩
    intro ds
    induction ds with
    | nil =>
      intro st st' _ hok
      rw [detectList_nil] at hok
      injection hok with h
      subst h
      exact ⟨rfl, rfl, fun x hx => hx, fun d hd => absurd hd (List.not_mem_nil d)⟩
    | cons d ds ihl =>
      intro st st' hcnt hok
      rw [detectList_cons] at hok
      by_cases hdr : d ∈ st.recStack
      · rw [if_pos hdr] at hok; exact Except.noConfusion hok
      · rw [if_neg hdr] at hok
        by_cases hdv : d ∈ st.visited
        · rw [if_pos hdv] at hok
          obtain ⟨h1, h2, h3, h4⟩ := ihl st st' hcnt hok
          exact ⟨h1, h2, h3, fun e he => by
            rcases List.mem_cons.mp he with rfl | he2
            · exact h3 hdv
            · exact h4 e he2⟩
        · rw [if_neg hdv] at hok
          cases hstep : detectNode svcs (f + 1) d st with
          | error e => rw [hstep] at hok; exact Except.noConfusion hok
          | ok stA =>
            rw [hstep] at hok
            obtain ⟨h1, h2, h3, h4⟩ := hnode d st stA hcnt hdv hstep
            have hcntA : unvisitedCount svcs stA.visited < f + 1 :=
              Nat.lt_of_le_of_lt (unvisitedCount_mono h3) hcnt
            obtain ⟨g1, g2, g3, g4⟩ := ihl stA st' hcntA hok
            refine ⟨by rw [g1, h1], by rw [g2, h2], fun x hx => g3 (h3 hx), ?_⟩
            intro e he
            rcases List.mem_cons.mp he with rfl | he2
            · exact g3 h4
            · exact g4 e he2

/-- Soundness of the DFS: an error value is the current path extended by
a node already on it, and forms a dependency chain. -/
theorem detect_sound (svcs : Services) : ∀ f : Nat,
    (∀ n st e, unvisitedCount svcs st.visited < f → n ∉ st.visited →
      st.recStack = st.path.reverse → DepChain svcs (st.path ++ [n]) →
      detectNode svcs f n st = .error e →
      ∃ q d, e = q ++ [d] ∧ d ∈ q ∧ DepChain svcs e) ∧
    (∀ ds st e, unvisitedCount svcs st.visited < f →
      st.recStack = st.path.reverse → (∀ d ∈ ds, DepChain svcs (st.path ++ [d])) →
      detectList svcs f ds st = .error e →
      ∃ q d, e = q ++ [d] ∧ d ∈ q ∧ DepChain svcs e) := by
  intro f
  induction f with
  | zero =>
    exact ⟨fun n st e h => absurd h (Nat.not_lt_zero _),
           fun ds st e h => absurd h (Nat.not_lt_zero _)⟩
  | succ f ih =>
    have hnode : ∀ n st e, unvisitedCount svcs st.visited < f + 1 → n ∉ st.visited →
        st.recStack = st.path.reverse → DepChain svcs (st.path ++ [n]) →
        detectNode svcs (f + 1) n st = .error e →
        ∃ q d, e = q ++ [d] ∧ d ∈ q ∧ DepChain svcs e := by
      intro n st e hcnt hnv hrs hch herr
      rw [detectNode_succ] at herr
      cases hfold : detectList svcs f (depsOf svcs n)
          ⟨n :: st.visited, n :: st.recStack, st.path ++ [n]⟩ with
      | ok st2 => rw [hfold] at herr; exact Except.noConfusion herr
      | error e2 =>
        rw [hfold] at herr
        injection herr with he
        rw [← he]
        by_cases hdecl : n ∈ svcs.map Prod.fst
        · have hcnt1 : unvisitedCount svcs (n :: st.visited) < f :=
            Nat.lt_of_lt_of_le (unvisitedCount_cons_lt hdecl hnv) (Nat.lt_succ_iff.mp hcnt)
          refine ih.2 (depsOf svcs n) ⟨n :: st.visited, n :: st.recStack, st.path ++ [n]⟩
            e2 hcnt1 ?_ ?_ hfold
          · show n :: st.recStack = (st.path ++ [n]).reverse
            simp [hrs]
          · intro d hd
            show DepChain svcs ((st.path ++ [n]) ++ [d])
            refine (List.chain'_append).mpr ⟨hch, List.chain'_singleton d, ?_⟩
            intro x hx y hy
            rw [List.getLast?_concat] at hx
            simp only [List.head?_cons, Option.mem_def, Option.some.injEq] at hx hy
            subst hx; subst hy
            exact hd
        · rw [depsOf_eq_nil_of_not_declared hdecl, detectList_nil] at hfold
          exact Except.noConfusion hfold
    refine ⟨hnode, ?_⟩
    intro ds
    induction ds with
    | nil =>
      intro st e _ _ _ herr
      rw [detectList_nil] at herr
      exact Except.noConfusion herr
    | cons d ds ihl =>
      intro st e hcnt hrs hch herr
      rw [detectList_cons] at herr
      by_cases hdr : d ∈ st.recStack
      · rw [if_pos hdr] at herr
        injection herr with he
        subst he
        refine ⟨st.path, d, rfl, ?_, hch d (List.mem_cons_self _ _)⟩
        rw [hrs] at hdr
        exact (List.mem_reverse).mp hdr
      · rw [if_neg hdr] at herr
        by_cases hdv : d ∈ st.visited
        · rw [if_pos hdv] at herr
          exact ihl st e hcnt hrs (fun x hx => hch x (List.mem_cons_of_mem _ hx)) herr
        · rw [if_neg hdv] at herr
          cases hstep : detectNode svcs (f + 1) d st with
          | error e2 =>
            rw [hstep] at herr
            injection herr with he
            rw [← he]
            exact hnode d st e2 hcnt hdv hrs (hch d (List.mem_cons_self _ _)) hstep
          | ok stA =>
            rw [hstep] at herr
            obtain ⟨h1, h2, h3, _⟩ := (detect_post svcs (f + 1)).1 d st stA hcnt hdv hstep
            have hcntA : unvisitedCount svcs stA.visited < f + 1 :=
              Nat.lt_of_le_of_lt (unvisitedCount_mono h3) hcnt
            refine ihl stA e hcntA ?_ ?_ herr
            · rw [h1, h2]; exact hrs
            · rw [h1]; exact fun x hx => hch x (List.mem_cons_of_mem _ hx)

theorem le_foldr_max : ∀ (l : List Nat) (a : Nat), a ∈ l → a ≤ l.foldr max 0 := by
  intro l
  induction l with
  | nil => intro a ha; exact absurd ha (List.not_mem_nil a)
  | cons b l ih =>
    intro a ha
    rcases List.mem_cons.mp ha with rfl | ha2
    · exact Nat.le_max_left _ _
    · exact Nat.le_trans (ih a ha2) (Nat.le_max_right _ _)

/-- Completeness invariant of the DFS: a successful run preserves the
rank witness, blackens the entered node, and keeps black nodes black. -/
theorem detect_black (svcs : Services) : ∀ f : Nat,
    (∀ n st st', unvisitedCount svcs st.visited < f → n ∉ st.visited →
      n ∉ st.recStack → GoodRank svcs st →
      detectNode svcs f n st = .ok st' →
      GoodRank svcs st' ∧ BlackIn st' n ∧ ∀ x, BlackIn st x → BlackIn st' x) ∧
    (∀ ds st st', unvisitedCount svcs st.visited < f → GoodRank svcs st →
      detectList svcs f ds st = .ok st' →
      GoodRank svcs st' ∧ (∀ d ∈ ds, BlackIn st' d) ∧ ∀ x, BlackIn st x → BlackIn st' x) := by
  intro f
  induction f with
  | zero =>
    exact ⟨fun n st st' h => absurd h (Nat.not_lt_zero _),
           fun ds st st' h => absurd h (Nat.not_lt_zero _)⟩
  | succ f ih =>
    have hnode : ∀ n st st', unvisitedCount svcs st.visited < f + 1 → n ∉ st.visited →
        n ∉ st.recStack → GoodRank svcs st →
        detectNode svcs (f + 1) n st = .ok st' →
        GoodRank svcs st' ∧ BlackIn st' n ∧ ∀ x, BlackIn st x → BlackIn st' x := by
      intro n st st' hcnt hnv hnr hG hok
      rw [detectNode_succ] at hok
      cases hfold : detectList svcs f (depsOf svcs n)
          ⟨n :: st.visited, n :: st.recStack, st.path ++ [n]⟩ with
      | error e => rw [hfold] at hok; exact Except.noConfusion hok
      | ok st2 =>
        rw [hfold] at hok
        injection hok with hst'
        subst hst'
        -- black sets: st1 has the same black nodes as st
        have hblack1 : ∀ x, BlackIn st x →
            BlackIn ⟨n :: st.visited, n :: st.recStack, st.path ++ [n]⟩ x := by
          intro x hx
          have hxn : x ≠ n := fun h => hnv (h ▸ hx.1)
          exact ⟨List.mem_cons_of_mem _ hx.1, fun hmem => by
            rcases List.mem_cons.mp hmem with h | h
            · exact hxn h
            · exact hx.2 h⟩
        have hG1 : GoodRank svcs ⟨n :: st.visited, n :: st.recStack, st.path ++ [n]⟩ := by
          obtain ⟨rank, hrank⟩ := hG
          refine ⟨rank, ?_⟩
          intro x hx d hd
          have hxn : x ≠ n := by
            intro h
            subst h
            exact hx.2 (List.mem_cons_self _ _)
          have hxblack : BlackIn st x :=
            ⟨by rcases List.mem_cons.mp hx.1 with h | h
                · exact absurd h hxn
                · exact h,
             fun hmem => hx.2 (List.mem_cons_of_mem _ hmem)⟩
          obtain ⟨hdb, hlt⟩ := hrank x hxblack d hd
          exact ⟨hblack1 d hdb, hlt⟩
        -- run the list lemma (or the trivial fold for a dangling node)
        have hmain : GoodRank svcs st2 ∧ (∀ d ∈ depsOf svcs n, BlackIn st2 d) ∧
            (∀ x, BlackIn ⟨n :: st.visited, n :: st.recStack, st.path ++ [n]⟩ x →
              BlackIn st2 x) ∧ st2.recStack = n :: st.recStack ∧ n ∈ st2.visited := by
          by_cases hdecl : n ∈ svcs.map Prod.fst
          · have hcnt1 : unvisitedCount svcs (n :: st.visited) < f :=
              Nat.lt_of_lt_of_le (unvisitedCount_cons_lt hdecl hnv) (Nat.lt_succ_iff.mp hcnt)
            obtain ⟨g1, g2, g3⟩ := ih.2 (depsOf svcs n)
              ⟨n :: st.visited, n :: st.recStack, st.path ++ [n]⟩ st2 hcnt1 hG1 hfold
            obtain ⟨p1, p2, p3, _⟩ := (detect_post svcs f).2 (depsOf svcs n)
              ⟨n :: st.visited, n :: st.recStack, st.path ++ [n]⟩ st2 hcnt1 hfold
            exact ⟨g1, g2, g3, p2, p3 (List.mem_cons_self _ _)⟩
          · rw [depsOf_eq_nil_of_not_declared hdecl, detectList_nil] at hfold
            injection hfold with h2
            subst h2
            refine ⟨hG1, ?_, fun x hx => hx, rfl, List.mem_cons_self _ _⟩
            rw [depsOf_eq_nil_of_not_declared hdecl]
            exact fun d hd => absurd hd (List.not_mem_nil d)
        obtain ⟨hG2, hdeps2, hmono2, hrs2, hnv2⟩ := hmain
        -- black sets after the pop: those of st2 plus the entered node
        have herase : st2.recStack.erase n = st.recStack := by
          rw [hrs2, List.erase_cons_head]
        have hblackpop : ∀ x, BlackIn st2 x →
            BlackIn ⟨st2.visited, st2.recStack.erase n, st2.path.dropLast⟩ x := by
          intro x hx
          exact ⟨hx.1, fun hmem => hx.2 ((List.erase_sublist _ _).subset hmem)⟩
        have hnblack : BlackIn ⟨st2.visited, st2.recStack.erase n, st2.path.dropLast⟩ n := by
          refine ⟨hnv2, ?_⟩
          rw [herase]
          exact hnr
        have hblackpop2 : ∀ x,
            BlackIn ⟨st2.visited, st2.recStack.erase n, st2.path.dropLast⟩ x →
            BlackIn st2 x ∨ x = n := by
          intro x hx
          by_cases hxn : x = n
          · exact Or.inr hxn
          · refine Or.inl ⟨hx.1, ?_⟩
            intro hmem
            exact hx.2 ((List.mem_erase_of_ne hxn).mpr hmem)
        refine ⟨?_, hnblack, ?_⟩
        · obtain ⟨rank, hrank⟩ := hG2
          refine ⟨fun y => if y = n then ((depsOf svcs n).map rank).foldr max 0 + 1
            else rank y, ?_⟩
          intro x hx d hd
          rcases hblackpop2 x hx with hxb | rfl
          · obtain ⟨hdb, hlt⟩ := hrank x hxb d hd
            have hdn : d ≠ n := by
              intro h
              subst h
              exact hdb.2 (hrs2 ▸ List.mem_cons_self _ _)
            have hxn : x ≠ n := by
              intro h
              subst h
              exact hxb.2 (hrs2 ▸ List.mem_cons_self _ _)
            refine ⟨hblackpop d hdb, ?_⟩
            simp only [if_neg hdn, if_neg hxn]
            exact hlt
          · have hdb := hdeps2 d hd
            have hdn : d ≠ x := by
              intro h
              subst h
              exact hdb.2 (hrs2 ▸ List.mem_cons_self _ _)
            refine ⟨hblackpop d hdb, ?_⟩
            simp only [if_neg hdn, if_pos rfl]
            exact Nat.lt_succ_of_le (le_foldr_max _ _ (List.mem_map_of_mem rank hd))
        · intro x hx
          exact hblackpop x (hmono2 x (hblack1 x hx))
    refine ⟨hnode, ?_⟩
    intro ds
    induction ds with
    | nil =>
      intro st st' _ hG hok
      rw [detectList_nil] at hok
      injection hok with h
      subst h
      exact ⟨hG, fun d hd => absurd hd (List.not_mem_nil d), fun x hx => hx⟩
    | cons d ds ihl =>
      intro st st' hcnt hG hok
      rw [detectList_cons] at hok
      by_cases hdr : d ∈ st.recStack
      · rw [if_pos hdr] at hok; exact Except.noConfusion hok
      · rw [if_neg hdr] at hok
        by_cases hdv : d ∈ st.visited
        · rw [if_pos hdv] at hok
          obtain ⟨g1, g2, g3⟩ := ihl st st' hcnt hG hok
          refine ⟨g1, ?_, g3⟩
          intro e he
          rcases List.mem_cons.mp he with rfl | he2
          · exact g3 e ⟨hdv, hdr⟩
          · exact g2 e he2
        · rw [if_neg hdv] at hok
          cases hstep : detectNode svcs (f + 1) d st with
          | error e => rw [hstep] at hok; exact Except.noConfusion hok
          | ok stA =>
            rw [hstep] at hok
            obtain ⟨n1, n2, n3⟩ := hnode d st stA hcnt hdv hdr hG hstep
            obtain ⟨_, _, hvm, _⟩ := (detect_post svcs (f + 1)).1 d st stA hcnt hdv hstep
            have hcntA : unvisitedCount svcs stA.visited < f + 1 :=
              Nat.lt_of_le_of_lt (unvisitedCount_mono hvm) hcnt
            obtain ⟨g1, g2, g3⟩ := ihl stA st' hcntA n1 hok
            refine ⟨g1, ?_, fun x hx => g3 x (n3 x hx)⟩
            intro e he
            rcases List.mem_cons.mp he with rfl | he2
            · exact g3 e n2
            · exact g2 e he2

/-- Rank descent along a dependency chain inside a closed ranked set:
the last element of the chain has strictly smaller rank than the head
when the chain has at least two elements. -/
theorem rank_descent {svcs : Services} {V : List String} {rank : String → Nat}
    (hG : ∀ x ∈ V, ∀ d ∈ depsOf svcs x, d ∈ V ∧ rank d < rank x) :
    ∀ (p : List String) (x y : String), DepChain svcs (x :: p) → x ∈ V →
      (x :: p).getLast? = some y → rank y ≤ rank x ∧ (p ≠ [] → rank y < rank x) := by
  intro p
  induction p with
  | nil =>
    intro x y _ _ hl
    simp only [List.getLast?_singleton, Option.some.injEq] at hl
    subst hl
    exact ⟨Nat.le_refl _, fun h => absurd rfl h⟩
  | cons z p ih =>
    intro x y hch hx hl
    have hzx : z ∈ depsOf svcs x := (List.chain'_cons.mp hch).1
    have hch2 : DepChain svcs (z :: p) := (List.chain'_cons.mp hch).2
    obtain ⟨hzV, hlt⟩ := hG x hx z hzx
    rw [List.getLast?_cons_cons] at hl
    obtain ⟨hle, _⟩ := ih z y hch2 hzV hl
    exact ⟨Nat.le_of_lt (Nat.lt_of_le_of_lt hle hlt), fun _ => Nat.lt_of_le_of_lt hle hlt⟩

/-- No dependency cycle can live inside a closed ranked set. -/
theorem no_cycle_in_ranked {svcs : Services} {V : List String} {rank : String → Nat}
    (hG : ∀ x ∈ V, ∀ d ∈ depsOf svcs x, d ∈ V ∧ rank d < rank x)
    (p : List String) (x : String) (hch : DepChain svcs p) (hlen : 2 ≤ p.length)
    (hhd : p.head? = some x) (hlast : p.getLast? = some x) (hx : x ∈ V) : False := by
  cases p with
  | nil => exact absurd hhd (by simp)
  | cons a rest =>
    simp only [List.head?_cons, Option.some.injEq] at hhd
    rw [← hhd] at hx hlast
    have hne : rest ≠ [] := by
      intro h
      subst h
      simp at hlen
    obtain ⟨_, hstrict⟩ := rank_descent hG rest a a hch hx hlast
    exact Nat.lt_irrefl _ (hstrict hne)

/-- The root loop of `detectCircularDependencies`, success case: between
roots the stack and path are empty, the visited set grows, every root is
visited, and the rank witness is preserved. -/
theorem detectRoots_ok (svcs : Services) : ∀ (roots : List String) (st st' : DetectSt),
    st.recStack = [] → st.path = [] → GoodRank svcs st →
    detectRoots svcs roots st = .ok st' →
    st'.recStack = [] ∧ st'.path = [] ∧ st.visited ⊆ st'.visited ∧
    (∀ r ∈ roots, r ∈ st'.visited) ∧ GoodRank svcs st' := by
  intro roots
  induction roots with
  | nil =>
    intro st st' h1 h2 hG hok
    injection hok with h
    subst h
    exact ⟨h1, h2, fun x hx => hx, fun r hr => absurd hr (List.not_mem_nil r), hG⟩
  | cons n ns ih =>
    intro st st' h1 h2 hG hok
    rw [show detectRoots svcs (n :: ns) st =
        (if n ∈ st.visited then detectRoots svcs ns st
         else match detectNode svcs (svcs.length + 1) n st with
           | .error e => .error e
           | .ok st2 => detectRoots svcs ns st2) from rfl] at hok
    by_cases hnv : n ∈ st.visited
    · rw [if_pos hnv] at hok
      obtain ⟨g1, g2, g3, g4, g5⟩ := ih st st' h1 h2 hG hok
      refine ⟨g1, g2, g3, ?_, g5⟩
      intro r hr
      rcases List.mem_cons.mp hr with rfl | hr2
      · exact g3 hnv
      · exact g4 r hr2
    · rw [if_neg hnv] at hok
      cases hstep : detectNode svcs (svcs.length + 1) n st with
      | error e => rw [hstep] at hok; exact Except.noConfusion hok
      | ok stA =>
        rw [hstep] at hok
        have hcnt : unvisitedCount svcs st.visited < svcs.length + 1 :=
          Nat.lt_succ_of_le (unvisitedCount_le svcs _)
        obtain ⟨p1, p2, p3, p4⟩ :=
          (detect_post svcs (svcs.length + 1)).1 n st stA hcnt hnv hstep
        obtain ⟨b1, _, _⟩ := (detect_black svcs (svcs.length + 1)).1 n st stA hcnt hnv
          (h1 ▸ List.not_mem_nil n) hG hstep
        obtain ⟨g1, g2, g3, g4, g5⟩ := ih stA st' (p2.trans h1) (p1.trans h2) b1 hok
        refine ⟨g1, g2, fun x hx => g3 (p3 hx), ?_, g5⟩
        intro r hr
        rcases List.mem_cons.mp hr with rfl | hr2
        · exact g3 p4
        · exact g4 r hr2

/-- The root loop of `detectCircularDependencies`, error case: the error
is a dependency chain ending in a repeated name. -/
theorem detectRoots_err (svcs : Services) : ∀ (roots : List String) (st : DetectSt)
    (e : List String), st.recStack = [] → st.path = [] →
    detectRoots svcs roots st = .error e →
    ∃ q d, e = q ++ [d] ∧ d ∈ q ∧ DepChain svcs e := by
  intro roots
  induction roots with
  | nil =>
    intro st e _ _ herr
    exact Except.noConfusion herr
  | cons n ns ih =>
    intro st e h1 h2 herr
    rw [show detectRoots svcs (n :: ns) st =
        (if n ∈ st.visited then detectRoots svcs ns st
         else match detectNode svcs (svcs.length + 1) n st with
           | .error e2 => .error e2
           | .ok st2 => detectRoots svcs ns st2) from rfl] at herr
    by_cases hnv : n ∈ st.visited
    · rw [if_pos hnv] at herr
      exact ih st e h1 h2 herr
    · rw [if_neg hnv] at herr
      have hcnt : unvisitedCount svcs st.visited < svcs.length + 1 :=
        Nat.lt_succ_of_le (unvisitedCount_le svcs _)
      cases hstep : detectNode svcs (svcs.length + 1) n st with
      | error e2 =>
        rw [hstep] at herr
        injection herr with he
        rw [← he]
        refine (detect_sound svcs (svcs.length + 1)).1 n st e2 hcnt hnv ?_ ?_ hstep
        · rw [h1, h2]; rfl
        · rw [h2]
          simp [DepChain]
      | ok stA =>
        rw [hstep] at herr
        obtain ⟨p1, p2, _, _⟩ :=
          (detect_post svcs (svcs.length + 1)).1 n st stA hcnt hnv hstep
        exact ih stA e (p2.trans h1) (p1.trans h2) herr

/-- A cycle error of `detectCircularDependencies` is a dependency chain
ending in a name that already occurs earlier in it. -/
theorem detectCircular_some_spec (svcs : Services) (ns : List String) (e : List String)
    (h : detectCircularDependencies svcs ns = some e) :
    ∃ q d, e = q ++ [d] ∧ d ∈ q ∧ DepChain svcs e := by
  unfold detectCircularDependencies at h
  cases hroots : detectRoots svcs ns ⟨[], [], []⟩ with
  | error e2 =>
    rw [hroots] at h
    injection h with he
    rw [← he]
    exact detectRoots_err svcs ns ⟨[], [], []⟩ e2 rfl rfl hroots
  | ok st2 =>
    rw [hroots] at h
    exact Option.noConfusion h

/-- A cycle error of `detectCircularDependencies` exhibits a genuine
dependency cycle in the declarations. -/
theorem hasCycle_of_detect_some {svcs : Services} {ns : List String} {e : List String}
    (h : detectCircularDependencies svcs ns = some e) : HasCycle svcs := by
  obtain ⟨q, d, he, hdq, hch⟩ := detectCircular_some_spec svcs ns e h
  obtain ⟨u, w, hq⟩ := List.append_of_mem hdq
  refine ⟨d :: (w ++ [d]), ?_, by simp, ?_⟩
  · have : e = u ++ (d :: (w ++ [d])) := by
      rw [he, hq]
      simp
    rw [this] at hch
    exact ((List.chain'_append).mp hch).2.1
  · simp only [List.head?_cons]
    rw [show d :: (w ++ [d]) = (d :: w) ++ [d] from rfl, List.getLast?_concat]

/-- If no cycle error is reported, no cycle is reachable from the scanned
roots. -/
theorem detect_none_no_reachable_cycle {svcs : Services} {ns : List String}
    (h : detectCircularDependencies svcs ns = none)
    (p : List String) (x : String) (hch : DepChain svcs p) (hlen : 2 ≤ p.length)
    (hhd : p.head? = some x) (hlast : p.getLast? = some x)
    (r : String) (hr : r ∈ ns) (hreach : Reaches svcs r x) : False := by
  unfold detectCircularDependencies at h
  cases hroots : detectRoots svcs ns ⟨[], [], []⟩ with
  | error e2 => rw [hroots] at h; exact Option.noConfusion h
  | ok st2 =>
    obtain ⟨g1, _, _, g4, rank, hrank⟩ :=
      detectRoots_ok svcs ns ⟨[], [], []⟩ st2 rfl rfl
        ⟨fun _ => 0, fun y hy => absurd hy.1 (List.not_mem_nil y)⟩ hroots
    have hG : ∀ y ∈ st2.visited, ∀ d ∈ depsOf svcs y, d ∈ st2.visited ∧ rank d < rank y := by
      intro y hy d hd
      have hyb : BlackIn st2 y := ⟨hy, g1 ▸ List.not_mem_nil y⟩
      obtain ⟨hdb, hlt⟩ := hrank y hyb d hd
      exact ⟨hdb.1, hlt⟩
    have hxV : x ∈ st2.visited :=
      Reaches.mem_closed (fun y hy d hd => (hG y hy d hd).1) hreach (g4 r hr)
    exact no_cycle_in_ranked hG p x hch hlen hhd hlast hxV

/-! ### Correctness of `topologicalSort` (Kahn's algorithm) -/

theorem getI_setI_self : ∀ (m : IntMap) (k : String) (v : Int), getI (setI m k v) k = v := by
  intro m
  induction m with
  | nil => intro k v; simp [setI, getI]
  | cons p rest ih =>
    intro k v
    by_cases h : p.1 = k
    · simp [setI, getI, h]
    · simp only [setI, if_neg h, getI]
      exact ih k v

theorem getI_setI_ne : ∀ (m : IntMap) (k k2 : String) (v : Int), k ≠ k2 →
    getI (setI m k v) k2 = getI m k2 := by
  intro m
  induction m with
  | nil =>
    intro k k2 v hne
    simp only [setI, getI]
    rw [if_neg hne]
  | cons p rest ih =>
    intro k k2 v hne
    by_cases h : p.1 = k
    · simp only [setI, if_pos h, getI]
      have h2 : ¬ (p.1 = k2) := by rw [h]; exact hne
      rw [if_neg hne, if_neg h2]
    · simp only [setI, if_neg h, getI]
      by_cases h2 : p.1 = k2
      · rw [if_pos h2, if_pos h2]
      · rw [if_neg h2, if_neg h2]
        exact ih k k2 v hne

theorem sumDeg_setI : ∀ (m : IntMap) (k : String) (v : Int),
    sumDeg (setI m k v) + (getI m k).toNat = sumDeg m + v.toNat := by
  intro m
  induction m with
  | nil => intro k v; simp [setI, getI, sumDeg]
  | cons p rest ih =>
    intro k v
    by_cases h : p.1 = k
    · simp only [setI, if_pos h, sumDeg, getI, if_pos h]
      omega
    · simp only [setI, if_neg h, sumDeg, getI, if_neg h]
      have := ih k v
      omega

theorem processedCount_le (svcs : Services) (S res : List String) (n : String) :
    processedCount svcs S res n ≤ countS svcs S n := by
  refine List.Sublist.length_le (List.monotone_filter_right _ ?_)
  intro a ha
  simp only [decide_eq_true_eq] at *
  exact ha.1

theorem filter_length_eq_iff {α} (l : List α) (p q : α → Bool)
    (himp : ∀ a, p a = true → q a = true) :
    (l.filter p).length = (l.filter q).length ↔ ∀ a ∈ l, q a = true → p a = true := by
  constructor
  · intro hlen a ha hq
    have hsub : List.Sublist (l.filter p) (l.filter q) := List.monotone_filter_right _ himp
    have heq := hsub.eq_of_length hlen
    have : a ∈ l.filter q := List.mem_filter.mpr ⟨ha, hq⟩
    rw [← heq] at this
    exact (List.mem_filter.mp this).2
  · intro hall
    refine congrArg List.length (List.filter_congr ?_)
    intro a ha
    by_cases hp : p a = true
    · rw [hp, himp a hp]
    · have hq : ¬ q a = true := fun hq => hp (hall a ha hq)
      rw [Bool.eq_false_iff.mpr hp, Bool.eq_false_iff.mpr hq]

theorem processedCount_eq_countS_iff (svcs : Services) (S res : List String) (n : String) :
    processedCount svcs S res n = countS svcs S n ↔
    ∀ d ∈ depsOf svcs n, d ∈ S → d ∈ res := by
  unfold processedCount countS
  rw [filter_length_eq_iff _ _ _ (by intro a ha; simp only [decide_eq_true_eq] at *; exact ha.1)]
  constructor
  · intro h d hd hdS
    have := h d hd (by simpa using hdS)
    simp only [decide_eq_true_eq] at this
    exact this.2
  · intro h a ha hq
    simp only [decide_eq_true_eq] at *
    exact ⟨hq, h a ha hq⟩

theorem count_map_const {α : Type} (l : List α) (b c : String) :
    List.count c (l.map (fun _ => b)) = if b = c then l.length else 0 := by
  induction l with
  | nil => simp
  | cons a l ih =>
    rw [List.map_cons, List.count_cons, ih]
    by_cases h : b = c
    · simp [h]
    · simp [h]

theorem count_eq_length_filter_eq (l : List String) (c : String) :
    List.count c l = (l.filter (fun d => d = c)).length := by
  induction l with
  | nil => simp
  | cons d ds ih =>
    rw [List.count_cons, List.filter_cons, ih]
    by_cases h : d = c
    · simp [h]
    · simp [h]

/-- With unique declaration keys, the multiplicity of `n` among the
dependents of `c` equals the multiplicity of `c` among the dependencies
of `n`. -/
theorem count_dependentsOf (svcs : Services) (hWF : (svcs.map Prod.fst).Nodup)
    (c n : String) :
    List.count n (dependentsOf svcs c) = List.count c (depsOf svcs n) := by
  induction svcs with
  | nil => simp [dependentsOf, depsOf, lookupSvc]
  | cons p rest ih =>
    rw [List.map_cons, List.nodup_cons] at hWF
    rw [show dependentsOf (p :: rest) c =
        ((p.2.dependsOn.filter (fun d => d = c)).map (fun _ => p.1)) ++
          dependentsOf rest c from rfl, List.count_append]
    by_cases h : p.1 = n
    · subst h
      have hdeps : depsOf (p :: rest) p.1 = p.2.dependsOn := by
        simp [depsOf, lookupSvc]
      rw [hdeps]
      have hrest : List.count p.1 (dependentsOf rest c) = 0 := by
        rw [ih hWF.2, depsOf_eq_nil_of_not_declared hWF.1]
        simp
      have hhead : List.count p.1 ((p.2.dependsOn.filter (fun d => d = c)).map
          (fun _ => p.1)) = List.count c p.2.dependsOn := by
        rw [count_map_const, if_pos rfl, ← count_eq_length_filter_eq]
      omega
    · have hdeps : depsOf (p :: rest) n = depsOf rest n := by
        simp [depsOf, lookupSvc, h]
      rw [hdeps]
      have hhead : List.count n ((p.2.dependsOn.filter (fun d => d = c)).map
          (fun _ => p.1)) = 0 := by
        rw [count_map_const, if_neg h]
      rw [hhead, ih hWF.2]
      omega

theorem processedCount_snoc (svcs : Services) (S res : List String) (c n : String)
    (hcS : c ∈ S) (hcres : c ∉ res) :
    processedCount svcs S (res ++ [c]) n =
    processedCount svcs S res n + List.count c (depsOf svcs n) := by
  unfold processedCount
  induction depsOf svcs n with
  | nil => simp
  | cons d ds ih =>
    rw [List.filter_cons, List.filter_cons, List.count_cons]
    by_cases hdc : d = c
    · subst hdc
      rw [if_pos (by simp only [decide_eq_true_eq]; exact ⟨hcS, by simp⟩),
          if_neg (by simp only [decide_eq_true_eq]; exact fun hc => hcres hc.2),
          if_pos (by simp)]
      simp only [List.length_cons]
      omega
    · have hiff : (d ∈ res ++ [c]) ↔ (d ∈ res) := by
        simp only [List.mem_append, List.mem_singleton]
        exact ⟨fun h => h.elim id fun h2 => absurd h2 hdc, Or.inl⟩
      by_cases hcase : d ∈ S ∧ d ∈ res
      · rw [if_pos (show (decide (d ∈ S ∧ d ∈ res ++ [c])) = true by
              simp only [decide_eq_true_eq]; exact ⟨hcase.1, hiff.mpr hcase.2⟩),
            if_pos (show (decide (d ∈ S ∧ d ∈ res)) = true by
              simp only [decide_eq_true_eq]; exact hcase),
            if_neg (show ¬ ((d == c) = true) by simp [hdc])]
        simp only [List.length_cons]
        omega
      · rw [if_neg (show ¬ ((decide (d ∈ S ∧ d ∈ res ++ [c])) = true) by
              simp only [decide_eq_true_eq]; exact fun hc => hcase ⟨hc.1, hiff.mp hc.2⟩),
            if_neg (show ¬ ((decide (d ∈ S ∧ d ∈ res)) = true) by
              simp only [decide_eq_true_eq]; exact hcase),
            if_neg (show ¬ ((d == c) = true) by simp [hdc])]
        omega

theorem stepDependents_cons (sset : List String) (d : String) (rest : List String)
    (inDeg : IntMap) (queue : List String) :
    stepDependents sset (d :: rest) inDeg queue =
      if d ∈ sset then
        stepDependents sset rest (setI inDeg d (getI inDeg d - 1))
          (if getI inDeg d - 1 = 0 then queue ++ [d] else queue)
      else stepDependents sset rest inDeg queue := rfl

/-- Full behaviour of the dependent-decrement loop: pointwise in-degree
change, queue growth, exact membership of the resulting queue, absence of
duplicate enqueues, and the termination potential. -/
theorem stepDependents_spec (sset : List String) :
    ∀ (deps : List String) (inDeg : IntMap) (queue : List String),
    (∀ n, 1 ≤ getI inDeg n → n ∉ queue) → queue.Nodup →
    (∀ n, getI (stepDependents sset deps inDeg queue).1 n =
        getI inDeg n - (if n ∈ sset then (List.count n deps : Int) else 0)) ∧
    (∃ extra, (stepDependents sset deps inDeg queue).2 = queue ++ extra) ∧
    (∀ n, n ∈ (stepDependents sset deps inDeg queue).2 ↔ n ∈ queue ∨
        (n ∈ sset ∧ 1 ≤ getI inDeg n ∧ getI inDeg n ≤ (List.count n deps : Int))) ∧
    (stepDependents sset deps inDeg queue).2.Nodup ∧
    (∀ n, 1 ≤ getI (stepDependents sset deps inDeg queue).1 n →
        n ∉ (stepDependents sset deps inDeg queue).2) ∧
    (stepDependents sset deps inDeg queue).2.length +
        sumDeg (stepDependents sset deps inDeg queue).1 ≤
      queue.length + sumDeg inDeg := by
  intro deps
  induction deps with
  | nil =>
    intro inDeg queue hfresh hnodup
    refine ⟨fun n => by split <;> simp [stepDependents], ⟨[], by simp [stepDependents]⟩, ?_, hnodup, hfresh,
      Nat.le_refl _⟩
    intro n
    show n ∈ queue ↔ _
    constructor
    · exact Or.inl
    · rintro (h | ⟨_, h1, h2⟩)
      · exact h
      · simp only [List.count_nil] at h2
        omega
  | cons d rest ih =>
    intro inDeg queue hfresh hnodup
    rw [stepDependents_cons]
    by_cases hds : d ∈ sset
    · rw [if_pos hds]
      set g := getI inDeg d with hg
      have hfresh2 : ∀ n, 1 ≤ getI (setI inDeg d (g - 1)) n →
          n ∉ (if g - 1 = 0 then queue ++ [d] else queue) := by
        intro n hn
        by_cases hnd : n = d
        · subst hnd
          rw [getI_setI_self] at hn
          have : ¬ (g - 1 = 0) := by omega
          rw [if_neg this]
          exact hfresh n (by omega)
        · rw [getI_setI_ne _ _ _ _ (fun h => hnd h.symm)] at hn
          split
          · intro hmem
            rcases List.mem_append.mp hmem with h | h
            · exact hfresh n hn h
            · simp only [List.mem_singleton] at h
              exact hnd h
          · exact hfresh n hn
      have hnodup2 : (if g - 1 = 0 then queue ++ [d] else queue).Nodup := by
        split
        · rename_i hv
          refine List.Nodup.append hnodup (List.nodup_singleton d) ?_
          intro x hx hxd
          simp only [List.mem_singleton] at hxd
          subst hxd
          exact hfresh x (by omega) hx
        · exact hnodup
      obtain ⟨a1, ⟨extra, b1⟩, c1, d1, e1, f1⟩ :=
        ih (setI inDeg d (g - 1)) (if g - 1 = 0 then queue ++ [d] else queue) hfresh2 hnodup2
      refine ⟨?_, ?_, ?_, d1, e1, ?_⟩
      · intro n
        rw [a1 n]
        by_cases hnd : n = d
        · subst hnd
          rw [getI_setI_self, if_pos hds, if_pos hds, List.count_cons]
          simp only [beq_self_eq_true, if_true]
          push_cast
          omega
        · rw [getI_setI_ne _ _ _ _ (fun h => hnd h.symm), List.count_cons]
          have : (d == n) = false := by
            simp only [beq_eq_false_iff_ne, ne_eq]
            exact fun h => hnd h.symm
          rw [this]
          simp
      · refine ⟨(if g - 1 = 0 then [d] else []) ++ extra, ?_⟩
        rw [b1]
        split <;> simp
      · intro n
        rw [c1 n]
        by_cases hnd : n = d
        · subst hnd
          rw [getI_setI_self, List.count_cons]
          simp only [beq_self_eq_true, if_true]
          by_cases hv : g - 1 = 0
          · rw [if_pos hv]
            constructor
            · intro _
              exact Or.inr ⟨hds, by omega, by push_cast; omega⟩
            · intro _
              exact Or.inl (List.mem_append.mpr (Or.inr (by simp)))
          · rw [if_neg hv]
            constructor
            · rintro (h | ⟨h1, h2, h3⟩)
              · exact Or.inl h
              · exact Or.inr ⟨h1, by omega, by push_cast; omega⟩
            · rintro (h | ⟨h1, h2, h3⟩)
              · exact Or.inl h
              · push_cast at h3 ⊢
                exact Or.inr ⟨h1, by omega, by omega⟩
        · have hgn : getI (setI inDeg d (g - 1)) n = getI inDeg n :=
            getI_setI_ne _ _ _ _ (fun h => hnd h.symm)
          rw [hgn, List.count_cons]
          have hbeq : (d == n) = false := by
            simp only [beq_eq_false_iff_ne, ne_eq]
            exact fun h => hnd h.symm
          rw [hbeq]
          simp only [Bool.false_eq_true, if_false, Nat.add_zero]
          have hq2 : n ∈ (if g - 1 = 0 then queue ++ [d] else queue) ↔ n ∈ queue := by
            split
            · simp only [List.mem_append, List.mem_singleton]
              exact ⟨fun h => h.elim id (fun h2 => absurd h2 hnd), Or.inl⟩
            · exact Iff.rfl
          rw [hq2]
      · refine Nat.le_trans f1 ?_
        have hsum := sumDeg_setI inDeg d (g - 1)
        by_cases hv : g - 1 = 0
        · rw [if_pos hv]
          simp only [List.length_append, List.length_singleton]
          omega
        · rw [if_neg hv]
          omega
    · rw [if_neg hds]
      obtain ⟨a1, b1, c1, d1, e1, f1⟩ := ih inDeg queue hfresh hnodup
      refine ⟨?_, b1, ?_, d1, e1, f1⟩
      · intro n
        rw [a1 n]
        by_cases hns : n ∈ sset
        · have hnd : n ≠ d := fun h => hds (h ▸ hns)
          rw [if_pos hns, if_pos hns, List.count_cons]
          have hbeq : (d == n) = false := by
            simp only [beq_eq_false_iff_ne, ne_eq]
            exact fun h => hnd h.symm
          rw [hbeq]
          simp
        · rw [if_neg hns, if_neg hns]
      · intro n
        rw [c1 n]
        by_cases hns : n ∈ sset
        · have hnd : n ≠ d := fun h => hds (h ▸ hns)
          have hbeq : (d == n) = false := by
            simp only [beq_eq_false_iff_ne, ne_eq]
            exact fun h => hnd h.symm
          rw [List.count_cons, hbeq]
          simp
        · constructor
          · rintro (h | ⟨h1, _, _⟩)
            · exact Or.inl h
            · exact absurd h1 hns
          · rintro (h | ⟨h1, _, _⟩)
            · exact Or.inl h
            · exact absurd h1 hns

theorem two_le_count_split {x : String} : ∀ {c : List String}, 2 ≤ c.count x →
    ∃ l1 l2 l3, c = l1 ++ x :: l2 ++ x :: l3 := by
  intro c
  induction c with
  | nil => intro h; simp at h
  | cons a c ih =>
    intro h
    rw [List.count_cons] at h
    by_cases hax : a = x
    · subst hax
      simp only [beq_self_eq_true, if_true] at h
      have hmem : a ∈ c := List.count_pos_iff.mp (by omega)
      obtain ⟨s, t, rfl⟩ := List.append_of_mem hmem
      exact ⟨[], s, t, by simp⟩
    · rw [show (a == x) = false by simp [hax]] at h
      simp only [if_false, Nat.add_zero, Bool.false_eq_true] at h
      obtain ⟨l1, l2, l3, rfl⟩ := ih h
      exact ⟨a :: l1, l2, l3, by simp⟩

theorem snoc_decomp {α : Type} {res : List α} {c : α} {pre post : List α} {n : α}
    (h : pre ++ n :: post = res ++ [c]) :
    (pre = res ∧ n = c ∧ post = []) ∨
    ∃ post0, post = post0 ++ [c] ∧ res = pre ++ n :: post0 := by
  rcases List.eq_nil_or_concat post with rfl | ⟨post0, a, rfl⟩
  · left
    have h2 : (pre ++ [n]) = res ++ [c] := by simpa using h
    have h3 := congrArg List.reverse h2
    simp only [List.reverse_append, List.reverse_singleton, List.singleton_append] at h3
    injection h3 with h4 h5
    refine ⟨?_, h4, rfl⟩
    rw [← List.reverse_reverse pre, h5, List.reverse_reverse]
  · right
    have h2 : (pre ++ n :: post0) ++ [a] = res ++ [c] := by
      rw [← h]; simp
    have h3 := congrArg List.reverse h2
    simp only [List.reverse_append, List.reverse_singleton, List.singleton_append] at h3
    injection h3 with h4 h5
    have h6 : pre ++ n :: post0 = res := by
      simpa using congrArg List.reverse h5
    exact ⟨post0, by rw [h4, List.concat_eq_append], h6.symm⟩

theorem chain_exists {svcs : Services} {U : List String} (u0 : String) (hu0 : u0 ∈ U)
    (hsucc : ∀ n ∈ U, ∃ d ∈ depsOf svcs n, d ∈ U) :
    ∀ k, ∃ c : List String, c.length = k + 1 ∧ DepChain svcs c ∧ ∀ y ∈ c, y ∈ U := by
  intro k
  induction k with
  | zero => exact ⟨[u0], rfl, List.chain'_singleton u0, by simpa using hu0⟩
  | succ k ih =>
    obtain ⟨c, hlen, hch, hmem⟩ := ih
    have hne : c ≠ [] := by
      intro h
      rw [h] at hlen
      simp at hlen
    obtain ⟨d, hd, hdU⟩ := hsucc (c.getLast hne) (hmem _ (List.getLast_mem hne))
    refine ⟨c ++ [d], by simp [hlen], ?_, ?_⟩
    · refine (List.chain'_append).mpr ⟨hch, List.chain'_singleton d, ?_⟩
      intro x hx y hy
      rw [List.getLast?_eq_getLast c hne] at hx
      have hxeq : c.getLast hne = x := Option.some_inj.mp (Option.mem_def.mp hx)
      have hyeq : d = y := Option.some_inj.mp (Option.mem_def.mp hy)
      rw [← hxeq, ← hyeq]
      exact hd
    · intro y hy
      rcases List.mem_append.mp hy with h | h
      · exact hmem y h
      · simp only [List.mem_singleton] at h
        subst h
        exact hdU

/-- A nonempty duplicate-free set in which every node has a dependency
inside the set yields a dependency cycle. -/
theorem hasCycle_of_successors {svcs : Services} (U : List String) (hne : U ≠ [])
    (hnodup : U.Nodup) (hsucc : ∀ n ∈ U, ∃ d ∈ depsOf svcs n, d ∈ U) :
    HasCycle svcs := by
  obtain ⟨u0, hu0⟩ : ∃ u, u ∈ U := by
    cases U with
    | nil => exact absurd rfl hne
    | cons a l => exact ⟨a, by simp⟩
  obtain ⟨c, hlen, hch, hmem⟩ := chain_exists u0 hu0 hsucc U.length
  have hnotnodup : ¬ c.Nodup := by
    intro hnd
    have := (List.subperm_of_subset hnd (fun y hy => hmem y hy)).length_le
    omega
  obtain ⟨x, hdup⟩ := List.exists_duplicate_iff_not_nodup.mpr hnotnodup
  have hcount : 2 ≤ c.count x := List.duplicate_iff_two_le_count.mp hdup
  obtain ⟨l1, l2, l3, hc⟩ := two_le_count_split hcount
  refine ⟨x :: l2 ++ [x], ?_, by simp, ?_⟩
  · have hre : c = l1 ++ (((x :: l2) ++ [x]) ++ l3) := by
      rw [hc]; simp
    rw [hre] at hch
    exact ((List.chain'_append).mp ((List.chain'_append).mp hch).2.1).1
  · rw [show x :: l2 ++ [x] = (x :: l2) ++ [x] from rfl, List.getLast?_concat]
    simp

theorem kahnLoop_cons (svcs : Services) (S : List String) (fuel : Nat) (current : String)
    (rest : List String) (inDeg : IntMap) (result : List String) :
    kahnLoop svcs S (fuel + 1) (current :: rest) inDeg result =
      kahnLoop svcs S fuel
        (stepDependents S (dependentsOf svcs current) inDeg rest).2
        (stepDependents S (dependentsOf svcs current) inDeg rest).1
        (result ++ [current]) := rfl

/-- Main invariant proof of the Kahn loop: with adequate fuel and the
loop invariants, the loop emits exactly the service set, without
duplicates, in dependency-respecting order. -/
theorem kahnLoop_spec (svcs : Services) (S : List String)
    (hWF : (svcs.map Prod.fst).Nodup) (hS : S.Nodup) (hacyc : Acyclic svcs) :
    ∀ (fuel : Nat) (queue : List String) (inDeg : IntMap) (result : List String),
    queue.length + sumDeg inDeg < fuel →
    (∀ n ∈ S, getI inDeg n =
        (countS svcs S n : Int) - (processedCount svcs S result n : Int)) →
    (∀ n, n ∉ S → getI inDeg n = 0) →
    (result ++ queue).Nodup →
    (∀ n ∈ result ++ queue, n ∈ S) →
    (∀ n, n ∈ result ++ queue ↔ (n ∈ S ∧ ∀ d ∈ depsOf svcs n, d ∈ S → d ∈ result)) →
    TopoOrderedOn svcs S result →
    (kahnLoop svcs S fuel queue inDeg result).Nodup ∧
    (∀ n, n ∈ kahnLoop svcs S fuel queue inDeg result ↔ n ∈ S) ∧
    TopoOrderedOn svcs S (kahnLoop svcs S fuel queue inDeg result) := by
  intro fuel
  induction fuel with
  | zero =>
    intro queue inDeg result hfuel
    exact absurd hfuel (Nat.not_lt_zero _)
  | succ fuel ih =>
    intro queue inDeg result hfuel hI1 hI1c hI2 hI3 hI4 hI5
    cases queue with
    | nil =>
      have hres : kahnLoop svcs S (fuel + 1) [] inDeg result = result := rfl
      rw [hres]
      have hresnodup : result.Nodup := by simpa using hI2
      refine ⟨hresnodup, ?_, hI5⟩
      intro n
      constructor
      · intro hn
        exact hI3 n (by simpa using hn)
      · intro hnS
        by_contra hnres
        have hUne : n ∈ S.filter (fun m => m ∉ result) :=
          List.mem_filter.mpr ⟨hnS, by simpa using hnres⟩
        have hUnodup : (S.filter (fun m => m ∉ result)).Nodup := hS.filter _
        have hsucc : ∀ m ∈ S.filter (fun m => m ∉ result),
            ∃ d ∈ depsOf svcs m, d ∈ S.filter (fun m => m ∉ result) := by
          intro m hm
          have hm2 := List.mem_filter.mp hm
          have hmS : m ∈ S := hm2.1
          have hmres : m ∉ result := by simpa using hm2.2
          have hnotready : ¬ (m ∈ S ∧ ∀ d ∈ depsOf svcs m, d ∈ S → d ∈ result) := by
            intro hc
            exact hmres (by simpa using (hI4 m).mpr hc)
          push_neg at hnotready
          obtain ⟨d, hd, hdS, hdres⟩ := hnotready hmS
          exact ⟨d, hd, List.mem_filter.mpr ⟨hdS, by simpa using hdres⟩⟩
        refine absurd ?_ hacyc
        refine hasCycle_of_successors (S.filter (fun m => m ∉ result)) ?_ hUnodup hsucc
        intro h
        rw [h] at hUne
        exact List.not_mem_nil n hUne
    | cons current rest =>
      rw [kahnLoop_cons]
      rw [List.nodup_append] at hI2
      obtain ⟨hI2a, hI2b, hI2c⟩ := hI2
      have hcurS : current ∈ S := hI3 current (by simp)
      have hcurready : ∀ d ∈ depsOf svcs current, d ∈ S → d ∈ result :=
        ((hI4 current).mp (by simp)).2
      have hcurres : current ∉ result := fun h => hI2c h (by simp)
      have hrestnodup : rest.Nodup := (List.nodup_cons.mp hI2b).2
      have hcurrest : current ∉ rest := (List.nodup_cons.mp hI2b).1
      have hfreshFull : ∀ m, 1 ≤ getI inDeg m → m ∉ result ++ current :: rest := by
        intro m hm hmem
        by_cases hmS : m ∈ S
        · have h1 := hI1 m hmS
          have hple := processedCount_le svcs S result m
          have hne : processedCount svcs S result m ≠ countS svcs S m := by omega
          exact hne ((processedCount_eq_countS_iff svcs S result m).mpr
            ((hI4 m).mp hmem).2)
        · rw [hI1c m hmS] at hm
          omega
      have hfresh : ∀ m, 1 ≤ getI inDeg m → m ∉ rest := by
        intro m hm hmem
        exact hfreshFull m hm (List.mem_append.mpr (Or.inr (List.mem_cons_of_mem _ hmem)))
      obtain ⟨a1, ⟨extra, b1⟩, c1, d1, e1, f1⟩ :=
        stepDependents_spec S (dependentsOf svcs current) inDeg rest hfresh hrestnodup
      have hcount : ∀ n, List.count n (dependentsOf svcs current) =
          List.count current (depsOf svcs n) := count_dependentsOf svcs hWF current
      have hsnoc : ∀ n, processedCount svcs S (result ++ [current]) n =
          processedCount svcs S result n + List.count current (depsOf svcs n) :=
        fun n => processedCount_snoc svcs S result current n hcurS hcurres
      -- fuel adequacy for the recursive call
      have hfuel2 : (stepDependents S (dependentsOf svcs current) inDeg rest).2.length +
          sumDeg (stepDependents S (dependentsOf svcs current) inDeg rest).1 < fuel := by
        have hlen : (current :: rest).length = rest.length + 1 := by simp
        omega
      -- invariant: in-degree accounting
      have hI1' : ∀ n ∈ S,
          getI (stepDependents S (dependentsOf svcs current) inDeg rest).1 n =
          (countS svcs S n : Int) -
            (processedCount svcs S (result ++ [current]) n : Int) := by
        intro n hnS
        rw [a1 n, if_pos hnS, hI1 n hnS, hcount n, hsnoc n]
        push_cast
        ring
      have hI1c' : ∀ n, n ∉ S →
          getI (stepDependents S (dependentsOf svcs current) inDeg rest).1 n = 0 := by
        intro n hnS
        rw [a1 n, if_neg hnS, hI1c n hnS]
        ring
      -- invariant: no duplicates
      have hmemp2 : ∀ x ∈ (stepDependents S (dependentsOf svcs current) inDeg rest).2,
          x ∈ rest ∨ 1 ≤ getI inDeg x := by
        intro x hx
        rcases (c1 x).mp hx with h | ⟨_, h1, _⟩
        · exact Or.inl h
        · exact Or.inr h1
      have hI2' : ((result ++ [current]) ++
          (stepDependents S (dependentsOf svcs current) inDeg rest).2).Nodup := by
        rw [List.nodup_append]
        refine ⟨?_, d1, ?_⟩
        · rw [List.nodup_append]
          refine ⟨hI2a, List.nodup_singleton current, ?_⟩
          intro x hx hx2
          simp only [List.mem_singleton] at hx2
          subst hx2
          exact hcurres hx
        · intro x hx hx2
          rcases hmemp2 x hx2 with hxr | hxg
          · rcases List.mem_append.mp hx with hx3 | hx3
            · exact hI2c hx3 (List.mem_cons_of_mem _ hxr)
            · simp only [List.mem_singleton] at hx3
              subst hx3
              exact hcurrest hxr
          · exact hfreshFull x hxg (by
              rcases List.mem_append.mp hx with hx3 | hx3
              · exact List.mem_append.mpr (Or.inl hx3)
              · simp only [List.mem_singleton] at hx3
                subst hx3
                exact List.mem_append.mpr (Or.inr (by simp)))
      -- invariant: everything tracked is in S
      have hI3' : ∀ n ∈ (result ++ [current]) ++
          (stepDependents S (dependentsOf svcs current) inDeg rest).2, n ∈ S := by
        intro n hn
        rcases List.mem_append.mp hn with hn2 | hn2
        · rcases List.mem_append.mp hn2 with hn3 | hn3
          · exact hI3 n (List.mem_append.mpr (Or.inl hn3))
          · simp only [List.mem_singleton] at hn3
            subst hn3
            exact hcurS
        · rcases (c1 n).mp hn2 with h | ⟨h, _, _⟩
          · exact hI3 n (List.mem_append.mpr (Or.inr (List.mem_cons_of_mem _ h)))
          · exact h
      -- invariant: tracked iff ready
      have hI4' : ∀ n, n ∈ (result ++ [current]) ++
          (stepDependents S (dependentsOf svcs current) inDeg rest).2 ↔
          (n ∈ S ∧ ∀ d ∈ depsOf svcs n, d ∈ S → d ∈ result ++ [current]) := by
        intro n
        constructor
        · intro hn
          rcases List.mem_append.mp hn with hn2 | hn2
          · rcases List.mem_append.mp hn2 with hn3 | hn3
            · obtain ⟨h1, h2⟩ := (hI4 n).mp (List.mem_append.mpr (Or.inl hn3))
              exact ⟨h1, fun d hd hdS => List.mem_append.mpr (Or.inl (h2 d hd hdS))⟩
            · simp only [List.mem_singleton] at hn3
              subst hn3
              exact ⟨hcurS, fun d hd hdS =>
                List.mem_append.mpr (Or.inl (hcurready d hd hdS))⟩
          · rcases (c1 n).mp hn2 with h | ⟨hnS, h1, h2⟩
            · obtain ⟨g1, g2⟩ := (hI4 n).mp
                (List.mem_append.mpr (Or.inr (List.mem_cons_of_mem _ h)))
              exact ⟨g1, fun d hd hdS => List.mem_append.mpr (Or.inl (g2 d hd hdS))⟩
            · refine ⟨hnS, ?_⟩
              have hval := hI1 n hnS
              rw [hcount n] at h2
              have hple' := processedCount_le svcs S (result ++ [current]) n
              have heq : processedCount svcs S (result ++ [current]) n =
                  countS svcs S n := by
                have := hsnoc n
                omega
              exact (processedCount_eq_countS_iff svcs S (result ++ [current]) n).mp heq
        · rintro ⟨hnS, hready⟩
          by_cases hall : ∀ d ∈ depsOf svcs n, d ∈ S → d ∈ result
          · have := (hI4 n).mpr ⟨hnS, hall⟩
            rcases List.mem_append.mp this with h | h
            · exact List.mem_append.mpr
                (Or.inl (List.mem_append.mpr (Or.inl h)))
            · rcases List.mem_cons.mp h with rfl | h2
              · exact List.mem_append.mpr (Or.inl (List.mem_append.mpr (Or.inr (by simp))))
              · refine List.mem_append.mpr (Or.inr ?_)
                rw [b1]
                exact List.mem_append.mpr (Or.inl h2)
          · push_neg at hall
            obtain ⟨d0, hd0, hd0S, hd0res⟩ := hall
            have hd0cur : d0 = current := by
              rcases List.mem_append.mp (hready d0 hd0 hd0S) with h | h
              · exact absurd h hd0res
              · simpa using h
            subst hd0cur
            have hccount : 1 ≤ List.count d0 (depsOf svcs n) :=
              List.count_pos_iff.mpr hd0
            have heq : processedCount svcs S (result ++ [d0]) n = countS svcs S n :=
              (processedCount_eq_countS_iff svcs S (result ++ [d0]) n).mpr hready
            have hval := hI1 n hnS
            have hsn := hsnoc n
            have hple := processedCount_le svcs S result n
            refine List.mem_append.mpr (Or.inr ((c1 n).mpr (Or.inr ⟨hnS, ?_, ?_⟩)))
            · omega
            · rw [hcount n]
              omega
      -- invariant: order respects dependencies
      have hI5' : TopoOrderedOn svcs S (result ++ [current]) := by
        intro pre m post heq d hd hdS
        rcases snoc_decomp heq.symm with ⟨h1, h2, _⟩ | ⟨post0, _, h3⟩
        · subst h1
          subst h2
          exact hcurready d hd hdS
        · exact hI5 pre m post0 h3 d hd hdS
      exact ih (stepDependents S (dependentsOf svcs current) inDeg rest).2
        (stepDependents S (dependentsOf svcs current) inDeg rest).1
        (result ++ [current]) hfuel2 hI1' hI1c' hI2' hI3' hI4' hI5'

theorem getI_inDegreeInit (svcs : Services) (sset : List String) :
    ∀ (l : List String) (n : String),
    getI (inDegreeInit svcs sset l) n =
      if n ∈ l then (((depsOf svcs n).filter (fun d => d ∈ sset)).length : Int) else 0 := by
  intro l
  induction l with
  | nil => intro n; simp [inDegreeInit, getI]
  | cons m rest ih =>
    intro n
    show getI (setI (inDegreeInit svcs sset rest) m _) n = _
    by_cases hmn : m = n
    · subst hmn
      rw [getI_setI_self, if_pos (by simp)]
    · rw [getI_setI_ne _ _ _ _ hmn, ih n]
      by_cases hn : n ∈ rest
      · rw [if_pos hn, if_pos (List.mem_cons_of_mem _ hn)]
      · rw [if_neg hn, if_neg (by
          intro hc
          rcases List.mem_cons.mp hc with h | h
          · exact hmn h.symm
          · exact hn h)]

theorem topologicalSort_eq (svcs : Services) (S : List String) :
    topologicalSort svcs S = kahnLoop svcs S
      ((S.filter (fun n => getI (inDegreeInit svcs S S) n = 0)).length +
        sumDeg (inDegreeInit svcs S S) + 1)
      (S.filter (fun n => getI (inDegreeInit svcs S S) n = 0))
      (inDegreeInit svcs S S) [] := rfl

/-- `topologicalSort` on a duplicate-free node set of an acyclic
declaration set emits exactly the node set, each node once, each after
all of its in-set dependencies. -/
theorem topologicalSort_spec (svcs : Services) (S : List String)
    (hWF : (svcs.map Prod.fst).Nodup) (hS : S.Nodup) (hacyc : Acyclic svcs) :
    (topologicalSort svcs S).Nodup ∧
    (∀ n, n ∈ topologicalSort svcs S ↔ n ∈ S) ∧
    TopoOrderedOn svcs S (topologicalSort svcs S) := by
  rw [topologicalSort_eq]
  have hdeg : ∀ n, getI (inDegreeInit svcs S S) n =
      if n ∈ S then (countS svcs S n : Int) else 0 := fun n => getI_inDegreeInit svcs S S n
  refine kahnLoop_spec svcs S hWF hS hacyc _ _ _ _ (Nat.lt_succ_self _) ?_ ?_ ?_ ?_ ?_ ?_
  · intro n hnS
    rw [hdeg n, if_pos hnS]
    have : processedCount svcs S [] n = 0 := by
      unfold processedCount
      rw [List.filter_eq_nil_iff.mpr ?_]
      · rfl
      · intro d _
        simp
    rw [this]
    simp
  · intro n hnS
    rw [hdeg n, if_neg hnS]
  · simpa using hS.filter _
  · intro n hn
    simp only [List.nil_append] at hn
    exact (List.mem_filter.mp hn).1
  · intro n
    simp only [List.nil_append]
    rw [List.mem_filter]
    constructor
    · rintro ⟨hnS, hdeg0⟩
      rw [decide_eq_true_eq, hdeg n, if_pos hnS] at hdeg0
      have hcount0 : countS svcs S n = 0 := by omega
      refine ⟨hnS, ?_⟩
      intro d hd hdS
      exfalso
      unfold countS at hcount0
      rw [List.length_eq_zero] at hcount0
      have : d ∈ (depsOf svcs n).filter (fun d => d ∈ S) :=
        List.mem_filter.mpr ⟨hd, by simpa using hdS⟩
      rw [hcount0] at this
      exact List.not_mem_nil d this
    · rintro ⟨hnS, hready⟩
      refine ⟨hnS, ?_⟩
      rw [decide_eq_true_eq, hdeg n, if_pos hnS]
      have hcount0 : countS svcs S n = 0 := by
        unfold countS
        rw [List.length_eq_zero, List.filter_eq_nil_iff]
        intro d hd
        simp only [decide_eq_true_eq]
        exact fun hdS => absurd (hready d hd hdS) (List.not_mem_nil d)
      rw [hcount0]
      simp
  · intro pre n post heq
    exact absurd heq.symm (by simp)

theorem validateServices_ok (svcs : Services) :
    ∀ (requested : List String), (∀ n ∈ requested, (lookupSvc svcs n).isSome) →
    validateServices svcs requested = .ok () := by
  intro requested
  induction requested with
  | nil => intro _; rfl
  | cons n rest ih =>
    intro h
    have h1 := h n (by simp)
    show (match lookupSvc svcs n with
      | some _ => validateServices svcs rest
      | none => .error (.notFound n)) = .ok ()
    cases hl : lookupSvc svcs n with
    | none => rw [hl] at h1; exact absurd h1 (by simp)
    | some s => exact ih (fun m hm => h m (List.mem_cons_of_mem _ hm))

/-- If the DFS over all declared names finds no cycle, the declaration
set is acyclic. -/
theorem acyclic_of_detect_all_none (svcs : Services)
    (h : detectCircularDependencies svcs (svcs.map Prod.fst) = none) : Acyclic svcs := by
  rintro ⟨p, hch, hlen, hhd⟩
  cases p with
  | nil => simp at hlen
  | cons x q =>
    cases q with
    | nil => simp at hlen
    | cons y q2 =>
      have hxy : y ∈ depsOf svcs x := (List.chain'_cons.mp hch).1
      have hxdecl : x ∈ svcs.map Prod.fst := by
        rw [← lookupSvc_isSome_iff]
        unfold depsOf at hxy
        cases hl : lookupSvc svcs x with
        | none => rw [hl] at hxy; exact absurd hxy (List.not_mem_nil y)
        | some s => simp
      simp only [List.head?_cons] at hhd
      exact detect_none_no_reachable_cycle h (x :: y :: q2) x hch hlen rfl hhd.symm
        x hxdecl (Reaches.refl x)

/-- Success characterization of `ResolveDependencies` on acyclic
declarations with declared requested names: the returned order is the
reachable closure, duplicate-free, dependency-closed, and topologically
sorted. -/
theorem ResolveDependencies_ok_spec (svcs : Services) (requested : List String)
    (hWF : (svcs.map Prod.fst).Nodup) (hacyc : Acyclic svcs)
    (hreq : ∀ n ∈ requested, (lookupSvc svcs n).isSome) :
    ∃ order, ResolveDependencies svcs requested = .ok order ∧
      order.Nodup ∧
      (∀ x, x ∈ order ↔ ∃ r ∈ requested, Reaches svcs r x) ∧
      (∀ x ∈ order, ∀ d ∈ depsOf svcs x, d ∈ order) ∧
      (∀ pre u post, order = pre ++ u :: post →
        ∀ d ∈ depsOf svcs u, d ∈ order → d ∈ pre) := by
  obtain ⟨hnodupA, hmemA, hclosedA⟩ := collectAllDependencies_spec svcs requested
  have hdet : detectCircularDependencies svcs (collectAllDependencies svcs requested)
      = none := by
    cases hd : detectCircularDependencies svcs (collectAllDependencies svcs requested) with
    | none => rfl
    | some e => exact absurd (hasCycle_of_detect_some hd) hacyc
  obtain ⟨hnodupT, hmemT, hordT⟩ :=
    topologicalSort_spec svcs (collectAllDependencies svcs requested) hWF hnodupA hacyc
  refine ⟨topologicalSort svcs (collectAllDependencies svcs requested), ?_, hnodupT, ?_, ?_, ?_⟩
  · unfold ResolveDependencies
    rw [validateServices_ok svcs requested hreq]
    show (match detectCircularDependencies svcs (collectAllDependencies svcs requested) with
      | some cyc => Except.error (ResolveError.circular cyc)
      | none => Except.ok (topologicalSort svcs (collectAllDependencies svcs requested))) = _
    rw [hdet]
  · intro x
    rw [hmemT x]
    exact hmemA x
  · intro x hx d hd
    rw [hmemT] at hx ⊢
    exact hclosedA x hx d hd
  · intro pre u post heq d hd hdord
    refine hordT pre u post heq d hd ?_
    rw [← hmemT d]
    exact hdord

/-! ### Claim C1 -/

/-- C1: for every acyclic set of unit declarations (a well-formed map:
unique keys) and every requested-name list all of whose names are
declared, `ResolveDependencies` returns an ordered closure — exactly the
requested units plus all their transitive dependencies — in which each
unit appears exactly once (no duplicates) and every unit appears after
all of its in-closure dependencies. -/
theorem C1_resolve_acyclic_ordered_closure (svcs : Services) (requested : List String)
    (hWF : (svcs.map Prod.fst).Nodup) (hacyc : Acyclic svcs)
    (hreq : ∀ n ∈ requested, (lookupSvc svcs n).isSome) :
    ∃ order, ResolveDependencies svcs requested = .ok order ∧
      (∀ x, x ∈ order ↔ ∃ r ∈ requested, Reaches svcs r x) ∧
      order.Nodup ∧
      (∀ pre u post, order = pre ++ u :: post →
        ∀ d ∈ depsOf svcs u, d ∈ order → d ∈ pre) := by
  obtain ⟨order, h1, h2, h3, _, h5⟩ :=
    ResolveDependencies_ok_spec svcs requested hWF hacyc hreq
  exact ⟨order, h1, h3, h2, h5⟩

theorem C1_witness :
    ∃ order, ResolveDependencies exChain ["web"] = .ok order ∧
      (∀ x, x ∈ order ↔ ∃ r ∈ ["web"], Reaches exChain r x) ∧
      order.Nodup ∧
      (∀ pre u post, order = pre ++ u :: post →
        ∀ d ∈ depsOf exChain u, d ∈ order → d ∈ pre) :=
  C1_resolve_acyclic_ordered_closure exChain ["web"] (by decide)
    (acyclic_of_detect_all_none exChain rfl) (by decide)

/-! ### Claim C2 -/

/-- C2 (as stated) is false: `exFarCycle` contains a dependency cycle
(`b ↔ c`), yet `ResolveDependencies` on the request `[a]` returns an
order instead of a circular-dependency error, because cycle detection
only scans the closure of the requested names. -/
theorem C2_counterexample :
    (∃ p, DepChain exFarCycle p ∧ 2 ≤ p.length ∧ p.head? = p.getLast?) ∧
    ResolveDependencies exFarCycle ["a"] = .ok ["a"] := by
  refine ⟨⟨["b", "c", "b"], ?_, by decide, rfl⟩, rfl⟩
  refine List.chain'_cons.mpr ⟨by decide, List.chain'_cons.mpr ⟨by decide, ?_⟩⟩
  exact List.chain'_singleton "b"

/-- C2 (amended): for every well-formed declaration set containing a
dependency cycle of any length ≥ 1 that is reachable from the requested
names (a unit depending on itself being the length-1 case), and with all
requested names declared, `ResolveDependencies` returns a
circular-dependency error whose path is a dependency chain closed by a
repeated name (the full cycle path), and returns no order. -/
theorem C2_reachable_cycle_rejected (svcs : Services) (requested : List String)
    (hreq : ∀ n ∈ requested, (lookupSvc svcs n).isSome)
    (p : List String) (x r : String)
    (hch : DepChain svcs p) (hlen : 2 ≤ p.length)
    (hhd : p.head? = some x) (hlast : p.getLast? = some x)
    (hr : r ∈ requested) (hreach : Reaches svcs r x) :
    ∃ e, ResolveDependencies svcs requested = .error (.circular e) ∧
      (∃ q d, e = q ++ [d] ∧ d ∈ q ∧ DepChain svcs e) ∧
      ∀ order, ResolveDependencies svcs requested ≠ .ok order := by
  obtain ⟨_, hmemA, _⟩ := collectAllDependencies_spec svcs requested
  have hxA : x ∈ collectAllDependencies svcs requested := (hmemA x).mpr ⟨r, hr, hreach⟩
  cases hdet : detectCircularDependencies svcs (collectAllDependencies svcs requested) with
  | none =>
    exact absurd (detect_none_no_reachable_cycle hdet p x hch hlen hhd hlast x hxA
      (Reaches.refl x)) (fun h => h)
  | some e =>
    refine ⟨e, ?_, detectCircular_some_spec svcs _ e hdet, ?_⟩
    · unfold ResolveDependencies
      rw [validateServices_ok svcs requested hreq]
      show (match detectCircularDependencies svcs (collectAllDependencies svcs requested) with
        | some cyc => Except.error (ResolveError.circular cyc)
        | none => Except.ok (topologicalSort svcs (collectAllDependencies svcs requested)))
          = _
      rw [hdet]
    · intro order hok
      unfold ResolveDependencies at hok
      rw [validateServices_ok svcs requested hreq] at hok
      have : (match detectCircularDependencies svcs (collectAllDependencies svcs requested) with
        | some cyc => (Except.error (ResolveError.circular cyc) : Except ResolveError (List String))
        | none => Except.ok (topologicalSort svcs (collectAllDependencies svcs requested)))
          = Except.ok order := hok
      rw [hdet] at this
      exact Except.noConfusion this

theorem C2_witness :
    ∃ e, ResolveDependencies exSelf ["a"] = .error (.circular e) ∧
      (∃ q d, e = q ++ [d] ∧ d ∈ q ∧ DepChain exSelf e) ∧
      ∀ order, ResolveDependencies exSelf ["a"] ≠ .ok order :=
  C2_reachable_cycle_rejected exSelf ["a"] (by decide) ["a", "a"] "a" "a"
    (List.chain'_cons.mpr ⟨by decide, List.chain'_singleton "a"⟩) (by decide)
    rfl rfl (by decide) (Reaches.refl "a")

/-! ### Claim C9 -/

/-- C9 (as stated) is false: with `a` depending on the undeclared name
`ghost`, resolution succeeds but the returned closure is
`["ghost", "a"]` — the dangling name is not dropped; it appears in the
order. -/
theorem C9_counterexample :
    ResolveDependencies exDangling ["a"] = .ok ["ghost", "a"] ∧
    lookupSvc exDangling "ghost" = none ∧
    "ghost" ∈ ["ghost", "a"] := ⟨rfl, rfl, by decide⟩

/-- C9 (amended): when a unit reachable from the request lists a
dependency name that is not itself declared, `ResolveDependencies`
still succeeds (for a well-formed acyclic declaration set with declared
requested names), but the dangling name is not dropped: it appears in
the returned ordered closure, treated as a unit with no dependencies. -/
theorem C9_dangling_kept (svcs : Services) (requested : List String)
    (hWF : (svcs.map Prod.fst).Nodup) (hacyc : Acyclic svcs)
    (hreq : ∀ n ∈ requested, (lookupSvc svcs n).isSome)
    (u d : String) (hu : ∃ r ∈ requested, Reaches svcs r u)
    (hd : d ∈ depsOf svcs u) (hdangling : lookupSvc svcs d = none) :
    ∃ order, ResolveDependencies svcs requested = .ok order ∧ d ∈ order ∧
      depsOf svcs d = [] := by
  obtain ⟨order, h1, h2, h3, _⟩ :=
    C1_resolve_acyclic_ordered_closure svcs requested hWF hacyc hreq
  obtain ⟨r, hr, hru⟩ := hu
  refine ⟨order, h1, ?_, ?_⟩
  · exact (h2 d).mpr ⟨r, hr, hru.trans (Reaches.step hd (Reaches.refl d))⟩
  · unfold depsOf
    rw [hdangling]

theorem C9_witness :
    ∃ order, ResolveDependencies exDangling ["a"] = .ok order ∧ "ghost" ∈ order ∧
      depsOf exDangling "ghost" = [] :=
  C9_dangling_kept exDangling ["a"] (by decide)
    (acyclic_of_detect_all_none exDangling rfl) (by decide) "a" "ghost"
    ⟨"a", by decide, Reaches.refl "a"⟩ (by decide) rfl

/-! ### Claim C6 -/

/-- C6 (as stated) is false on the network-attach clause: with every
Docker step succeeding but the network connect failing, `Start` still
returns success and the service transitions to `running`, not `failed`. -/
theorem C6_counterexample :
    oracleConnectFails.connectOk "svc" = false ∧
    (ServiceR.start oracleConnectFails 0 "net" (ServiceR.new "svc" ⟨[], none⟩)).2
      = .ok () ∧
    (ServiceR.start oracleConnectFails 0 "net" (ServiceR.new "svc" ⟨[], none⟩)).1.state
      = .running := ⟨rfl, rfl, rfl⟩

/-- C6 (amended): `Start` on a running service is rejected with an
already-running error and no state change; otherwise it transitions to
`starting`, and on success of the cleanup, environment and container-run
stages it records the container handle and the start timestamp and
transitions to `running` with health `unknown` — regardless of the
network-attach outcome, whose failure is only warned about; a failure of
the cleanup, environment or container-run stage transitions to `failed`
with the error recorded, and the attempt is not retried (each stage runs
at most once). -/
theorem C6_start_state_machine (o : Oracle) (now : Nat) (net : String) (s : ServiceR) :
    (s.state = .running →
      ServiceR.start o now net s =
        (s, .error ("service " ++ s.name ++ " is already running"))) ∧
    (s.state ≠ .running → o.cleanup s.name = .ok → o.loadEnv s.name = .ok () →
      ∀ cid, o.run s.name = .ok cid →
      (ServiceR.start o now net s).2 = .ok () ∧
      (ServiceR.start o now net s).1.state = .running ∧
      (ServiceR.start o now net s).1.healthStatus = .unknown ∧
      (ServiceR.start o now net s).1.containerID = cid ∧
      (ServiceR.start o now net s).1.startedAt = some now) ∧
    (s.state ≠ .running → o.cleanup s.name = .ok → o.loadEnv s.name = .ok () →
      ∀ e, o.run s.name = .error e →
      (ServiceR.start o now net s).1.state = .failed ∧
      (ServiceR.start o now net s).1.lastError =
        some ("failed to start container: " ++ e) ∧
      (ServiceR.start o now net s).2 = .error ("failed to start container: " ++ e)) ∧
    (s.state ≠ .running → o.cleanup s.name = .ok →
      ∀ e, o.loadEnv s.name = .error e →
      (ServiceR.start o now net s).1.state = .failed ∧
      (ServiceR.start o now net s).1.lastError =
        some ("failed to load environment variables: " ++ e) ∧
      (ServiceR.start o now net s).2 =
        .error ("failed to load environment variables: " ++ e)) ∧
    (s.state ≠ .running → ∀ out, o.cleanup s.name = out → out ≠ .ok →
      (ServiceR.start o now net s).1.state = .failed ∧
      ∃ e, (ServiceR.start o now net s).2 = .error e ∧
        (ServiceR.start o now net s).1.lastError = some e) := by
  refine ⟨?_, ?_, ?_, ?_, ?_⟩
  · intro hrun
    unfold ServiceR.start
    rw [if_pos hrun]
  · intro hrun hcl henv cid hrunderneath
    unfold ServiceR.start
    rw [if_neg hrun]
    simp [hcl, henv, hrunderneath, checkAndCleanupExistingContainer]
  · intro hrun hcl henv e hrune
    unfold ServiceR.start
    rw [if_neg hrun]
    simp [hcl, henv, hrune, checkAndCleanupExistingContainer]
  · intro hrun hcl e henv
    unfold ServiceR.start
    rw [if_neg hrun]
    simp [hcl, henv, checkAndCleanupExistingContainer]
  · intro hrun out hcl hne
    unfold ServiceR.start
    rw [if_neg hrun]
    cases out with
    | ok => exact absurd rfl hne
    | listError e =>
      refine ⟨?_, "failed to check existing containers: " ++ e, ?_, ?_⟩ <;>
        simp [hcl, checkAndCleanupExistingContainer]
    | foundRunning cid =>
      refine ⟨?_, "service " ++ s.name ++ " is already running (container: " ++ cid ++ ")",
        ?_, ?_⟩ <;> simp [hcl, checkAndCleanupExistingContainer]
    | removeError e =>
      refine ⟨?_, "failed to remove stopped container: " ++ e, ?_, ?_⟩ <;>
        simp [hcl, checkAndCleanupExistingContainer]

/-- C7 (as stated) is false on the transition clause: a service in state
`failed` after a failed container run has no container handle, and
`Stop` rejects it with a no-container error without transitioning to
`stopping` (the state stays `failed`), although `failed` is neither
`pending` nor `stopped`. -/
theorem C7_counterexample :
    (ServiceR.start oracleRunFails 0 "net" (ServiceR.new "svc" ⟨[], none⟩)).1.state
        = .failed ∧
    (ServiceR.start oracleRunFails 0 "net" (ServiceR.new "svc" ⟨[], none⟩)).1.containerID
        = "" ∧
    (ServiceR.stop oracleRunFails 1
        (ServiceR.start oracleRunFails 0 "net" (ServiceR.new "svc" ⟨[], none⟩)).1).2
      = .error "service svc has no container ID" ∧
    (ServiceR.stop oracleRunFails 1
        (ServiceR.start oracleRunFails 0 "net" (ServiceR.new "svc" ⟨[], none⟩)).1).1.state
      = .failed := ⟨rfl, rfl, rfl, rfl⟩

/-- C7 (amended): `Stop` is rejected with a not-running error exactly
when the state is `pending` or `stopped`; from any other state, if no
container handle is recorded it is rejected with a no-container error
without any transition; otherwise it transitions through `stopping` and,
when the runtime stop-and-remove succeeds, to `stopped` with the handle
cleared and the stop timestamp recorded, while a stop failure
transitions to `failed`. -/
theorem C7_stop_state_machine (o : Oracle) (now : Nat) (s : ServiceR) :
    ((s.state = .stopped ∨ s.state = .pending) →
      ServiceR.stop o now s = (s, .error ("service " ++ s.name ++ " is not running"))) ∧
    (¬ (s.state = .stopped ∨ s.state = .pending) → s.containerID = "" →
      ServiceR.stop o now s =
        (s, .error ("service " ++ s.name ++ " has no container ID"))) ∧
    (¬ (s.state = .stopped ∨ s.state = .pending) → s.containerID ≠ "" →
      o.stopAndRemove s.containerID = .ok () →
      (ServiceR.stop o now s).1.state = .stopped ∧
      (ServiceR.stop o now s).1.containerID = "" ∧
      (ServiceR.stop o now s).1.stoppedAt = some now ∧
      (ServiceR.stop o now s).1.healthStatus = .unknown ∧
      (ServiceR.stop o now s).2 = .ok ()) ∧
    (¬ (s.state = .stopped ∨ s.state = .pending) → s.containerID ≠ "" →
      ∀ e, o.stopAndRemove s.containerID = .error e →
      (ServiceR.stop o now s).1.state = .failed ∧
      (ServiceR.stop o now s).1.lastError = some ("failed to stop container: " ++ e) ∧
      (ServiceR.stop o now s).2 = .error ("failed to stop container: " ++ e)) := by
  refine ⟨?_, ?_, ?_, ?_⟩
  · intro hst
    unfold ServiceR.stop
    rw [if_pos hst]
  · intro hst hcid
    unfold ServiceR.stop
    rw [if_neg hst, if_pos hcid]
  · intro hst hcid hok
    unfold ServiceR.stop
    rw [if_neg hst, if_neg hcid]
    simp [hok]
  · intro hst hcid e herr
    unfold ServiceR.stop
    rw [if_neg hst, if_neg hcid]
    simp [herr]

theorem C7_witness :
    (ServiceR.stop oracleConnectFails 1
      (ServiceR.start oracleConnectFails 0 "net" (ServiceR.new "svc" ⟨[], none⟩)).1).1.state
        = .stopped ∧
    (ServiceR.stop oracleConnectFails 1
      (ServiceR.start oracleConnectFails 0 "net" (ServiceR.new "svc" ⟨[], none⟩)).1).1.containerID
        = "" ∧
    (ServiceR.stop oracleConnectFails 1
      (ServiceR.start oracleConnectFails 0 "net" (ServiceR.new "svc" ⟨[], none⟩)).1).1.stoppedAt
        = some 1 ∧
    (ServiceR.stop oracleConnectFails 1
      (ServiceR.start oracleConnectFails 0 "net" (ServiceR.new "svc" ⟨[], none⟩)).1).1.healthStatus
        = .unknown ∧
    (ServiceR.stop oracleConnectFails 1
      (ServiceR.start oracleConnectFails 0 "net" (ServiceR.new "svc" ⟨[], none⟩)).1).2
        = .ok () :=
  (C7_stop_state_machine oracleConnectFails 1
    (ServiceR.start oracleConnectFails 0 "net" (ServiceR.new "svc" ⟨[], none⟩)).1).2.2.1
    (by decide) (by decide) rfl

theorem waitLoop_succ (o : Oracle) (iv k fuel : Nat) (s : ServiceR) :
    waitLoop o iv k (fuel + 1) s =
      (if maxWaitNs < k * iv then (s, .error (healthTimeoutMsg s.name), [])
       else
         match ServiceR.checkHealth (o.probe s.name k) s with
         | (s2, .ok _) => (s2, .ok (), [k])
         | (s2, .error _) =>
           let w := waitLoop o iv (k + 1) fuel s2
           (w.1, w.2.1, k :: w.2.2)) := rfl

/-- Checks only happen at ticks no earlier than the caller's starting
tick and no later than the deadline. -/
theorem waitLoop_trace (o : Oracle) (iv : Nat) :
    ∀ (fuel k : Nat) (s : ServiceR), ∀ j ∈ (waitLoop o iv k fuel s).2.2,
      k ≤ j ∧ j * iv ≤ maxWaitNs := by
  intro fuel
  induction fuel with
  | zero => intro k s j hj; exact absurd hj (List.not_mem_nil j)
  | succ fuel ih =>
    intro k s j hj
    rw [waitLoop_succ] at hj
    by_cases hdl : maxWaitNs < k * iv
    · rw [if_pos hdl] at hj
      exact absurd hj (List.not_mem_nil j)
    · rw [if_neg hdl] at hj
      cases hc : ServiceR.checkHealth (o.probe s.name k) s with
      | mk s2 r =>
        cases r with
        | ok u =>
          rw [hc] at hj
          simp only [List.mem_singleton] at hj
          subst hj
          exact ⟨Nat.le_refl _, Nat.le_of_not_lt hdl⟩
        | error e =>
          rw [hc] at hj
          simp only [List.mem_cons] at hj
          rcases hj with rfl | hj2
          · exact ⟨Nat.le_refl _, Nat.le_of_not_lt hdl⟩
          · obtain ⟨h1, h2⟩ := ih (k + 1) s2 j hj2
            exact ⟨Nat.le_trans (Nat.le_succ k) h1, h2⟩

/-! ### Claim C10 -/

/-- C10: `waitForServiceHealth` performs no health check before one full
probe interval has elapsed (every performed check happens at a tick
`k ≥ 1`, i.e. at time `k · interval ≥ interval`), and the fixed
30-second deadline is tested before each check (every performed check
satisfies `k · interval ≤ 30s`); consequently, for a unit whose declared
probe interval exceeds 30 seconds, the gate returns the
did-not-become-healthy timeout error with no health check ever
performed. -/
theorem C10_interval_exceeding_deadline_never_checks (o : Oracle) (s : ServiceR)
    (h : HealthCheck) (hh : s.config.health = some h) :
    (∀ k ∈ (waitForServiceHealth o s).2.2, 1 ≤ k ∧ k * parsedInterval h ≤ maxWaitNs) ∧
    (maxWaitNs < parsedInterval h →
      (waitForServiceHealth o s).2.1 = .error (healthTimeoutMsg s.name) ∧
      (waitForServiceHealth o s).2.2 = []) := by
  have hunfold : waitForServiceHealth o s =
      waitLoop o (parsedInterval h) 1 (maxWaitNs / parsedInterval h + 2) s := by
    unfold waitForServiceHealth
    rw [hh]
  constructor
  · intro k hk
    rw [hunfold] at hk
    exact waitLoop_trace o (parsedInterval h) _ 1 s k hk
  · intro hbig
    rw [hunfold]
    have hdiv : maxWaitNs / parsedInterval h = 0 := Nat.div_eq_of_lt hbig
    rw [hdiv]
    rw [show (0 + 2) = 1 + 1 from rfl, waitLoop_succ, if_pos (by omega)]
    exact ⟨rfl, rfl⟩

/-! ### Correctness of the level computation -/

theorem getN_setN_self : ∀ (m : List (String × Nat)) (k : String) (v : Nat),
    getN (setN m k v) k = some v := by
  intro m
  induction m with
  | nil => intro k v; simp [setN, getN]
  | cons p rest ih =>
    intro k v
    by_cases h : p.1 = k
    · simp [setN, getN, h]
    · simp only [setN, if_neg h, getN]
      exact ih k v

theorem getN_setN_ne : ∀ (m : List (String × Nat)) (k k2 : String) (v : Nat), k ≠ k2 →
    getN (setN m k v) k2 = getN m k2 := by
  intro m
  induction m with
  | nil =>
    intro k k2 v hne
    simp only [setN, getN]
    rw [if_neg hne]
  | cons p rest ih =>
    intro k k2 v hne
    by_cases h : p.1 = k
    · simp only [setN, if_pos h, getN]
      have h2 : ¬ (p.1 = k2) := by rw [h]; exact hne
      rw [if_neg hne, if_neg h2]
    · simp only [setN, if_neg h, getN]
      by_cases h2 : p.1 = k2
      · rw [if_pos h2, if_pos h2]
      · rw [if_neg h2, if_neg h2]
        exact ih k k2 v hne

theorem Submap.rfl (L : List (String × Nat)) : Submap L L := fun _ _ h => h

theorem Submap.chain {L1 L2 L3 : List (String × Nat)} (h1 : Submap L1 L2)
    (h2 : Submap L2 L3) : Submap L1 L3 := fun k v h => h2 k v (h1 k v h)

theorem Submap.setN_fresh {L : List (String × Nat)} {k : String} (v : Nat)
    (h : getN L k = none) : Submap L (setN L k v) := by
  intro k2 v2 hk2
  by_cases he : k = k2
  · subst he
    rw [h] at hk2
    exact Option.noConfusion hk2
  · rw [getN_setN_ne _ _ _ _ he]
    exact hk2

theorem MemoCoherent.extend {svcs : Services} {L L2 : List (String × Nat)}
    (hco : MemoCoherent svcs L) (hsub : Submap L L2)
    (hnew : ∀ n v, getN L2 n = some v → getN L n = none →
      (depsOf svcs n = [] → v = 0) ∧
      (∀ d ∈ depsOf svcs n, (getN L2 d).isSome) ∧
      (depsOf svcs n ≠ [] →
        v = ((depsOf svcs n).map (fun d => (getN L2 d).getD 0)).foldl max 0 + 1)) :
    MemoCoherent svcs L2 := by
  intro n v hv
  cases hold : getN L n with
  | none => exact hnew n v hv hold
  | some v0 =>
    have hv0 : v0 = v := by
      have := hsub n v0 hold
      rw [this] at hv
      exact Option.some_inj.mp hv
    subst hv0
    obtain ⟨h1, h2, h3⟩ := hco n v0 hold
    refine ⟨h1, ?_, ?_⟩
    · intro d hd
      obtain ⟨vd, hvd⟩ := Option.isSome_iff_exists.mp (h2 d hd)
      rw [hsub d vd hvd]
      rfl
    · intro hne
      rw [h3 hne]
      congr 1
      refine congrArg _ (List.map_congr_left ?_)
      intro d hd
      obtain ⟨vd, hvd⟩ := Option.isSome_iff_exists.mp (h2 d hd)
      rw [hvd, hsub d vd hvd]

theorem DepChain.snoc {svcs : Services} {p : List String} {n d : String}
    (h : DepChain svcs (p ++ [n])) (hd : d ∈ depsOf svcs n) :
    DepChain svcs ((p ++ [n]) ++ [d]) := by
  refine (List.chain'_append).mpr ⟨h, List.chain'_singleton d, ?_⟩
  intro x hx y hy
  rw [List.getLast?_concat] at hx
  have hxeq : n = x := Option.some_inj.mp (Option.mem_def.mp hx)
  have hyeq : d = y := Option.some_inj.mp (Option.mem_def.mp hy)
  rw [← hxeq, ← hyeq]
  exact hd

/-- A dependency chain ending in a name occurring earlier in it is a cycle. -/
theorem hasCycle_of_chain_mem {svcs : Services} {p : List String} {n : String}
    (hch : DepChain svcs (p ++ [n])) (hn : n ∈ p) : HasCycle svcs := by
  obtain ⟨u, w, rfl⟩ := List.append_of_mem hn
  refine ⟨n :: w ++ [n], ?_, by simp, ?_⟩
  · have hre : (u ++ n :: w) ++ [n] = u ++ ((n :: w) ++ [n]) := by simp
    rw [hre] at hch
    exact (List.chain'_append.mp hch).2.1
  · rw [show n :: w ++ [n] = (n :: w) ++ [n] from rfl, List.getLast?_concat]
    simp

theorem calcFold_nil (svcs : Services) (f a : Nat) (L : List (String × Nat))
    (V : List String) : calcFold svcs f [] a L V = (a, L, V) := rfl

theorem calcFold_cons (svcs : Services) (f : Nat) (d : String) (ds : List String)
    (a : Nat) (L : List (String × Nat)) (V : List String) :
    calcFold svcs f (d :: ds) a L V =
      calcFold svcs f ds (max a (calcNode svcs f d L V).1)
        (calcNode svcs f d L V).2.1 (calcNode svcs f d L V).2.2 := rfl

theorem calcNode_succ (svcs : Services) (f : Nat) (n : String) (L : List (String × Nat))
    (V : List String) :
    calcNode svcs (f + 1) n L V =
      match getN L n with
      | some l => (l, L, V)
      | none =>
        if n ∈ V then (0, L, V)
        else
          match depsOf svcs n with
          | [] => (0, setN L n 0, n :: V)
          | d :: ds =>
            let r := calcFold svcs f (d :: ds) 0 L (n :: V)
            (r.1 + 1, setN r.2.1 n (r.1 + 1), r.2.2) := rfl

theorem isSome_getN_setN (m : List (String × Nat)) (k k2 : String) (v : Nat)
    (h : (getN m k2).isSome) : (getN (setN m k v) k2).isSome := by
  by_cases he : k = k2
  · subst he
    rw [getN_setN_self]
    rfl
  · rw [getN_setN_ne _ _ _ _ he]
    exact h

/-- Master invariant of the memoized level recursion: under acyclicity,
with adequate fuel and a ghost dependency path covering the unmemoized
visited names, `calculateServiceLevel` preserves memo coherence, only
extends the memo, memoizes its argument, grows the visited set, keeps
the path invariant, and never memoizes an already-visited name. -/
theorem calcNode_main (svcs : Services) (hacyc : Acyclic svcs) : ∀ f : Nat,
    (∀ n L V p,
      unvisitedCount svcs V < f →
      MemoCoherent svcs L →
      (∀ x ∈ V, (getN L x).isSome ∨ x ∈ p) →
      (∀ x ∈ p, x ∈ V) →
      DepChain svcs (p ++ [n]) →
      MemoCoherent svcs (calcNode svcs f n L V).2.1 ∧
      Submap L (calcNode svcs f n L V).2.1 ∧
      getN (calcNode svcs f n L V).2.1 n = some (calcNode svcs f n L V).1 ∧
      V ⊆ (calcNode svcs f n L V).2.2 ∧
      (∀ x ∈ (calcNode svcs f n L V).2.2,
        (getN (calcNode svcs f n L V).2.1 x).isSome ∨ x ∈ p) ∧
      (∀ x ∈ V, getN L x = none → getN (calcNode svcs f n L V).2.1 x = none)) ∧
    (∀ ds a L V p,
      unvisitedCount svcs V < f →
      MemoCoherent svcs L →
      (∀ x ∈ V, (getN L x).isSome ∨ x ∈ p) →
      (∀ x ∈ p, x ∈ V) →
      (∀ d ∈ ds, DepChain svcs (p ++ [d])) →
      MemoCoherent svcs (calcFold svcs f ds a L V).2.1 ∧
      Submap L (calcFold svcs f ds a L V).2.1 ∧
      (∀ d ∈ ds, (getN (calcFold svcs f ds a L V).2.1 d).isSome) ∧
      V ⊆ (calcFold svcs f ds a L V).2.2 ∧
      (∀ x ∈ (calcFold svcs f ds a L V).2.2,
        (getN (calcFold svcs f ds a L V).2.1 x).isSome ∨ x ∈ p) ∧
      (∀ x ∈ V, getN L x = none → getN (calcFold svcs f ds a L V).2.1 x = none) ∧
      (calcFold svcs f ds a L V).1 =
        (ds.map (fun d => (getN (calcFold svcs f ds a L V).2.1 d).getD 0)).foldl max a) := by
  intro f
  induction f with
  | zero =>
    constructor
    · intro n L V p hcnt
      exact absurd hcnt (Nat.not_lt_zero _)
    · intro ds a L V p hcnt
      exact absurd hcnt (Nat.not_lt_zero _)
  | succ f ih =>
    have hnode : ∀ n L V p,
        unvisitedCount svcs V < f + 1 →
        MemoCoherent svcs L →
        (∀ x ∈ V, (getN L x).isSome ∨ x ∈ p) →
        (∀ x ∈ p, x ∈ V) →
        DepChain svcs (p ++ [n]) →
        MemoCoherent svcs (calcNode svcs (f + 1) n L V).2.1 ∧
        Submap L (calcNode svcs (f + 1) n L V).2.1 ∧
        getN (calcNode svcs (f + 1) n L V).2.1 n = some (calcNode svcs (f + 1) n L V).1 ∧
        V ⊆ (calcNode svcs (f + 1) n L V).2.2 ∧
        (∀ x ∈ (calcNode svcs (f + 1) n L V).2.2,
          (getN (calcNode svcs (f + 1) n L V).2.1 x).isSome ∨ x ∈ p) ∧
        (∀ x ∈ V, getN L x = none → getN (calcNode svcs (f + 1) n L V).2.1 x = none) := by
      intro n L V p hcnt hco hvi hpv hch
      cases hmem : getN L n with
      | some l =>
        have hred : calcNode svcs (f + 1) n L V = (l, L, V) := by
          rw [calcNode_succ, hmem]
        rw [hred]
        exact ⟨hco, Submap.rfl L, hmem, fun x hx => hx, hvi, fun x _ h => h⟩
      | none =>
        by_cases hv : n ∈ V
        · exfalso
          rcases hvi n hv with hs | hp
          · rw [hmem] at hs
            simp at hs
          · exact hacyc (hasCycle_of_chain_mem hch hp)
        · cases hdeps : depsOf svcs n with
          | nil =>
            have hred : calcNode svcs (f + 1) n L V = (0, setN L n 0, n :: V) := by
              rw [calcNode_succ, hmem, if_neg hv, hdeps]
            rw [hred]
            have hsub : Submap L (setN L n 0) := Submap.setN_fresh 0 hmem
            refine ⟨?_, hsub, getN_setN_self L n 0, fun x hx => List.mem_cons_of_mem n hx,
              ?_, ?_⟩
            · refine MemoCoherent.extend hco hsub ?_
              intro m v hm hold
              by_cases he : n = m
              · subst he
                rw [getN_setN_self] at hm
                have hv0 : v = 0 := (Option.some_inj.mp hm).symm
                refine ⟨fun _ => hv0, ?_, ?_⟩
                · intro e he'
                  rw [hdeps] at he'
                  exact absurd he' (List.not_mem_nil e)
                · intro hne
                  exact absurd hdeps hne
              · rw [getN_setN_ne _ _ _ _ he] at hm
                rw [hm] at hold
                exact Option.noConfusion hold
            · intro x hx
              rcases List.mem_cons.mp hx with he | hxv
              · subst he
                left
                rw [getN_setN_self]
                rfl
              · rcases hvi x hxv with hs | hp
                · obtain ⟨v, hvv⟩ := Option.isSome_iff_exists.mp hs
                  left
                  rw [hsub x v hvv]
                  rfl
                · exact Or.inr hp
            · intro x hx hxnone
              have hne : n ≠ x := fun he => hv (he ▸ hx)
              rw [getN_setN_ne _ _ _ _ hne]
              exact hxnone
          | cons d ds =>
            have hndecl : n ∈ svcs.map Prod.fst := by
              by_contra hnd
              rw [depsOf_eq_nil_of_not_declared hnd] at hdeps
              exact List.noConfusion hdeps
            have hcnt' : unvisitedCount svcs (n :: V) < f := by
              have hlt := unvisitedCount_cons_lt hndecl hv
              omega
            have hnn : n ∉ depsOf svcs n := fun hmm =>
              hacyc (hasCycle_of_chain_mem (DepChain.snoc hch hmm)
                (List.mem_append_right p (List.mem_singleton.mpr rfl)))
            have hch' : ∀ e ∈ depsOf svcs n, DepChain svcs ((p ++ [n]) ++ [e]) :=
              fun e he => DepChain.snoc hch he
            rw [hdeps] at hch'
            have hvi' : ∀ x ∈ n :: V, (getN L x).isSome ∨ x ∈ p ++ [n] := by
              intro x hx
              rcases List.mem_cons.mp hx with he | hxv
              · exact Or.inr (List.mem_append_right p (List.mem_singleton.mpr he))
              · rcases hvi x hxv with hs | hp
                · exact Or.inl hs
                · exact Or.inr (List.mem_append_left _ hp)
            have hpv' : ∀ x ∈ p ++ [n], x ∈ n :: V := by
              intro x hx
              rcases List.mem_append.mp hx with hp | hn1
              · exact List.mem_cons_of_mem _ (hpv x hp)
              · exact List.mem_cons.mpr (Or.inl (List.mem_singleton.mp hn1))
            obtain ⟨rco, rsub, rall, rVsub, rvi, rkeep, rval⟩ :=
              ih.2 (d :: ds) 0 L (n :: V) (p ++ [n]) hcnt' hco hvi' hpv' hch'
            have hred : calcNode svcs (f + 1) n L V =
                ((calcFold svcs f (d :: ds) 0 L (n :: V)).1 + 1,
                  setN (calcFold svcs f (d :: ds) 0 L (n :: V)).2.1 n
                    ((calcFold svcs f (d :: ds) 0 L (n :: V)).1 + 1),
                  (calcFold svcs f (d :: ds) 0 L (n :: V)).2.2) := by
              rw [calcNode_succ, hmem, if_neg hv, hdeps]
            rw [hred]
            have hnnone : getN (calcFold svcs f (d :: ds) 0 L (n :: V)).2.1 n = none :=
              rkeep n (List.mem_cons_self n V) hmem
            have hsub2 : Submap (calcFold svcs f (d :: ds) 0 L (n :: V)).2.1
                (setN (calcFold svcs f (d :: ds) 0 L (n :: V)).2.1 n
                  ((calcFold svcs f (d :: ds) 0 L (n :: V)).1 + 1)) :=
              Submap.setN_fresh _ hnnone
            have hndep : ∀ e ∈ (d :: ds : List String), n ≠ e := by
              intro e he hne
              exact hnn (hdeps ▸ (hne ▸ he))
            refine ⟨?_, Submap.chain rsub hsub2, getN_setN_self _ n _, ?_, ?_, ?_⟩
            · refine MemoCoherent.extend rco hsub2 ?_
              intro m v hm hold
              by_cases he : n = m
              · subst he
                rw [getN_setN_self] at hm
                have hveq : v = (calcFold svcs f (d :: ds) 0 L (n :: V)).1 + 1 :=
                  (Option.some_inj.mp hm).symm
                refine ⟨?_, ?_, ?_⟩
                · intro hnil
                  rw [hdeps] at hnil
                  exact absurd hnil (List.noConfusion)
                · intro e he'
                  rw [hdeps] at he'
                  exact isSome_getN_setN _ _ _ _ (rall e he')
                · intro _
                  rw [hdeps, hveq]
                  congr 1
                  rw [rval]
                  congr 1
                  refine (List.map_congr_left ?_).symm
                  intro e he'
                  rw [getN_setN_ne _ _ _ _ (hndep e he')]
              · rw [getN_setN_ne _ _ _ _ he] at hm
                rw [hm] at hold
                exact Option.noConfusion hold
            · intro x hx
              exact rVsub (List.mem_cons_of_mem n hx)
            · intro x hx
              rcases rvi x hx with hs | hp
              · exact Or.inl (isSome_getN_setN _ _ _ _ hs)
              · rcases List.mem_append.mp hp with hp1 | hn1
                · exact Or.inr hp1
                · left
                  rw [List.mem_singleton.mp hn1, getN_setN_self]
                  rfl
            · intro x hx hxnone
              have hne : n ≠ x := fun he => hv (he ▸ hx)
              rw [getN_setN_ne _ _ _ _ hne]
              exact rkeep x (List.mem_cons_of_mem n hx) hxnone
    refine ⟨hnode, ?_⟩
    intro ds
    induction ds with
    | nil =>
      intro a L V p hcnt hco hvi hpv _
      rw [calcFold_nil]
      exact ⟨hco, Submap.rfl L, fun d hd => absurd hd (List.not_mem_nil d),
        fun x hx => hx, hvi, fun x _ h => h, rfl⟩
    | cons d ds ihds =>
      intro a L V p hcnt hco hvi hpv hch
      rw [calcFold_cons]
      obtain ⟨co1, sub1, hval1, Vsub1, vi1, keep1⟩ :=
        hnode d L V p hcnt hco hvi hpv (hch d (List.mem_cons_self d ds))
      obtain ⟨co2, sub2, all2, Vsub2, vi2, keep2, val2⟩ :=
        ihds (max a (calcNode svcs (f + 1) d L V).1) (calcNode svcs (f + 1) d L V).2.1
          (calcNode svcs (f + 1) d L V).2.2 p
          (lt_of_le_of_lt (unvisitedCount_mono Vsub1) hcnt) co1 vi1
          (fun x hx => Vsub1 (hpv x hx))
          (fun e he => hch e (List.mem_cons_of_mem d he))
      have hdfin : getN (calcFold svcs (f + 1) ds (max a (calcNode svcs (f + 1) d L V).1)
          (calcNode svcs (f + 1) d L V).2.1 (calcNode svcs (f + 1) d L V).2.2).2.1 d =
          some (calcNode svcs (f + 1) d L V).1 :=
        sub2 d _ hval1
      refine ⟨co2, Submap.chain sub1 sub2, ?_, fun x hx => Vsub2 (Vsub1 hx), vi2, ?_, ?_⟩
      · intro e he
        rcases List.mem_cons.mp he with he1 | he2
        · subst he1
          rw [hdfin]
          rfl
        · exact all2 e he2
      · intro x hx hxnone
        exact keep2 x (Vsub1 hx) (keep1 x hx hxnone)
      · rw [val2, List.map_cons, List.foldl_cons, hdfin]
        rfl

theorem memoCoherent_nil (svcs : Services) : MemoCoherent svcs [] :=
  fun _ _ h => Option.noConfusion h

theorem levelsMapOf_eq (svcs : Services) (ordered : List String) :
    levelsMapOf svcs ordered = levelsFold svcs ordered [] := rfl

theorem levelsFold_spec (svcs : Services) (hacyc : Acyclic svcs) :
    ∀ (names : List String) (L : List (String × Nat)),
    MemoCoherent svcs L →
    MemoCoherent svcs (levelsFold svcs names L) ∧
    Submap L (levelsFold svcs names L) ∧
    (∀ n ∈ names, (getN (levelsFold svcs names L) n).isSome) := by
  intro names
  induction names with
  | nil =>
    intro L hco
    exact ⟨hco, Submap.rfl L, fun n hn => absurd hn (List.not_mem_nil n)⟩
  | cons n names ih =>
    intro L hco
    have hcnt : unvisitedCount svcs [] < svcs.length + 1 :=
      Nat.lt_succ_of_le (unvisitedCount_le svcs [])
    obtain ⟨co1, sub1, hval1, _, _, _⟩ :=
      (calcNode_main svcs hacyc (svcs.length + 1)).1 n L [] [] hcnt hco
        (fun x hx => absurd hx (List.not_mem_nil x))
        (fun x hx => absurd hx (List.not_mem_nil x))
        (List.chain'_singleton n)
    obtain ⟨co2, sub2, all2⟩ := ih (calcNode svcs (svcs.length + 1) n L []).2.1 co1
    have hstep : levelsFold svcs (n :: names) L =
        levelsFold svcs names (calcNode svcs (svcs.length + 1) n L []).2.1 := rfl
    rw [hstep]
    refine ⟨co2, Submap.chain sub1 sub2, ?_⟩
    intro m hm
    rcases List.mem_cons.mp hm with he | hm2
    · subst he
      rw [sub2 m _ hval1]
      rfl
    · exact all2 m hm2

theorem buildDependencyLevels_eq (svcs : Services) (ordered : List String) :
    buildDependencyLevels svcs ordered =
      if ordered.isEmpty then []
      else
        (List.range ((ordered.map (lvlOf svcs ordered)).foldl max 0 + 1)).map
          (fun i => ordered.filter (fun n => lvlOf svcs ordered n = i)) := by
  unfold buildDependencyLevels lvlOf
  rw [List.foldl_map]

theorem le_foldl_max : ∀ (l : List Nat) (a : Nat),
    a ≤ l.foldl max a ∧ ∀ b ∈ l, b ≤ l.foldl max a := by
  intro l
  induction l with
  | nil =>
    intro a
    exact ⟨Nat.le_refl a, fun b hb => absurd hb (List.not_mem_nil b)⟩
  | cons c l ih =>
    intro a
    rw [List.foldl_cons]
    constructor
    · exact le_trans (Nat.le_max_left a c) (ih (max a c)).1
    · intro b hb
      rcases List.mem_cons.mp hb with he | hb2
      · rw [he]
        exact le_trans (Nat.le_max_right a c) (ih (max a c)).1
      · exact (ih (max a c)).2 b hb2

/-- On an acyclic declaration set, every name handed to the level loop
gets memoized, and the memoized level satisfies the recurrence of
`calculateServiceLevel`. -/
theorem lvlOf_recurrence (svcs : Services) (hacyc : Acyclic svcs) (ordered : List String)
    (u : String) (hu : u ∈ ordered) :
    (depsOf svcs u = [] → lvlOf svcs ordered u = 0) ∧
    (depsOf svcs u ≠ [] →
      lvlOf svcs ordered u = ((depsOf svcs u).map (lvlOf svcs ordered)).foldl max 0 + 1) := by
  obtain ⟨hco, _, hall⟩ :=
    levelsFold_spec svcs hacyc ordered [] (memoCoherent_nil svcs)
  rw [← levelsMapOf_eq] at hco hall
  obtain ⟨v, hv⟩ := Option.isSome_iff_exists.mp (hall u hu)
  obtain ⟨h1, _, h3⟩ := hco u v hv
  have hlv : lvlOf svcs ordered u = v := by
    unfold lvlOf
    rw [hv]
    rfl
  constructor
  · intro hnil
    rw [hlv]
    exact h1 hnil
  · intro hne
    rw [hlv, h3 hne]
    rfl

/-- A dependency of an in-closure unit sits at a strictly smaller level. -/
theorem lvlOf_dep_lt (svcs : Services) (hacyc : Acyclic svcs) (ordered : List String)
    (u : String) (hu : u ∈ ordered) (d : String) (hd : d ∈ depsOf svcs u) :
    lvlOf svcs ordered d < lvlOf svcs ordered u := by
  have hne : depsOf svcs u ≠ [] := by
    intro h
    rw [h] at hd
    exact absurd hd (List.not_mem_nil d)
  rw [(lvlOf_recurrence svcs hacyc ordered u hu).2 hne]
  have hmem : lvlOf svcs ordered d ∈ (depsOf svcs u).map (lvlOf svcs ordered) :=
    List.mem_map_of_mem _ hd
  have := (le_foldl_max ((depsOf svcs u).map (lvlOf svcs ordered)) 0).2 _ hmem
  omega

theorem buildDependencyLevels_mem_group (svcs : Services) (ordered : List String)
    (u : String) (hu : u ∈ ordered) :
    ∃ g ∈ buildDependencyLevels svcs ordered, u ∈ g := by
  rw [buildDependencyLevels_eq]
  have hne : ordered.isEmpty = false := by
    cases ordered with
    | nil => exact absurd hu (List.not_mem_nil u)
    | cons a l => rfl
  rw [if_neg (by rw [hne]; exact Bool.false_ne_true)]
  refine ⟨ordered.filter (fun n => lvlOf svcs ordered n = lvlOf svcs ordered u), ?_, ?_⟩
  · refine List.mem_map.mpr ⟨lvlOf svcs ordered u, ?_, rfl⟩
    refine List.mem_range.mpr (Nat.lt_succ_of_le ?_)
    exact (le_foldl_max (ordered.map (lvlOf svcs ordered)) 0).2 _
      (List.mem_map_of_mem _ hu)
  · exact List.mem_filter.mpr ⟨hu, decide_eq_true rfl⟩

theorem buildDependencyLevels_mem_ordered (svcs : Services) (ordered : List String)
    (u : String) (g : List String) (hg : g ∈ buildDependencyLevels svcs ordered)
    (hu : u ∈ g) : u ∈ ordered := by
  rw [buildDependencyLevels_eq] at hg
  by_cases h : ordered.isEmpty
  · rw [if_pos h] at hg
    exact absurd hg (List.not_mem_nil g)
  · rw [if_neg h] at hg
    obtain ⟨i, _, hgi⟩ := List.mem_map.mp hg
    rw [← hgi] at hu
    exact (List.mem_filter.mp hu).1

theorem buildDependencyLevels_pairwise (svcs : Services) (ordered : List String) :
    (buildDependencyLevels svcs ordered).Pairwise (fun g1 g2 => ∀ u, u ∈ g1 → u ∉ g2) := by
  rw [buildDependencyLevels_eq]
  by_cases h : ordered.isEmpty
  · rw [if_pos h]
    exact List.Pairwise.nil
  · rw [if_neg h]
    refine List.Pairwise.map _ ?_ (List.pairwise_lt_range _)
    intro i j hij u hui huj
    have hi : lvlOf svcs ordered u = i := of_decide_eq_true (List.mem_filter.mp hui).2
    have hj : lvlOf svcs ordered u = j := of_decide_eq_true (List.mem_filter.mp huj).2
    omega

/-! ### Claim C3 -/

/-- C3: for every unit in the ordered closure of an acyclic declaration
set (dependency-closedness of the closure being guaranteed by the
resolver), the level computed by `buildDependencyLevels` is 0 when the
unit has no dependencies within the closure and otherwise one plus the
maximum level of its in-closure dependencies, and the produced level
groups partition the closure into disjoint sets. -/
theorem C3_levels_recurrence_partition (svcs : Services) (ordered : List String)
    (hacyc : Acyclic svcs)
    (hclosed : ∀ u ∈ ordered, ∀ d ∈ depsOf svcs u, d ∈ ordered) :
    (∀ u ∈ ordered,
      ((depsOf svcs u).filter (fun d => d ∈ ordered) = [] →
        lvlOf svcs ordered u = 0) ∧
      ((depsOf svcs u).filter (fun d => d ∈ ordered) ≠ [] →
        lvlOf svcs ordered u =
          (((depsOf svcs u).filter (fun d => d ∈ ordered)).map
              (lvlOf svcs ordered)).foldl max 0 + 1)) ∧
    (∀ u, u ∈ ordered ↔ ∃ g ∈ buildDependencyLevels svcs ordered, u ∈ g) ∧
    (buildDependencyLevels svcs ordered).Pairwise
      (fun g1 g2 => ∀ u, u ∈ g1 → u ∉ g2) := by
  refine ⟨?_, ?_, buildDependencyLevels_pairwise svcs ordered⟩
  · intro u hu
    have hfe : (depsOf svcs u).filter (fun d => d ∈ ordered) = depsOf svcs u :=
      List.filter_eq_self.mpr (fun d hd => decide_eq_true (hclosed u hu d hd))
    rw [hfe]
    exact lvlOf_recurrence svcs hacyc ordered u hu
  · intro u
    constructor
    · exact buildDependencyLevels_mem_group svcs ordered u
    · rintro ⟨g, hg, hug⟩
      exact buildDependencyLevels_mem_ordered svcs ordered u g hg hug

theorem C3_witness :
    (Acyclic exChain ∧
      ∀ u ∈ ["db", "api", "web"], ∀ d ∈ depsOf exChain u, d ∈ ["db", "api", "web"]) ∧
    ((∀ u ∈ ["db", "api", "web"],
        ((depsOf exChain u).filter (fun d => d ∈ ["db", "api", "web"]) = [] →
          lvlOf exChain ["db", "api", "web"] u = 0) ∧
        ((depsOf exChain u).filter (fun d => d ∈ ["db", "api", "web"]) ≠ [] →
          lvlOf exChain ["db", "api", "web"] u =
            (((depsOf exChain u).filter (fun d => d ∈ ["db", "api", "web"])).map
                (lvlOf exChain ["db", "api", "web"])).foldl max 0 + 1)) ∧
      (∀ u, u ∈ ["db", "api", "web"] ↔
        ∃ g ∈ buildDependencyLevels exChain ["db", "api", "web"], u ∈ g) ∧
      (buildDependencyLevels exChain ["db", "api", "web"]).Pairwise
        (fun g1 g2 => ∀ u, u ∈ g1 → u ∉ g2)) :=
  ⟨⟨acyclic_of_detect_all_none exChain rfl, by decide⟩,
    C3_levels_recurrence_partition exChain ["db", "api", "web"]
      (acyclic_of_detect_all_none exChain rfl) (by decide)⟩

theorem C6_witness :
    ((ServiceR.new "svc" ⟨[], none⟩).state ≠ .running ∧
      oracleConnectFails.cleanup "svc" = .ok ∧
      oracleConnectFails.loadEnv "svc" = .ok () ∧
      oracleConnectFails.run "svc" = .ok "cid0") ∧
    ((ServiceR.start oracleConnectFails 0 "net" (ServiceR.new "svc" ⟨[], none⟩)).2
        = .ok () ∧
      (ServiceR.start oracleConnectFails 0 "net"
        (ServiceR.new "svc" ⟨[], none⟩)).1.state = .running ∧
      (ServiceR.start oracleConnectFails 0 "net"
        (ServiceR.new "svc" ⟨[], none⟩)).1.healthStatus = .unknown ∧
      (ServiceR.start oracleConnectFails 0 "net"
        (ServiceR.new "svc" ⟨[], none⟩)).1.containerID = "cid0" ∧
      (ServiceR.start oracleConnectFails 0 "net"
        (ServiceR.new "svc" ⟨[], none⟩)).1.startedAt = some 0) :=
  ⟨⟨by decide, rfl, rfl, rfl⟩,
    (C6_start_state_machine oracleConnectFails 0 "net"
      (ServiceR.new "svc" ⟨[], none⟩)).2.1 (by decide) rfl rfl "cid0" rfl⟩

theorem C10_witness :
    maxWaitNs < parsedInterval ⟨"/health", some (31 * secondNs), none, 0⟩ ∧
    ((waitForServiceHealth oracleConnectFails
        (ServiceR.new "svc" ⟨[], some ⟨"/health", some (31 * secondNs), none, 0⟩⟩)).2.1
      = .error (healthTimeoutMsg
          (ServiceR.new "svc" ⟨[], some ⟨"/health", some (31 * secondNs), none, 0⟩⟩).name) ∧
     (waitForServiceHealth oracleConnectFails
        (ServiceR.new "svc" ⟨[], some ⟨"/health", some (31 * secondNs), none, 0⟩⟩)).2.2
      = []) :=
  ⟨by decide,
   (C10_interval_exceeding_deadline_never_checks oracleConnectFails
      (ServiceR.new "svc" ⟨[], some ⟨"/health", some (31 * secondNs), none, 0⟩⟩)
      ⟨"/health", some (31 * secondNs), none, 0⟩ rfl).2 (by decide)⟩

/-! ### Probe protocol lemmas for the readiness gate -/

theorem httpRetries_pos (h : HealthCheck) : 1 ≤ httpRetries h := by
  unfold httpRetries
  by_cases hr : h.retries = 0
  · rw [if_pos hr]
    omega
  · rw [if_neg hr]
    omega

theorem httpLoop_all_fail (attempt : Nat → Bool) (hfail : ∀ i, attempt i = false) :
    ∀ (r i : Nat), httpLoop attempt i r = (.error "health check failed after retries", r) := by
  intro r
  induction r with
  | zero => intro i; rfl
  | succ r ih =>
    intro i
    rw [show httpLoop attempt i (r + 1) =
        (if attempt i then ((.ok () : Except String Unit), 1)
         else ((httpLoop attempt (i + 1) r).1, (httpLoop attempt (i + 1) r).2 + 1)) from rfl]
    rw [if_neg (by rw [hfail i]; exact Bool.false_ne_true)]
    rw [ih (i + 1)]

theorem checkHealth_fail (attempt : Nat → Bool) (s : ServiceR) (h : HealthCheck)
    (hst : s.state = .running) (hh : s.config.health = some h) (hep : h.endpoint ≠ "")
    (hfail : ∀ i, attempt i = false) :
    ServiceR.checkHealth attempt s =
      ({s with healthStatus := .unhealthy}, .error "health check failed after retries") := by
  have hperf : (performHTTPHealthCheck attempt h).1 =
      .error "health check failed after retries" := by
    show (httpLoop attempt 0 (httpRetries h)).1 = _
    rw [httpLoop_all_fail attempt hfail (httpRetries h) 0]
  unfold ServiceR.checkHealth
  rw [if_neg (fun hc => hc hst)]
  simp only [hh]
  rw [if_pos hep]
  simp only [hperf]

theorem checkHealth_noProbe (attempt : Nat → Bool) (s : ServiceR)
    (hst : s.state = .running) (hn : s.config.health = none) :
    ServiceR.checkHealth attempt s = ({s with healthStatus := .healthy}, .ok ()) := by
  unfold ServiceR.checkHealth
  rw [if_neg (fun hc => hc hst)]
  simp only [hn]

/-- The ticks at which the gate checks are always consecutive from the
starting tick: the gate polls at every multiple of the interval. -/
theorem waitLoop_consecutive (o : Oracle) (iv : Nat) :
    ∀ (fuel k : Nat) (s : ServiceR),
      ∃ m, (waitLoop o iv k fuel s).2.2 = List.range' k m := by
  intro fuel
  induction fuel with
  | zero => intro k s; exact ⟨0, rfl⟩
  | succ fuel ih =>
    intro k s
    rw [waitLoop_succ]
    by_cases hdl : maxWaitNs < k * iv
    · rw [if_pos hdl]
      exact ⟨0, rfl⟩
    · rw [if_neg hdl]
      cases hc : ServiceR.checkHealth (o.probe s.name k) s with
      | mk s2 r =>
        cases r with
        | ok u => exact ⟨1, rfl⟩
        | error e =>
          obtain ⟨m, hm⟩ := ih (k + 1) s2
          refine ⟨m + 1, ?_⟩
          show k :: (waitLoop o iv (k + 1) fuel s2).2.2 = List.range' k (m + 1)
          rw [hm]
          rfl

/-- If the probe never succeeds, the gate always ends in the
health-timeout error. -/
theorem waitLoop_all_fail (o : Oracle) (iv : Nat) (h : HealthCheck) :
    ∀ (fuel k : Nat) (s : ServiceR), s.state = .running → s.config.health = some h →
      h.endpoint ≠ "" → (∀ t i, o.probe s.name t i = false) →
      (waitLoop o iv k fuel s).2.1 = .error (healthTimeoutMsg s.name) := by
  intro fuel
  induction fuel with
  | zero => intro k s _ _ _ _; rfl
  | succ fuel ih =>
    intro k s hst hh hep hpr
    rw [waitLoop_succ]
    by_cases hdl : maxWaitNs < k * iv
    · rw [if_pos hdl]
    · rw [if_neg hdl]
      rw [checkHealth_fail (o.probe s.name k) s h hst hh hep (fun i => hpr k i)]
      show (waitLoop o iv (k + 1) fuel {s with healthStatus := .unhealthy}).2.1 = _
      exact ih (k + 1) {s with healthStatus := .unhealthy} hst hh hep hpr

/-! ### Claim C8 -/

/-- C8: the readiness gate polls at the declared interval, defaulting to
5 seconds; the per-attempt HTTP timeout defaults to 3 seconds and the
per-cycle retry count defaults to 3 (an all-failing cycle performs
exactly the retry count of attempts); the overall deadline is the fixed
30-second constant, the checks happen at consecutive interval ticks
within that deadline, and a probe that never succeeds ends in the
health-timeout error; a unit with no declared probe is classified
healthy by a single ungated check, and a level without any declared
probe skips the gate entirely. -/
theorem C8_probe_defaults_and_gate (o : Oracle) (s : ServiceR) (h : HealthCheck)
    (hh : s.config.health = some h) :
    maxWaitNs = 30 * secondNs ∧
    (h.interval = none → parsedInterval h = 5 * secondNs) ∧
    (h.timeout = none → (performHTTPHealthCheck (o.probe s.name 1) h).2.2 = 3 * secondNs) ∧
    (h.retries = 0 → httpRetries h = 3) ∧
    (∃ m, (waitForServiceHealth o s).2.2 = List.range' 1 m) ∧
    (∀ k ∈ (waitForServiceHealth o s).2.2, 1 ≤ k ∧ k * parsedInterval h ≤ maxWaitNs) ∧
    (∀ k, (∀ i, o.probe s.name k i = false) →
      (performHTTPHealthCheck (o.probe s.name k) h).2.1 = httpRetries h ∧
      (performHTTPHealthCheck (o.probe s.name k) h).1 =
        .error "health check failed after retries") ∧
    (s.state = .running → h.endpoint ≠ "" → (∀ t i, o.probe s.name t i = false) →
      (waitForServiceHealth o s).2.1 = .error (healthTimeoutMsg s.name)) ∧
    (∀ t : ServiceR, t.state = .running → t.config.health = none →
      ServiceR.checkHealth (o.probe t.name 1) t =
        ({t with healthStatus := .healthy}, .ok ())) ∧
    (∀ (names : List String) (st : RunSt),
      (¬ names.any (fun n =>
        match getSvc st.services n with
        | some svc => svc.config.health.isSome
        | none => false)) →
      waitForHealthy o names st = (st, [])) := by
  have hunfold : waitForServiceHealth o s =
      waitLoop o (parsedInterval h) 1 (maxWaitNs / parsedInterval h + 2) s := by
    unfold waitForServiceHealth
    rw [hh]
  refine ⟨rfl, ?_, ?_, ?_, ?_, ?_, ?_, ?_, ?_, ?_⟩
  · intro hi
    unfold parsedInterval
    rw [hi]
  · intro ht
    show parsedTimeout h = _
    unfold parsedTimeout
    rw [ht]
  · intro hr
    unfold httpRetries
    rw [hr]
    simp
  · rw [hunfold]
    exact waitLoop_consecutive o (parsedInterval h) _ 1 s
  · intro k hk
    rw [hunfold] at hk
    exact waitLoop_trace o (parsedInterval h) _ 1 s k hk
  · intro k hfail
    constructor
    · show (httpLoop (o.probe s.name k) 0 (httpRetries h)).2 = httpRetries h
      rw [httpLoop_all_fail (o.probe s.name k) hfail (httpRetries h) 0]
    · show (httpLoop (o.probe s.name k) 0 (httpRetries h)).1 = _
      rw [httpLoop_all_fail (o.probe s.name k) hfail (httpRetries h) 0]
  · intro hst hep hfail
    rw [hunfold]
    exact waitLoop_all_fail o (parsedInterval h) h _ 1 s hst hh hep hfail
  · intro t hst hn
    exact checkHealth_noProbe (o.probe t.name 1) t hst hn
  · intro names st hno
    unfold waitForHealthy
    rw [if_pos hno]

theorem C8_witness :
    exProbeSvc.config.health = some exProbe ∧
    parsedInterval exProbe = 5 * secondNs ∧
    (performHTTPHealthCheck (oracleProbeFails.probe exProbeSvc.name 1) exProbe).2.2
      = 3 * secondNs ∧
    httpRetries exProbe = 3 ∧
    (∃ m, (waitForServiceHealth oracleProbeFails exProbeSvc).2.2 = List.range' 1 m) ∧
    (performHTTPHealthCheck (oracleProbeFails.probe exProbeSvc.name 1) exProbe).2.1 = 3 ∧
    (waitForServiceHealth oracleProbeFails exProbeSvc).2.1
      = .error (healthTimeoutMsg exProbeSvc.name) := by
  have hmain := C8_probe_defaults_and_gate oracleProbeFails exProbeSvc exProbe rfl
  refine ⟨rfl, hmain.2.1 rfl, hmain.2.2.1 rfl, hmain.2.2.2.1 rfl, hmain.2.2.2.2.1, ?_, ?_⟩
  · have := (hmain.2.2.2.2.2.2.1 1 (fun _ => rfl)).1
    rw [this]
    exact hmain.2.2.2.1 rfl
  · exact hmain.2.2.2.2.2.2.2.1 (by decide) (by decide) (fun _ _ => rfl)

theorem startServicesInParallel_eq (o : Oracle) (net : String) (names : List String)
    (st : RunSt) :
    startServicesInParallel o net names st = names.foldl (startParStep o net) (st, []) := rfl

theorem waitForHealthy_eq (o : Oracle) (names : List String) (st : RunSt) :
    waitForHealthy o names st =
      if ¬ names.any (fun n =>
          match getSvc st.services n with
          | some svc => svc.config.health.isSome
          | none => false) then (st, [])
      else names.foldl (waitHStep o) (st, []) := rfl

theorem startParStep_spec (o : Oracle) (net : String) (st : RunSt) (errs : List String)
    (n : String) :
    ∃ new1 tr1,
      (startParStep o net (st, errs) n).1.started = st.started ++ new1 ∧
      (∀ x ∈ new1, x = n) ∧
      (startParStep o net (st, errs) n).1.startTrace = st.startTrace ++ tr1 ∧
      (∀ p ∈ tr1, (p : String × List (String × ServiceR)).1 = n) := by
  cases hg : getSvc st.services n with
  | none =>
    refine ⟨[], [], ?_, ?_, ?_, ?_⟩ <;> simp [startParStep, hg]
  | some svc =>
    cases hr : (ServiceR.start o st.clock net svc).2 with
    | ok u =>
      refine ⟨[n], [(n, st.services)], ?_, ?_, ?_, ?_⟩ <;> simp [startParStep, hg, hr]
    | error e =>
      refine ⟨[], [(n, st.services)], ?_, ?_, ?_, ?_⟩ <;> simp [startParStep, hg, hr]

theorem startParFold_spec (o : Oracle) (net : String) :
    ∀ (names : List String) (st : RunSt) (errs : List String),
      ∃ new tr,
        (names.foldl (startParStep o net) (st, errs)).1.started = st.started ++ new ∧
        (∀ x ∈ new, x ∈ names) ∧
        (names.foldl (startParStep o net) (st, errs)).1.startTrace = st.startTrace ++ tr ∧
        (∀ p ∈ tr, (p : String × List (String × ServiceR)).1 ∈ names) := by
  intro names
  induction names with
  | nil =>
    intro st errs
    exact ⟨[], [], by simp, by simp, by simp, by simp⟩
  | cons n rest ih =>
    intro st errs
    rw [List.foldl_cons]
    obtain ⟨new1, tr1, h1, h2, h3, h4⟩ := startParStep_spec o net st errs n
    obtain ⟨new, tr, g1, g2, g3, g4⟩ :=
      ih (startParStep o net (st, errs) n).1 (startParStep o net (st, errs) n).2
    have g1' : (rest.foldl (startParStep o net) (startParStep o net (st, errs) n)).1.started
        = (startParStep o net (st, errs) n).1.started ++ new := g1
    have g3' : (rest.foldl (startParStep o net) (startParStep o net (st, errs) n)).1.startTrace
        = (startParStep o net (st, errs) n).1.startTrace ++ tr := g3
    refine ⟨new1 ++ new, tr1 ++ tr, ?_, ?_, ?_, ?_⟩
    · rw [g1', h1, List.append_assoc]
    · intro x hx
      rcases List.mem_append.mp hx with hx1 | hx2
      · rw [h2 x hx1]
        exact List.mem_cons_self n rest
      · exact List.mem_cons_of_mem n (g2 x hx2)
    · rw [g3', h3, List.append_assoc]
    · intro p hp
      rcases List.mem_append.mp hp with hp1 | hp2
      · rw [h4 p hp1]
        exact List.mem_cons_self n rest
      · exact List.mem_cons_of_mem n (g4 p hp2)

theorem startServicesInParallel_spec (o : Oracle) (net : String) (names : List String)
    (st : RunSt) :
    ∃ new tr,
      (startServicesInParallel o net names st).1.started = st.started ++ new ∧
      (∀ x ∈ new, x ∈ names) ∧
      (startServicesInParallel o net names st).1.startTrace = st.startTrace ++ tr ∧
      (∀ p ∈ tr, (p : String × List (String × ServiceR)).1 ∈ names) := by
  rw [startServicesInParallel_eq]
  exact startParFold_spec o net names st []

theorem waitHStep_preserves (o : Oracle) (st : RunSt) (errs : List String) (n : String) :
    (waitHStep o (st, errs) n).1.started = st.started ∧
    (waitHStep o (st, errs) n).1.startTrace = st.startTrace ∧
    (waitHStep o (st, errs) n).1.clock = st.clock := by
  cases hg : getSvc st.services n with
  | none => refine ⟨?_, ?_, ?_⟩ <;> simp [waitHStep, hg]
  | some svc =>
    cases hh : svc.config.health with
    | none => refine ⟨?_, ?_, ?_⟩ <;> simp [waitHStep, hg, hh]
    | some hc =>
      cases hr : (waitForServiceHealth o svc).2.1 with
      | ok u => refine ⟨?_, ?_, ?_⟩ <;> simp [waitHStep, hg, hh, hr]
      | error e => refine ⟨?_, ?_, ?_⟩ <;> simp [waitHStep, hg, hh, hr]

theorem waitHFold_preserves (o : Oracle) :
    ∀ (names : List String) (st : RunSt) (errs : List String),
      (names.foldl (waitHStep o) (st, errs)).1.started = st.started ∧
      (names.foldl (waitHStep o) (st, errs)).1.startTrace = st.startTrace ∧
      (names.foldl (waitHStep o) (st, errs)).1.clock = st.clock := by
  intro names
  induction names with
  | nil => intro st errs; exact ⟨rfl, rfl, rfl⟩
  | cons n rest ih =>
    intro st errs
    rw [List.foldl_cons]
    obtain ⟨h1, h2, h3⟩ := waitHStep_preserves o st errs n
    obtain ⟨g1, g2, g3⟩ := ih (waitHStep o (st, errs) n).1 (waitHStep o (st, errs) n).2
    have g1' : (rest.foldl (waitHStep o) (waitHStep o (st, errs) n)).1.started
        = (waitHStep o (st, errs) n).1.started := g1
    have g2' : (rest.foldl (waitHStep o) (waitHStep o (st, errs) n)).1.startTrace
        = (waitHStep o (st, errs) n).1.startTrace := g2
    have g3' : (rest.foldl (waitHStep o) (waitHStep o (st, errs) n)).1.clock
        = (waitHStep o (st, errs) n).1.clock := g3
    exact ⟨g1'.trans h1, g2'.trans h2, g3'.trans h3⟩

theorem waitForHealthy_preserves (o : Oracle) (names : List String) (st : RunSt) :
    (waitForHealthy o names st).1.started = st.started ∧
    (waitForHealthy o names st).1.startTrace = st.startTrace ∧
    (waitForHealthy o names st).1.clock = st.clock := by
  rw [waitForHealthy_eq]
  by_cases hskip : ¬ names.any (fun n =>
      match getSvc st.services n with
      | some svc => svc.config.health.isSome
      | none => false)
  · rw [if_pos hskip]
    exact ⟨rfl, rfl, rfl⟩
  · rw [if_neg hskip]
    exact waitHFold_preserves o names st []

theorem rollbackStartedServices_cons (o : Oracle) (st : RunSt) (n : String)
    (rest : List String) :
    rollbackStartedServices o st (n :: rest) =
      (match getSvc (rollbackStartedServices o st rest).1.services n with
       | none => ((rollbackStartedServices o st rest).1,
                  (rollbackStartedServices o st rest).2 ++ [n])
       | some svc =>
         ({(rollbackStartedServices o st rest).1 with
            services := setSvc (rollbackStartedServices o st rest).1.services n
              (ServiceR.stop o (rollbackStartedServices o st rest).1.clock svc).1
            clock := (rollbackStartedServices o st rest).1.clock + 1},
          (rollbackStartedServices o st rest).2 ++ [n])) := by
  unfold rollbackStartedServices
  rw [List.reverse_cons, List.foldl_append]
  rfl

/-- The rollback attempts to stop every started unit, once each, in the
exact reverse of the run's start order, for every oracle — including
those whose stops fail; it never touches the start accumulator or the
start trace. -/
theorem rollbackStartedServices_spec (o : Oracle) :
    ∀ (ns : List String) (st : RunSt),
      (rollbackStartedServices o st ns).2 = ns.reverse ∧
      (rollbackStartedServices o st ns).1.started = st.started ∧
      (rollbackStartedServices o st ns).1.startTrace = st.startTrace := by
  intro ns
  induction ns with
  | nil => intro st; exact ⟨rfl, rfl, rfl⟩
  | cons n rest ih =>
    intro st
    obtain ⟨h2, hs, ht⟩ := ih st
    rw [rollbackStartedServices_cons]
    cases hg : getSvc (rollbackStartedServices o st rest).1.services n with
    | none =>
      refine ⟨?_, hs, ht⟩
      show (rollbackStartedServices o st rest).2 ++ [n] = (n :: rest).reverse
      rw [h2, List.reverse_cons]
    | some svc =>
      refine ⟨?_, hs, ht⟩
      show (rollbackStartedServices o st rest).2 ++ [n] = (n :: rest).reverse
      rw [h2, List.reverse_cons]

theorem runLevels_cons (o : Oracle) (net : String)
    (reorder : Nat → List String → List String) (k : Nat) (lvl : List String)
    (rest : List (List String)) (st : RunSt) :
    runLevels o net reorder k (lvl :: rest) st =
      (if (startServicesInParallel o net (reorder k lvl) st).2 ≠ [] then
        ((rollbackStartedServices o (startServicesInParallel o net (reorder k lvl) st).1
            (startServicesInParallel o net (reorder k lvl) st).1.started).1,
         .error ((startServicesInParallel o net (reorder k lvl) st).2.headD ""),
         (rollbackStartedServices o (startServicesInParallel o net (reorder k lvl) st).1
            (startServicesInParallel o net (reorder k lvl) st).1.started).2)
      else
        if (waitForHealthy o lvl
            (startServicesInParallel o net (reorder k lvl) st).1).2 ≠ [] then
          ((rollbackStartedServices o
              (waitForHealthy o lvl (startServicesInParallel o net (reorder k lvl) st).1).1
              (waitForHealthy o lvl
                (startServicesInParallel o net (reorder k lvl) st).1).1.started).1,
           .error ((waitForHealthy o lvl
              (startServicesInParallel o net (reorder k lvl) st).1).2.headD ""),
           (rollbackStartedServices o
              (waitForHealthy o lvl (startServicesInParallel o net (reorder k lvl) st).1).1
              (waitForHealthy o lvl
                (startServicesInParallel o net (reorder k lvl) st).1).1.started).2)
        else runLevels o net reorder (k + 1) rest
          (waitForHealthy o lvl (startServicesInParallel o net (reorder k lvl) st).1).1) := rfl

/-- Rollback behaviour of the level loop: on any error the returned stop
order is the exact reverse of the run's start-success accumulator, a
successful run rolls nothing back, and everything started (or even
invoked) in the run comes from the incoming state or from a prefix of
processed levels. -/
theorem runLevels_rollback (o : Oracle) (net : String)
    (reorder : Nat → List String → List String)
    (hre : ∀ k l, ∀ x ∈ reorder k l, x ∈ l) :
    ∀ (levels : List (List String)) (k : Nat) (st : RunSt),
      (∀ e, (runLevels o net reorder k levels st).2.1 = .error e →
        (runLevels o net reorder k levels st).2.2 =
          ((runLevels o net reorder k levels st).1.started).reverse) ∧
      ((runLevels o net reorder k levels st).2.1 = .ok () →
        (runLevels o net reorder k levels st).2.2 = []) ∧
      (∃ j, j ≤ levels.length ∧
        (∀ n ∈ (runLevels o net reorder k levels st).1.started,
          n ∈ st.started ∨ ∃ g ∈ levels.take j, n ∈ g) ∧
        (∀ p ∈ (runLevels o net reorder k levels st).1.startTrace,
          p ∈ st.startTrace ∨ ∃ g ∈ levels.take j,
            (p : String × List (String × ServiceR)).1 ∈ g)) := by
  intro levels
  induction levels with
  | nil =>
    intro k st
    refine ⟨?_, fun _ => rfl, ⟨0, Nat.le_refl 0, ?_, ?_⟩⟩
    · intro e he
      exact absurd he (by simp [runLevels])
    · intro n hn
      exact Or.inl hn
    · intro p hp
      exact Or.inl hp
  | cons lvl rest ih =>
    intro k st
    obtain ⟨new, tr, hst1, hnew, htr1, htrm⟩ :=
      startServicesInParallel_spec o net (reorder k lvl) st
    obtain ⟨hw1, hw2, _⟩ :=
      waitForHealthy_preserves o lvl (startServicesInParallel o net (reorder k lvl) st).1
    rw [runLevels_cons]
    by_cases h1 : (startServicesInParallel o net (reorder k lvl) st).2 = []
    · rw [if_neg (fun hc => hc h1)]
      by_cases h2 : (waitForHealthy o lvl
          (startServicesInParallel o net (reorder k lvl) st).1).2 = []
      · rw [if_neg (fun hc => hc h2)]
        obtain ⟨ihe, ihok, j, hj, ihs, iht⟩ := ih (k + 1)
          (waitForHealthy o lvl (startServicesInParallel o net (reorder k lvl) st).1).1
        refine ⟨ihe, ihok, ⟨j + 1, Nat.succ_le_succ hj, ?_, ?_⟩⟩
        · intro n hn
          rcases ihs n hn with hn1 | ⟨g, hg, hng⟩
          · rw [hw1, hst1] at hn1
            rcases List.mem_append.mp hn1 with hn2 | hn3
            · exact Or.inl hn2
            · exact Or.inr ⟨lvl, List.mem_cons_self _ _, hre k lvl n (hnew n hn3)⟩
          · exact Or.inr ⟨g, List.mem_cons_of_mem _ hg, hng⟩
        · intro p hp
          rcases iht p hp with hp1 | ⟨g, hg, hpg⟩
          · rw [hw2, htr1] at hp1
            rcases List.mem_append.mp hp1 with hp2 | hp3
            · exact Or.inl hp2
            · exact Or.inr ⟨lvl, List.mem_cons_self _ _, hre k lvl _ (htrm p hp3)⟩
          · exact Or.inr ⟨g, List.mem_cons_of_mem _ hg, hpg⟩
      · rw [if_pos h2]
        obtain ⟨hr2, hrs, hrt⟩ := rollbackStartedServices_spec o
          (waitForHealthy o lvl
            (startServicesInParallel o net (reorder k lvl) st).1).1.started
          (waitForHealthy o lvl (startServicesInParallel o net (reorder k lvl) st).1).1
        refine ⟨?_, ?_, ⟨1, ?_, ?_, ?_⟩⟩
        · intro e _
          show (rollbackStartedServices o _ _).2 = (rollbackStartedServices o _ _).1.started.reverse
          rw [hr2, hrs]
        · intro hok
          exact absurd hok (by simp)
        · simp
        · intro n hn
          have hn' : n ∈ (waitForHealthy o lvl
              (startServicesInParallel o net (reorder k lvl) st).1).1.started := by
            rw [← hrs]
            exact hn
          rw [hw1, hst1] at hn'
          rcases List.mem_append.mp hn' with hn2 | hn3
          · exact Or.inl hn2
          · exact Or.inr ⟨lvl, by simp, hre k lvl n (hnew n hn3)⟩
        · intro p hp
          have hp' : p ∈ (waitForHealthy o lvl
              (startServicesInParallel o net (reorder k lvl) st).1).1.startTrace := by
            rw [← hrt]
            exact hp
          rw [hw2, htr1] at hp'
          rcases List.mem_append.mp hp' with hp2 | hp3
          · exact Or.inl hp2
          · exact Or.inr ⟨lvl, by simp, hre k lvl _ (htrm p hp3)⟩
    · rw [if_pos h1]
      obtain ⟨hr2, hrs, hrt⟩ := rollbackStartedServices_spec o
        (startServicesInParallel o net (reorder k lvl) st).1.started
        (startServicesInParallel o net (reorder k lvl) st).1
      refine ⟨?_, ?_, ⟨1, ?_, ?_, ?_⟩⟩
      · intro e _
        show (rollbackStartedServices o _ _).2 = (rollbackStartedServices o _ _).1.started.reverse
        rw [hr2, hrs]
      · intro hok
        exact absurd hok (by simp)
      · simp
      · intro n hn
        have hn' : n ∈ (startServicesInParallel o net (reorder k lvl) st).1.started := by
          rw [← hrs]
          exact hn
        rw [hst1] at hn'
        rcases List.mem_append.mp hn' with hn2 | hn3
        · exact Or.inl hn2
        · exact Or.inr ⟨lvl, by simp, hre k lvl n (hnew n hn3)⟩
      · intro p hp
        have hp' : p ∈ (startServicesInParallel o net (reorder k lvl) st).1.startTrace := by
          rw [← hrt]
          exact hp
        rw [htr1] at hp'
        rcases List.mem_append.mp hp' with hp2 | hp3
        · exact Or.inl hp2
        · exact Or.inr ⟨lvl, by simp, hre k lvl _ (htrm p hp3)⟩

theorem startParFold_errs_prefix (o : Oracle) (net : String) :
    ∀ (names : List String) (st : RunSt) (errs : List String),
      ∃ xs, (names.foldl (startParStep o net) (st, errs)).2 = errs ++ xs := by
  intro names
  induction names with
  | nil => intro st errs; exact ⟨[], by simp⟩
  | cons n rest ih =>
    intro st errs
    rw [List.foldl_cons]
    cases hg : getSvc st.services n with
    | none =>
      have hstep : startParStep o net (st, errs) n =
          (st, errs ++ ["service " ++ n ++ " not found in orchestrator"]) := by
        simp [startParStep, hg]
      rw [hstep]
      obtain ⟨xs, hxs⟩ := ih st (errs ++ ["service " ++ n ++ " not found in orchestrator"])
      exact ⟨("service " ++ n ++ " not found in orchestrator") :: xs, by
        rw [hxs, List.append_assoc]
        rfl⟩
    | some svc =>
      cases hr : (ServiceR.start o st.clock net svc).2 with
      | ok u =>
        have hstep : (startParStep o net (st, errs) n).2 = errs := by
          simp [startParStep, hg, hr]
        obtain ⟨xs, hxs⟩ := ih (startParStep o net (st, errs) n).1
          (startParStep o net (st, errs) n).2
        have hxs' : (rest.foldl (startParStep o net) (startParStep o net (st, errs) n)).2
            = (startParStep o net (st, errs) n).2 ++ xs := hxs
        exact ⟨xs, by rw [hxs', hstep]⟩
      | error e =>
        have hstep : (startParStep o net (st, errs) n).2 =
            errs ++ ["failed to start " ++ n ++ ": " ++ e] := by
          simp [startParStep, hg, hr]
        obtain ⟨xs, hxs⟩ := ih (startParStep o net (st, errs) n).1
          (startParStep o net (st, errs) n).2
        have hxs' : (rest.foldl (startParStep o net) (startParStep o net (st, errs) n)).2
            = (startParStep o net (st, errs) n).2 ++ xs := hxs
        exact ⟨("failed to start " ++ n ++ ": " ++ e) :: xs, by
          rw [hxs', hstep, List.append_assoc]
          rfl⟩

/-- When a parallel start phase collects no error, every name of the
level was appended to the run's start-success accumulator. -/
theorem startParFold_started (o : Oracle) (net : String) :
    ∀ (names : List String) (st : RunSt) (errs : List String),
      (names.foldl (startParStep o net) (st, errs)).2 = errs →
      ∀ n ∈ names, n ∈ (names.foldl (startParStep o net) (st, errs)).1.started := by
  intro names
  induction names with
  | nil =>
    intro st errs _ n hn
    exact absurd hn (List.not_mem_nil n)
  | cons n rest ih =>
    intro st errs hsucc m hm
    rw [List.foldl_cons] at hsucc ⊢
    cases hg : getSvc st.services n with
    | none =>
      exfalso
      have hstep : (startParStep o net (st, errs) n).2 =
          errs ++ ["service " ++ n ++ " not found in orchestrator"] := by
        simp [startParStep, hg]
      obtain ⟨xs, hxs⟩ := startParFold_errs_prefix o net rest
        (startParStep o net (st, errs) n).1 (startParStep o net (st, errs) n).2
      have hxs' : (rest.foldl (startParStep o net) (startParStep o net (st, errs) n)).2
          = (startParStep o net (st, errs) n).2 ++ xs := hxs
      rw [hxs', hstep] at hsucc
      have hlen := congrArg List.length hsucc
      simp [List.length_append] at hlen
    | some svc =>
      cases hr : (ServiceR.start o st.clock net svc).2 with
      | error e =>
        exfalso
        have hstep : (startParStep o net (st, errs) n).2 =
            errs ++ ["failed to start " ++ n ++ ": " ++ e] := by
          simp [startParStep, hg, hr]
        obtain ⟨xs, hxs⟩ := startParFold_errs_prefix o net rest
          (startParStep o net (st, errs) n).1 (startParStep o net (st, errs) n).2
        have hxs' : (rest.foldl (startParStep o net) (startParStep o net (st, errs) n)).2
            = (startParStep o net (st, errs) n).2 ++ xs := hxs
        rw [hxs', hstep] at hsucc
        have hlen := congrArg List.length hsucc
        simp [List.length_append] at hlen
      | ok u =>
        have hstep_errs : (startParStep o net (st, errs) n).2 = errs := by
          simp [startParStep, hg, hr]
        have hstep_started : (startParStep o net (st, errs) n).1.started
            = st.started ++ [n] := by
          simp [startParStep, hg, hr]
        have hsucc' : (rest.foldl (startParStep o net)
            ((startParStep o net (st, errs) n).1, (startParStep o net (st, errs) n).2)).2
            = (startParStep o net (st, errs) n).2 := by
          conv_rhs => rw [hstep_errs]
          exact hsucc
        rcases List.mem_cons.mp hm with rfl | hm2
        · obtain ⟨new, tr, g1, _, _, _⟩ := startParFold_spec o net rest
            (startParStep o net (st, errs) m).1 (startParStep o net (st, errs) m).2
          have g1' : (rest.foldl (startParStep o net)
              (startParStep o net (st, errs) m)).1.started
              = (startParStep o net (st, errs) m).1.started ++ new := g1
          rw [g1', hstep_started]
          exact List.mem_append_left _
            (List.mem_append_right _ (List.mem_singleton.mpr rfl))
        · exact ih (startParStep o net (st, errs) n).1
            (startParStep o net (st, errs) n).2 hsucc' m hm2

theorem startServicesInParallel_started (o : Oracle) (net : String)
    (names : List String) (st : RunSt)
    (h : (startServicesInParallel o net names st).2 = []) :
    ∀ n ∈ names, n ∈ (startServicesInParallel o net names st).1.started := by
  rw [startServicesInParallel_eq] at h ⊢
  exact startParFold_started o net names st [] h

/-- The run-wide start-success accumulator only ever grows. -/
theorem runLevels_started_mono (o : Oracle) (net : String)
    (reorder : Nat → List String → List String) :
    ∀ (LS : List (List String)) (k : Nat) (st : RunSt) (n : String),
      n ∈ st.started → n ∈ (runLevels o net reorder k LS st).1.started := by
  intro LS
  induction LS with
  | nil =>
    intro k st n hn
    exact hn
  | cons lvl rest ih =>
    intro k st n hn
    rw [runLevels_cons]
    obtain ⟨new, tr, hst1, _, _, _⟩ := startServicesInParallel_spec o net (reorder k lvl) st
    by_cases h1 : (startServicesInParallel o net (reorder k lvl) st).2 = []
    · rw [if_neg (fun hc => hc h1)]
      obtain ⟨gw1, _, _⟩ := waitForHealthy_preserves o lvl
        (startServicesInParallel o net (reorder k lvl) st).1
      by_cases h2 : (waitForHealthy o lvl
          (startServicesInParallel o net (reorder k lvl) st).1).2 = []
      · rw [if_neg (fun hc => hc h2)]
        refine ih (k + 1)
          (waitForHealthy o lvl (startServicesInParallel o net (reorder k lvl) st).1).1 n ?_
        rw [gw1, hst1]
        exact List.mem_append_left _ hn
      · rw [if_pos h2]
        obtain ⟨_, hrs, _⟩ := rollbackStartedServices_spec o
          (waitForHealthy o lvl
            (startServicesInParallel o net (reorder k lvl) st).1).1.started
          (waitForHealthy o lvl (startServicesInParallel o net (reorder k lvl) st).1).1
        show n ∈ (rollbackStartedServices o _ _).1.started
        rw [hrs, gw1, hst1]
        exact List.mem_append_left _ hn
    · rw [if_pos h1]
      obtain ⟨_, hrs, _⟩ := rollbackStartedServices_spec o
        (startServicesInParallel o net (reorder k lvl) st).1.started
        (startServicesInParallel o net (reorder k lvl) st).1
      show n ∈ (rollbackStartedServices o _ _).1.started
      rw [hrs, hst1]
      exact List.mem_append_left _ hn

/-- A failing run pins its failing level: there is a level index `j`
below the level count such that every level before `j` was started in
full, everything started or invoked in the run lies within levels up to
and including `j`, and (by disjointness, derived at the claim) nothing
of any level after `j` was touched. -/
theorem runLevels_started_pin (o : Oracle) (net : String)
    (reorder : Nat → List String → List String)
    (hperm : ∀ k l, List.Perm (reorder k l) l) :
    ∀ (LS : List (List String)) (k : Nat) (st : RunSt) (e : String),
      (runLevels o net reorder k LS st).2.1 = .error e →
      ∃ j, j < LS.length ∧
        (∀ g ∈ LS.take j, ∀ n ∈ g, n ∈ (runLevels o net reorder k LS st).1.started) ∧
        (∀ n ∈ (runLevels o net reorder k LS st).1.started,
          n ∈ st.started ∨ ∃ g ∈ LS.take (j + 1), n ∈ g) ∧
        (∀ p ∈ (runLevels o net reorder k LS st).1.startTrace,
          p ∈ st.startTrace ∨ ∃ g ∈ LS.take (j + 1),
            (p : String × List (String × ServiceR)).1 ∈ g) ∧
        (runLevels o net reorder k (LS.take j) st).2.1 = .ok () ∧
        runLevels o net reorder k LS st
          = runLevels o net reorder k (LS.take (j + 1)) st := by
  intro LS
  induction LS with
  | nil =>
    intro k st e he
    exact absurd he (by simp [runLevels])
  | cons lvl rest ih =>
    intro k st e he
    rw [runLevels_cons] at he ⊢
    obtain ⟨new, tr, hst1, hnew, htr1, htrm⟩ :=
      startServicesInParallel_spec o net (reorder k lvl) st
    by_cases h1 : (startServicesInParallel o net (reorder k lvl) st).2 = []
    · rw [if_neg (fun hc => hc h1)] at he ⊢
      obtain ⟨gw1, gw2, _⟩ := waitForHealthy_preserves o lvl
        (startServicesInParallel o net (reorder k lvl) st).1
      by_cases h2 : (waitForHealthy o lvl
          (startServicesInParallel o net (reorder k lvl) st).1).2 = []
      · rw [if_neg (fun hc => hc h2)] at he ⊢
        obtain ⟨j, hj, hfull, hstarted, htrace, hprefixok, hfulleq⟩ := ih (k + 1)
          (waitForHealthy o lvl (startServicesInParallel o net (reorder k lvl) st).1).1
          e he
        refine ⟨j + 1, ?_, ?_, ?_, ?_, ?_, ?_⟩
        · rw [List.length_cons]
          omega
        · intro g hg n hn
          rcases List.mem_cons.mp hg with rfl | hg2
          · refine runLevels_started_mono o net reorder rest (k + 1)
              (waitForHealthy o g
                (startServicesInParallel o net (reorder k g) st).1).1 n ?_
            rw [gw1]
            exact startServicesInParallel_started o net (reorder k g) st h1 n
              ((hperm k g).mem_iff.mpr hn)
          · exact hfull g hg2 n hn
        · intro n hn
          rcases hstarted n hn with hn1 | ⟨g, hg, hng⟩
          · rw [gw1, hst1] at hn1
            rcases List.mem_append.mp hn1 with ha | hb
            · exact Or.inl ha
            · exact Or.inr ⟨lvl, List.mem_cons_self lvl (rest.take (j + 1)),
                (hperm k lvl).mem_iff.mp (hnew n hb)⟩
          · exact Or.inr ⟨g, List.mem_cons_of_mem lvl hg, hng⟩
        · intro p hp
          rcases htrace p hp with hp1 | ⟨g, hg, hpg⟩
          · rw [gw2, htr1] at hp1
            rcases List.mem_append.mp hp1 with ha | hb
            · exact Or.inl ha
            · exact Or.inr ⟨lvl, List.mem_cons_self lvl (rest.take (j + 1)),
                (hperm k lvl).mem_iff.mp (htrm p hb)⟩
          · exact Or.inr ⟨g, List.mem_cons_of_mem lvl hg, hpg⟩
        · show (runLevels o net reorder k (lvl :: rest.take j) st).2.1 = .ok ()
          rw [runLevels_cons o net reorder k lvl (rest.take j) st,
            if_neg (fun hc => hc h1), if_neg (fun hc => hc h2)]
          exact hprefixok
        · show runLevels o net reorder (k + 1) rest
              (waitForHealthy o lvl
                (startServicesInParallel o net (reorder k lvl) st).1).1
            = runLevels o net reorder k (lvl :: rest.take (j + 1)) st
          rw [runLevels_cons o net reorder k lvl (rest.take (j + 1)) st,
            if_neg (fun hc => hc h1), if_neg (fun hc => hc h2)]
          exact hfulleq
      · rw [if_pos h2] at he ⊢
        obtain ⟨_, hrs, hrt⟩ := rollbackStartedServices_spec o
          (waitForHealthy o lvl
            (startServicesInParallel o net (reorder k lvl) st).1).1.started
          (waitForHealthy o lvl (startServicesInParallel o net (reorder k lvl) st).1).1
        refine ⟨0, ?_, ?_, ?_, ?_, ?_, ?_⟩
        · rw [List.length_cons]
          omega
        · intro g hg
          exact absurd hg (List.not_mem_nil g)
        · intro n hn
          have hn' : n ∈ (waitForHealthy o lvl
              (startServicesInParallel o net (reorder k lvl) st).1).1.started := by
            rw [← hrs]
            exact hn
          rw [gw1, hst1] at hn'
          rcases List.mem_append.mp hn' with ha | hb
          · exact Or.inl ha
          · exact Or.inr ⟨lvl, List.mem_cons_self lvl (rest.take 0),
              (hperm k lvl).mem_iff.mp (hnew n hb)⟩
        · intro p hp
          have hp' : p ∈ (waitForHealthy o lvl
              (startServicesInParallel o net (reorder k lvl) st).1).1.startTrace := by
            rw [← hrt]
            exact hp
          rw [gw2, htr1] at hp'
          rcases List.mem_append.mp hp' with ha | hb
          · exact Or.inl ha
          · exact Or.inr ⟨lvl, List.mem_cons_self lvl (rest.take 0),
              (hperm k lvl).mem_iff.mp (htrm p hb)⟩
        · rfl
        · rw [show List.take (0 + 1) (lvl :: rest) = lvl :: List.take 0 rest from rfl,
            runLevels_cons o net reorder k lvl (List.take 0 rest) st,
            if_neg (fun hc => hc h1), if_pos h2]
    · rw [if_pos h1] at he ⊢
      obtain ⟨_, hrs, hrt⟩ := rollbackStartedServices_spec o
        (startServicesInParallel o net (reorder k lvl) st).1.started
        (startServicesInParallel o net (reorder k lvl) st).1
      refine ⟨0, ?_, ?_, ?_, ?_, ?_, ?_⟩
      · rw [List.length_cons]
        omega
      · intro g hg
        exact absurd hg (List.not_mem_nil g)
      · intro n hn
        have hn' : n ∈ (startServicesInParallel o net (reorder k lvl) st).1.started := by
          rw [← hrs]
          exact hn
        rw [hst1] at hn'
        rcases List.mem_append.mp hn' with ha | hb
        · exact Or.inl ha
        · exact Or.inr ⟨lvl, List.mem_cons_self lvl (rest.take 0),
            (hperm k lvl).mem_iff.mp (hnew n hb)⟩
      · intro p hp
        have hp' : p ∈ (startServicesInParallel o net (reorder k lvl) st).1.startTrace := by
          rw [← hrt]
          exact hp
        rw [htr1] at hp'
        rcases List.mem_append.mp hp' with ha | hb
        · exact Or.inl ha
        · exact Or.inr ⟨lvl, List.mem_cons_self lvl (rest.take 0),
            (hperm k lvl).mem_iff.mp (htrm p hb)⟩
      · rfl
      · rw [show List.take (0 + 1) (lvl :: rest) = lvl :: List.take 0 rest from rfl,
          runLevels_cons o net reorder k lvl (List.take 0 rest) st, if_pos h1]

/-- C4: whenever any unit of a run fails to start or fails its readiness
gate, the returned rollback stop order is the exact reverse of the run's
start-success order (across the whole run); a successful run rolls
nothing back; the rollback attempts every started unit under every
oracle, so a failing stop never prevents the remaining stop attempts;
and (final conjunct, for completion orders that are permutations of the
levels) a failing run pins the failing level `j` exactly: every level
before `j` is started in full, the run over the first `j` levels alone
succeeds while the whole run coincides with the run truncated to the
first `j + 1` levels (so level `j` is where the failure arises and no
later level is ever reached), everything started or invoked belongs to
the incoming state or to levels up to and including `j`, and no unit of
any level after `j` — a later, unreached level — is ever started or even
invoked. -/
theorem C4_rollback_reverse_complete (o : Oracle) (net : String)
    (reorder : Nat → List String → List String)
    (hre : ∀ k l, ∀ x ∈ reorder k l, x ∈ l)
    (cfg : Services) (ordered : List String) (st : RunSt) :
    (∀ e, (StartServicesInOrder o net reorder cfg ordered st).2.1 = .error e →
      (StartServicesInOrder o net reorder cfg ordered st).2.2 =
        ((StartServicesInOrder o net reorder cfg ordered st).1.started).reverse) ∧
    ((StartServicesInOrder o net reorder cfg ordered st).2.1 = .ok () →
      (StartServicesInOrder o net reorder cfg ordered st).2.2 = []) ∧
    (∃ j, j ≤ (buildDependencyLevels cfg ordered).length ∧
      (∀ n ∈ (StartServicesInOrder o net reorder cfg ordered st).1.started,
        n ∈ st.started ∨ ∃ g ∈ (buildDependencyLevels cfg ordered).take j, n ∈ g) ∧
      (∀ p ∈ (StartServicesInOrder o net reorder cfg ordered st).1.startTrace,
        p ∈ st.startTrace ∨ ∃ g ∈ (buildDependencyLevels cfg ordered).take j,
          (p : String × List (String × ServiceR)).1 ∈ g)) ∧
    (∀ (o2 : Oracle) (st2 : RunSt) (ns : List String),
      (rollbackStartedServices o2 st2 ns).2 = ns.reverse) ∧
    ((∀ k2 l2, List.Perm (reorder k2 l2) l2) →
      ∀ e, (StartServicesInOrder o net reorder cfg ordered st).2.1 = .error e →
      ∃ j, j < (buildDependencyLevels cfg ordered).length ∧
        (∀ g ∈ (buildDependencyLevels cfg ordered).take j, ∀ n ∈ g,
          n ∈ (StartServicesInOrder o net reorder cfg ordered st).1.started) ∧
        (∀ n ∈ (StartServicesInOrder o net reorder cfg ordered st).1.started,
          n ∈ st.started ∨
            ∃ g ∈ (buildDependencyLevels cfg ordered).take (j + 1), n ∈ g) ∧
        (∀ p ∈ (StartServicesInOrder o net reorder cfg ordered st).1.startTrace,
          p ∈ st.startTrace ∨
            ∃ g ∈ (buildDependencyLevels cfg ordered).take (j + 1),
              (p : String × List (String × ServiceR)).1 ∈ g) ∧
        (∀ g ∈ (buildDependencyLevels cfg ordered).drop (j + 1), ∀ n ∈ g,
          (n ∈ (StartServicesInOrder o net reorder cfg ordered st).1.started →
            n ∈ st.started) ∧
          (∀ p ∈ (StartServicesInOrder o net reorder cfg ordered st).1.startTrace,
            (p : String × List (String × ServiceR)).1 = n →
              p ∈ st.startTrace)) ∧
        (runLevels o net reorder 0 ((buildDependencyLevels cfg ordered).take j) st).2.1
          = .ok () ∧
        StartServicesInOrder o net reorder cfg ordered st
          = runLevels o net reorder 0
              ((buildDependencyLevels cfg ordered).take (j + 1)) st) := by
  obtain ⟨h1, h2, h3⟩ :=
    runLevels_rollback o net reorder hre (buildDependencyLevels cfg ordered) 0 st
  refine ⟨h1, h2, h3, fun o2 st2 ns => (rollbackStartedServices_spec o2 ns st2).1, ?_⟩
  intro hperm2 e he
  obtain ⟨j, hj, hfull, hstarted, htrace, hpre, hfeq⟩ :=
    runLevels_started_pin o net reorder hperm2 (buildDependencyLevels cfg ordered) 0 st e he
  refine ⟨j, hj, hfull, hstarted, htrace, ?_, hpre, hfeq⟩
  have hpw := buildDependencyLevels_pairwise cfg ordered
  rw [← List.take_append_drop (j + 1) (buildDependencyLevels cfg ordered)] at hpw
  obtain ⟨_, _, hcross⟩ := List.pairwise_append.mp hpw
  intro g hg n hn
  constructor
  · intro hns
    rcases hstarted n hns with hn1 | ⟨g2, hg2, hng2⟩
    · exact hn1
    · exact absurd hn (hcross g2 hg2 g hg n hng2)
  · intro p hp hpn
    rcases htrace p hp with hp1 | ⟨g2, hg2, hng2⟩
    · exact hp1
    · rw [hpn] at hng2
      exact absurd hn (hcross g2 hg2 g hg n hng2)

theorem C4_witness :
    (∀ k l, ∀ x ∈ idReorder k l, x ∈ l) ∧
    (StartServicesInOrder oracleApiFails "net" idReorder exChain
        ["db", "api", "web"] exRunSt).2.1
      = .error "failed to start api: failed to start container: boom" ∧
    (StartServicesInOrder oracleApiFails "net" idReorder exChain
        ["db", "api", "web"] exRunSt).1.started = ["db"] ∧
    (StartServicesInOrder oracleApiFails "net" idReorder exChain
        ["db", "api", "web"] exRunSt).2.2 =
      ((StartServicesInOrder oracleApiFails "net" idReorder exChain
        ["db", "api", "web"] exRunSt).1.started).reverse :=
  ⟨fun _ _ _ hx => hx, rfl, rfl,
   (C4_rollback_reverse_complete oracleApiFails "net" idReorder (fun _ _ _ hx => hx)
      exChain ["db", "api", "web"] exRunSt).1
     "failed to start api: failed to start container: boom" rfl⟩

/-! ### Scheduler invariant lemmas for dependency-ordered startup -/

theorem getSvc_setSvc_self : ∀ (m : List (String × ServiceR)) (k : String) (v : ServiceR),
    getSvc (setSvc m k v) k = some v := by
  intro m
  induction m with
  | nil => intro k v; simp [setSvc, getSvc]
  | cons p rest ih =>
    intro k v
    by_cases h : p.1 = k
    · simp [setSvc, getSvc, h]
    · simp only [setSvc, if_neg h, getSvc]
      exact ih k v

theorem getSvc_setSvc_ne : ∀ (m : List (String × ServiceR)) (k k2 : String) (v : ServiceR),
    k ≠ k2 → getSvc (setSvc m k v) k2 = getSvc m k2 := by
  intro m
  induction m with
  | nil =>
    intro k k2 v hne
    simp only [setSvc, getSvc]
    rw [if_neg hne]
  | cons p rest ih =>
    intro k k2 v hne
    by_cases h : p.1 = k
    · simp only [setSvc, if_pos h, getSvc]
      have h2 : ¬ (p.1 = k2) := by rw [h]; exact hne
      rw [if_neg hne, if_neg h2]
    · simp only [setSvc, if_neg h, getSvc]
      by_cases h2 : p.1 = k2
      · rw [if_pos h2, if_pos h2]
      · rw [if_neg h2, if_neg h2]
        exact ih k k2 v hne

/-- Success characterization of `Start`: the returned record is running,
timestamped with the invocation clock, health reset to unknown, and its
identity and configuration are unchanged. -/
theorem ServiceR.start_ok (o : Oracle) (now : Nat) (net : String) (s : ServiceR)
    (h : (ServiceR.start o now net s).2 = .ok ()) :
    (ServiceR.start o now net s).1.state = .running ∧
    (ServiceR.start o now net s).1.startedAt = some now ∧
    (ServiceR.start o now net s).1.healthStatus = .unknown ∧
    (ServiceR.start o now net s).1.config = s.config ∧
    (ServiceR.start o now net s).1.name = s.name := by
  by_cases hrun : s.state = .running
  · exfalso
    have : (ServiceR.start o now net s).2 =
        .error ("service " ++ s.name ++ " is already running") := by
      unfold ServiceR.start
      rw [if_pos hrun]
    rw [this] at h
    exact Except.noConfusion h
  · cases hcl : o.cleanup s.name with
    | ok =>
      cases henv : o.loadEnv s.name with
      | error e =>
        exfalso
        simp [ServiceR.start, hrun, hcl, henv, checkAndCleanupExistingContainer] at h
      | ok v =>
        cases hrc : o.run s.name with
        | error e =>
          exfalso
          simp [ServiceR.start, hrun, hcl, henv, hrc, checkAndCleanupExistingContainer] at h
        | ok cid =>
          refine ⟨?_, ?_, ?_, ?_, ?_⟩ <;>
            simp [ServiceR.start, hrun, hcl, henv, hrc, checkAndCleanupExistingContainer]
    | listError e =>
      exfalso
      simp [ServiceR.start, hrun, hcl, checkAndCleanupExistingContainer] at h
    | foundRunning cid =>
      exfalso
      simp [ServiceR.start, hrun, hcl, checkAndCleanupExistingContainer] at h
    | removeError e =>
      exfalso
      simp [ServiceR.start, hrun, hcl, checkAndCleanupExistingContainer] at h

/-- A successful `CheckHealth` only flips the health classification to
healthy. -/
theorem checkHealth_ok (attempt : Nat → Bool) (s : ServiceR)
    (h : (ServiceR.checkHealth attempt s).2 = .ok ()) :
    (ServiceR.checkHealth attempt s).1 = {s with healthStatus := .healthy} := by
  by_cases hst : s.state ≠ .running
  · exfalso
    have : (ServiceR.checkHealth attempt s).2 =
        .error ("service " ++ s.name ++ " is not running") := by
      unfold ServiceR.checkHealth
      rw [if_pos hst]
    rw [this] at h
    exact Except.noConfusion h
  · cases hh : s.config.health with
    | none => simp [ServiceR.checkHealth, hst, hh]
    | some hc =>
      by_cases hep : hc.endpoint ≠ ""
      · cases hperf : (performHTTPHealthCheck attempt hc).1 with
        | error e =>
          exfalso
          simp [ServiceR.checkHealth, hst, hh, hep, hperf] at h
        | ok u => simp [ServiceR.checkHealth, hst, hh, hep, hperf]
      · simp [ServiceR.checkHealth, hst, hh, hep]

/-- A failed `CheckHealth` leaves the record unchanged (rejected while
not running) or only marks it unhealthy. -/
theorem checkHealth_error_state (attempt : Nat → Bool) (s : ServiceR) (s2 : ServiceR)
    (e : String) (h : ServiceR.checkHealth attempt s = (s2, .error e)) :
    s2 = s ∨ s2 = {s with healthStatus := .unhealthy} := by
  by_cases hst : s.state ≠ .running
  · left
    have : ServiceR.checkHealth attempt s =
        (s, .error ("service " ++ s.name ++ " is not running")) := by
      unfold ServiceR.checkHealth
      rw [if_pos hst]
    rw [this] at h
    exact (congrArg Prod.fst h).symm
  · cases hh : s.config.health with
    | none =>
      exfalso
      simp [ServiceR.checkHealth, hst, hh] at h
    | some hc =>
      by_cases hep : hc.endpoint ≠ ""
      · cases hperf : (performHTTPHealthCheck attempt hc).1 with
        | error e2 =>
          right
          have : ServiceR.checkHealth attempt s =
              ({s with healthStatus := .unhealthy}, .error e2) := by
            simp [ServiceR.checkHealth, hst, hh, hep, hperf]
          rw [this] at h
          exact (congrArg Prod.fst h).symm
        | ok u =>
          exfalso
          simp [ServiceR.checkHealth, hst, hh, hep, hperf] at h
      · exfalso
        simp [ServiceR.checkHealth, hst, hh, hep] at h

/-- A gate that reports success leaves the service exactly as it was,
except classified healthy. -/
theorem waitLoop_ok (o : Oracle) (iv : Nat) :
    ∀ (fuel k : Nat) (s : ServiceR), (waitLoop o iv k fuel s).2.1 = .ok () →
      (waitLoop o iv k fuel s).1 = {s with healthStatus := .healthy} := by
  intro fuel
  induction fuel with
  | zero =>
    intro k s h
    exact absurd h (by simp [waitLoop])
  | succ fuel ih =>
    intro k s h
    rw [waitLoop_succ] at h ⊢
    by_cases hdl : maxWaitNs < k * iv
    · rw [if_pos hdl] at h
      exact absurd h (by simp)
    · rw [if_neg hdl] at h ⊢
      cases hc : ServiceR.checkHealth (o.probe s.name k) s with
      | mk s2 r =>
        cases r with
        | ok u =>
          have hfst : (ServiceR.checkHealth (o.probe s.name k) s).1 =
              {s with healthStatus := .healthy} :=
            checkHealth_ok (o.probe s.name k) s (by rw [hc])
          rw [hc] at hfst
          exact hfst
        | error e =>
          rw [hc] at h
          have h2 : (waitLoop o iv (k + 1) fuel s2).2.1 = .ok () := h
          have hws := ih (k + 1) s2 h2
          show (waitLoop o iv (k + 1) fuel s2).1 = _
          rcases checkHealth_error_state (o.probe s.name k) s s2 e hc with rfl | rfl
          · exact hws
          · rw [hws]

theorem waitForServiceHealth_ok (o : Oracle) (s : ServiceR)
    (h : (waitForServiceHealth o s).2.1 = .ok ()) :
    (waitForServiceHealth o s).1 = {s with healthStatus := .healthy} :=
  waitLoop_ok o _ _ 1 s h

theorem startParFold_trace (o : Oracle) (net : String) :
    ∀ (names : List String) (st : RunSt) (errs : List String),
      ∃ tr, (names.foldl (startParStep o net) (st, errs)).1.startTrace
          = st.startTrace ++ tr ∧
        ∀ p ∈ tr, (p : String × List (String × ServiceR)).1 ∈ names ∧
          ∀ m, m ∉ names → getSvc p.2 m = getSvc st.services m := by
  intro names
  induction names with
  | nil => intro st errs; exact ⟨[], by simp, fun p hp => absurd hp (List.not_mem_nil p)⟩
  | cons n rest ih =>
    intro st errs
    rw [List.foldl_cons]
    obtain ⟨tr, htr, hmem⟩ := ih (startParStep o net (st, errs) n).1
      (startParStep o net (st, errs) n).2
    have htr' : (rest.foldl (startParStep o net) (startParStep o net (st, errs) n)).1.startTrace
        = (startParStep o net (st, errs) n).1.startTrace ++ tr := htr
    cases hg : getSvc st.services n with
    | none =>
      have hstep : startParStep o net (st, errs) n =
          (st, errs ++ ["service " ++ n ++ " not found in orchestrator"]) := by
        simp [startParStep, hg]
      rw [hstep] at htr' hmem
      refine ⟨tr, ?_, ?_⟩
      · rw [hstep]
        exact htr'
      · intro p hp
        exact ⟨List.mem_cons_of_mem n (hmem p hp).1,
          fun m hm => (hmem p hp).2 m (fun hmr => hm (List.mem_cons_of_mem n hmr))⟩
    | some svc =>
      have hst1 : (startParStep o net (st, errs) n).1.startTrace
          = st.startTrace ++ [(n, st.services)] := by
        cases hr : (ServiceR.start o st.clock net svc).2 with
        | ok u => simp [startParStep, hg, hr]
        | error e => simp [startParStep, hg, hr]
      have hsv1 : (startParStep o net (st, errs) n).1.services
          = setSvc st.services n (ServiceR.start o st.clock net svc).1 := by
        cases hr : (ServiceR.start o st.clock net svc).2 with
        | ok u => simp [startParStep, hg, hr]
        | error e => simp [startParStep, hg, hr]
      refine ⟨(n, st.services) :: tr, ?_, ?_⟩
      · rw [htr', hst1, List.append_assoc]
        rfl
      · intro p hp
        rcases List.mem_cons.mp hp with rfl | hp2
        · exact ⟨List.mem_cons_self n rest, fun m hm => rfl⟩
        · refine ⟨List.mem_cons_of_mem n (hmem p hp2).1, ?_⟩
          intro m hm
          have hm2 : m ∉ rest := fun hmr => hm (List.mem_cons_of_mem n hmr)
          have hmn : n ≠ m := fun he => hm (he ▸ List.mem_cons_self n rest)
          rw [(hmem p hp2).2 m hm2, hsv1, getSvc_setSvc_ne _ _ _ _ hmn]

/-- Success characterization of a parallel start phase: when no error is
collected, the clock advances by one per name, services outside the
level are untouched, and every name of the level was found and
successfully started at some tick within the phase. -/
theorem startParFold_success (o : Oracle) (net : String) :
    ∀ (names : List String) (st : RunSt) (errs : List String),
      names.Nodup →
      (∀ n ∈ names, ∃ s0, getSvc st.services n = some s0 ∧ s0.state ≠ .running) →
      (names.foldl (startParStep o net) (st, errs)).2 = errs →
      (names.foldl (startParStep o net) (st, errs)).1.clock = st.clock + names.length ∧
      (∀ m, m ∉ names →
        getSvc (names.foldl (startParStep o net) (st, errs)).1.services m
          = getSvc st.services m) ∧
      (∀ n ∈ names, ∀ s0, getSvc st.services n = some s0 →
        ∃ t, st.clock ≤ t ∧ t < st.clock + names.length ∧
          (ServiceR.start o t net s0).2 = .ok () ∧
          getSvc (names.foldl (startParStep o net) (st, errs)).1.services n =
            some ((ServiceR.start o t net s0).1)) := by
  intro names
  induction names with
  | nil =>
    intro st errs _ _ _
    exact ⟨by simp, fun m _ => rfl, fun n hn => absurd hn (List.not_mem_nil n)⟩
  | cons n rest ih =>
    intro st errs hnd hpend hsucc
    rw [List.foldl_cons] at hsucc ⊢
    obtain ⟨s0, hg, hnr⟩ := hpend n (List.mem_cons_self n rest)
    have hnn : n ∉ rest := (List.nodup_cons.mp hnd).1
    have hndrest : rest.Nodup := (List.nodup_cons.mp hnd).2
    cases hr : (ServiceR.start o st.clock net s0).2 with
    | error e =>
      exfalso
      have hstep : (startParStep o net (st, errs) n).2 =
          errs ++ ["failed to start " ++ n ++ ": " ++ e] := by
        simp [startParStep, hg, hr]
      obtain ⟨xs, hxs⟩ := startParFold_errs_prefix o net rest
        (startParStep o net (st, errs) n).1 (startParStep o net (st, errs) n).2
      have hxs' : (rest.foldl (startParStep o net) (startParStep o net (st, errs) n)).2
          = (startParStep o net (st, errs) n).2 ++ xs := hxs
      rw [hxs', hstep] at hsucc
      have hlen := congrArg List.length hsucc
      simp [List.length_append] at hlen
    | ok u =>
      have hstep_errs : (startParStep o net (st, errs) n).2 = errs := by
        simp [startParStep, hg, hr]
      have hstep_clock : (startParStep o net (st, errs) n).1.clock = st.clock + 1 := by
        simp [startParStep, hg, hr]
      have hstep_services : (startParStep o net (st, errs) n).1.services
          = setSvc st.services n (ServiceR.start o st.clock net s0).1 := by
        simp [startParStep, hg, hr]
      have hpend' : ∀ m ∈ rest, ∃ sm,
          getSvc (startParStep o net (st, errs) n).1.services m = some sm ∧
          sm.state ≠ .running := by
        intro m hm
        obtain ⟨sm, hgm, hnrm⟩ := hpend m (List.mem_cons_of_mem n hm)
        refine ⟨sm, ?_, hnrm⟩
        rw [hstep_services, getSvc_setSvc_ne _ _ _ _ (fun he => hnn (by rw [he]; exact hm))]
        exact hgm
      have hsucc' : (rest.foldl (startParStep o net)
          ((startParStep o net (st, errs) n).1, (startParStep o net (st, errs) n).2)).2
          = (startParStep o net (st, errs) n).2 := by
        conv_rhs => rw [hstep_errs]
        exact hsucc
      obtain ⟨ihclock, ihun, ihper⟩ := ih (startParStep o net (st, errs) n).1
        (startParStep o net (st, errs) n).2 hndrest hpend' hsucc'
      have ihclock' : (rest.foldl (startParStep o net)
          (startParStep o net (st, errs) n)).1.clock
          = (startParStep o net (st, errs) n).1.clock + rest.length := ihclock
      have ihun' : ∀ m, m ∉ rest →
          getSvc (rest.foldl (startParStep o net)
            (startParStep o net (st, errs) n)).1.services m
          = getSvc (startParStep o net (st, errs) n).1.services m := ihun
      refine ⟨?_, ?_, ?_⟩
      · rw [ihclock', hstep_clock, List.length_cons]
        omega
      · intro m hm
        have hm2 : m ∉ rest := fun hmr => hm (List.mem_cons_of_mem n hmr)
        have hmn : n ≠ m := fun he => hm (he ▸ List.mem_cons_self n rest)
        rw [ihun' m hm2, hstep_services, getSvc_setSvc_ne _ _ _ _ hmn]
      · intro m hm sm hgm
        rcases List.mem_cons.mp hm with rfl | hm2
        · have hs0 : sm = s0 := by
            rw [hg] at hgm
            exact (Option.some_inj.mp hgm).symm
          subst hs0
          refine ⟨st.clock, Nat.le_refl _, ?_, ?_, ?_⟩
          · rw [List.length_cons]
            omega
          · rw [hr]
          · rw [ihun' m hnn, hstep_services]
            exact getSvc_setSvc_self _ _ _
        · obtain ⟨sm', hgm', hnrm⟩ := hpend' m hm2
          have hsm : sm' = sm := by
            rw [hstep_services,
              getSvc_setSvc_ne _ _ _ _ (fun he => hnn (by rw [he]; exact hm2))] at hgm'
            rw [hgm] at hgm'
            exact (Option.some_inj.mp hgm').symm
          subst hsm
          obtain ⟨t, ht1, ht2, ht3, ht4⟩ := ihper m hm2 sm' hgm'
          have ht4' : getSvc (rest.foldl (startParStep o net)
              (startParStep o net (st, errs) n)).1.services m
              = some ((ServiceR.start o t net sm').1) := ht4
          refine ⟨t, ?_, ?_, ht3, ht4'⟩
          · rw [hstep_clock] at ht1
            omega
          · rw [hstep_clock] at ht2
            rw [List.length_cons]
            omega

theorem waitHFold_errs_prefix (o : Oracle) :
    ∀ (names : List String) (st : RunSt) (errs : List String),
      ∃ xs, (names.foldl (waitHStep o) (st, errs)).2 = errs ++ xs := by
  intro names
  induction names with
  | nil => intro st errs; exact ⟨[], by simp⟩
  | cons n rest ih =>
    intro st errs
    rw [List.foldl_cons]
    obtain ⟨xs, hxs⟩ := ih (waitHStep o (st, errs) n).1 (waitHStep o (st, errs) n).2
    have hxs' : (rest.foldl (waitHStep o) (waitHStep o (st, errs) n)).2
        = (waitHStep o (st, errs) n).2 ++ xs := hxs
    cases hg : getSvc st.services n with
    | none =>
      refine ⟨xs, ?_⟩
      rw [hxs']
      have : (waitHStep o (st, errs) n).2 = errs := by simp [waitHStep, hg]
      rw [this]
    | some svc =>
      cases hh : svc.config.health with
      | none =>
        refine ⟨xs, ?_⟩
        rw [hxs']
        have : (waitHStep o (st, errs) n).2 = errs := by simp [waitHStep, hg, hh]
        rw [this]
      | some hc =>
        cases hw : (waitForServiceHealth o svc).2.1 with
        | ok u =>
          refine ⟨xs, ?_⟩
          rw [hxs']
          have : (waitHStep o (st, errs) n).2 = errs := by simp [waitHStep, hg, hh, hw]
          rw [this]
        | error e =>
          refine ⟨e :: xs, ?_⟩
          rw [hxs']
          have : (waitHStep o (st, errs) n).2 = errs ++ [e] := by
            simp [waitHStep, hg, hh, hw]
          rw [this, List.append_assoc]
          rfl

/-- Success characterization of the readiness-gate fold: services
outside the level are untouched, a probe-less member keeps its record,
and a probed member's record is reclassified healthy. -/
theorem waitHFold_success (o : Oracle) :
    ∀ (names : List String) (st : RunSt) (errs : List String),
      names.Nodup →
      (names.foldl (waitHStep o) (st, errs)).2 = errs →
      (∀ m, m ∉ names →
        getSvc (names.foldl (waitHStep o) (st, errs)).1.services m
          = getSvc st.services m) ∧
      (∀ n ∈ names, ∀ s0, getSvc st.services n = some s0 →
        (s0.config.health = none →
          getSvc (names.foldl (waitHStep o) (st, errs)).1.services n = some s0) ∧
        (s0.config.health.isSome →
          getSvc (names.foldl (waitHStep o) (st, errs)).1.services n
            = some {s0 with healthStatus := .healthy})) := by
  intro names
  induction names with
  | nil =>
    intro st errs _ _
    exact ⟨fun m _ => rfl, fun n hn => absurd hn (List.not_mem_nil n)⟩
  | cons n rest ih =>
    intro st errs hnd hsucc
    rw [List.foldl_cons] at hsucc ⊢
    have hnn : n ∉ rest := (List.nodup_cons.mp hnd).1
    have hndrest : rest.Nodup := (List.nodup_cons.mp hnd).2
    cases hg : getSvc st.services n with
    | none =>
      have hstep : waitHStep o (st, errs) n = (st, errs) := by simp [waitHStep, hg]
      rw [hstep] at hsucc ⊢
      obtain ⟨ihun, ihper⟩ := ih st errs hndrest hsucc
      refine ⟨?_, ?_⟩
      · intro m hm
        exact ihun m (fun hmr => hm (List.mem_cons_of_mem n hmr))
      · intro m hm s0 hgm
        rcases List.mem_cons.mp hm with rfl | hm2
        · rw [hg] at hgm
          exact absurd hgm (Option.noConfusion)
        · exact ihper m hm2 s0 hgm
    | some svc =>
      cases hh : svc.config.health with
      | none =>
        have hstep : waitHStep o (st, errs) n = (st, errs) := by simp [waitHStep, hg, hh]
        rw [hstep] at hsucc ⊢
        obtain ⟨ihun, ihper⟩ := ih st errs hndrest hsucc
        refine ⟨?_, ?_⟩
        · intro m hm
          exact ihun m (fun hmr => hm (List.mem_cons_of_mem n hmr))
        · intro m hm s0 hgm
          rcases List.mem_cons.mp hm with rfl | hm2
          · have hs0 : s0 = svc := by
              rw [hg] at hgm
              exact (Option.some_inj.mp hgm).symm
            subst hs0
            refine ⟨?_, ?_⟩
            · intro _
              rw [ihun m hnn]
              exact hgm
            · intro hsome
              rw [hh] at hsome
              exact absurd hsome (by simp)
          · exact ihper m hm2 s0 hgm
      | some hc =>
        cases hw : (waitForServiceHealth o svc).2.1 with
        | error e =>
          exfalso
          have hstep : (waitHStep o (st, errs) n).2 = errs ++ [e] := by
            simp [waitHStep, hg, hh, hw]
          obtain ⟨xs, hxs⟩ := waitHFold_errs_prefix o rest
            (waitHStep o (st, errs) n).1 (waitHStep o (st, errs) n).2
          have hxs' : (rest.foldl (waitHStep o) (waitHStep o (st, errs) n)).2
              = (waitHStep o (st, errs) n).2 ++ xs := hxs
          rw [hxs', hstep] at hsucc
          have hlen := congrArg List.length hsucc
          simp [List.length_append] at hlen
        | ok u =>
          have hstep_sv : (waitHStep o (st, errs) n).1.services
              = setSvc st.services n (waitForServiceHealth o svc).1 := by
            simp [waitHStep, hg, hh, hw]
          have hstep_errs : (waitHStep o (st, errs) n).2 = errs := by
            simp [waitHStep, hg, hh, hw]
          have hsucc' : (rest.foldl (waitHStep o)
              ((waitHStep o (st, errs) n).1, (waitHStep o (st, errs) n).2)).2
              = (waitHStep o (st, errs) n).2 := by
            conv_rhs => rw [hstep_errs]
            exact hsucc
          obtain ⟨ihun, ihper⟩ := ih (waitHStep o (st, errs) n).1
            (waitHStep o (st, errs) n).2 hndrest hsucc'
          have ihun' : ∀ m, m ∉ rest →
              getSvc (rest.foldl (waitHStep o) (waitHStep o (st, errs) n)).1.services m
              = getSvc (waitHStep o (st, errs) n).1.services m := ihun
          have hwok : (waitForServiceHealth o svc).1 = {svc with healthStatus := .healthy} :=
            waitForServiceHealth_ok o svc (by rw [hw])
          refine ⟨?_, ?_⟩
          · intro m hm
            have hm2 : m ∉ rest := fun hmr => hm (List.mem_cons_of_mem n hmr)
            have hmn : n ≠ m := fun he => hm (by rw [← he]; exact List.mem_cons_self n rest)
            rw [ihun' m hm2, hstep_sv, getSvc_setSvc_ne _ _ _ _ hmn]
          · intro m hm s0 hgm
            rcases List.mem_cons.mp hm with rfl | hm2
            · have hs0 : s0 = svc := by
                rw [hg] at hgm
                exact (Option.some_inj.mp hgm).symm
              subst hs0
              refine ⟨?_, ?_⟩
              · intro hnone
                rw [hnone] at hh
                exact absurd hh (Option.noConfusion)
              · intro _
                rw [ihun' m hnn, hstep_sv, getSvc_setSvc_self, hwok]
            · have hmn : n ≠ m := fun he => hnn (by rw [he]; exact hm2)
              have hgm' : getSvc (waitHStep o (st, errs) n).1.services m = some s0 := by
                rw [hstep_sv, getSvc_setSvc_ne _ _ _ _ hmn]
                exact hgm
              obtain ⟨hnone, hsome⟩ := ihper m hm2 s0 hgm'
              exact ⟨hnone, hsome⟩

theorem waitForHealthy_success (o : Oracle) (names : List String) (st : RunSt)
    (hnd : names.Nodup) (h : (waitForHealthy o names st).2 = []) :
    (∀ m, m ∉ names →
      getSvc (waitForHealthy o names st).1.services m = getSvc st.services m) ∧
    (∀ n ∈ names, ∀ s0, getSvc st.services n = some s0 →
      (s0.config.health = none →
        getSvc (waitForHealthy o names st).1.services n = some s0) ∧
      (s0.config.health.isSome →
        getSvc (waitForHealthy o names st).1.services n
          = some {s0 with healthStatus := .healthy})) := by
  rw [waitForHealthy_eq] at h ⊢
  by_cases hskip : ¬ names.any (fun n =>
      match getSvc st.services n with
      | some svc => svc.config.health.isSome
      | none => false)
  · rw [if_pos hskip] at h ⊢
    refine ⟨fun m _ => rfl, ?_⟩
    intro n hn s0 hgn
    refine ⟨fun _ => hgn, ?_⟩
    intro hsome
    exfalso
    apply hskip
    refine List.any_eq_true.mpr ⟨n, hn, ?_⟩
    rw [hgn]
    exact hsome
  · rw [if_neg hskip] at h ⊢
    exact waitHFold_success o names st [] hnd h

theorem GroupsOK_mono : ∀ (ls : List (List String)) (D D2 : List String),
    (∀ x ∈ D2, x ∈ D) → GroupsOK D ls → GroupsOK D2 ls := by
  intro ls
  induction ls with
  | nil => intro D D2 _ _; trivial
  | cons g rest ih =>
    intro D D2 hsub h
    obtain ⟨hnd, hdisj, hrest⟩ := h
    refine ⟨hnd, fun n hn hD2 => hdisj n hn (hsub n hD2), ?_⟩
    refine ih (D ++ g) (D2 ++ g) ?_ hrest
    intro x hx
    rcases List.mem_append.mp hx with hx1 | hx2
    · exact List.mem_append_left g (hsub x hx1)
    · exact List.mem_append_right D hx2

theorem LayeredOK_mono (cfg : Services) : ∀ (ls : List (List String)) (D D2 : List String),
    (∀ x ∈ D, x ∈ D2) → LayeredOK cfg D ls → LayeredOK cfg D2 ls := by
  intro ls
  induction ls with
  | nil => intro D D2 _ _; trivial
  | cons g rest ih =>
    intro D D2 hsub h
    obtain ⟨hdep, hrest⟩ := h
    refine ⟨fun n hn d hd => hsub d (hdep n hn d hd), ?_⟩
    refine ih (D ++ g) (D2 ++ g) ?_ hrest
    intro x hx
    rcases List.mem_append.mp hx with hx1 | hx2
    · exact List.mem_append_left g (hsub x hx1)
    · exact List.mem_append_right D2 hx2

theorem GroupsOK_disjoint : ∀ (ls : List (List String)) (D : List String),
    GroupsOK D ls → ∀ g ∈ ls, ∀ n ∈ g, n ∉ D := by
  intro ls
  induction ls with
  | nil => intro D _ g hg; exact absurd hg (List.not_mem_nil g)
  | cons g0 rest ih =>
    intro D h g hg n hn
    obtain ⟨_, hdisj, hrest⟩ := h
    rcases List.mem_cons.mp hg with rfl | hg2
    · exact hdisj n hn
    · intro hD
      exact ih (D ++ g0) hrest g hg2 n hn (List.mem_append_left g0 hD)

/-- The level groups built by `buildDependencyLevels` are hygienic. -/
theorem levels_groupsOK (svcs : Services) (ordered : List String)
    (hnd : ordered.Nodup) : GroupsOK [] (buildDependencyLevels svcs ordered) := by
  rw [buildDependencyLevels_eq]
  by_cases he : ordered.isEmpty
  · rw [if_pos he]
    trivial
  · rw [if_neg he]
    have key : ∀ (m j : Nat),
        GroupsOK (ordered.filter (fun n => lvlOf svcs ordered n < j))
          ((List.range' j m).map
            (fun i => ordered.filter (fun n => lvlOf svcs ordered n = i))) := by
      intro m
      induction m with
      | zero => intro j; trivial
      | succ m ihm =>
        intro j
        refine ⟨List.Nodup.filter _ hnd, ?_, ?_⟩
        · intro n hn hlt
          have h1 : lvlOf svcs ordered n = j := of_decide_eq_true (List.mem_filter.mp hn).2
          have h2 : lvlOf svcs ordered n < j := of_decide_eq_true (List.mem_filter.mp hlt).2
          omega
        · refine GroupsOK_mono _ _ _ ?_ (ihm (j + 1))
          intro x hx
          rcases List.mem_append.mp hx with hx1 | hx2
          · have h1 : lvlOf svcs ordered x < j :=
              of_decide_eq_true (List.mem_filter.mp hx1).2
            exact List.mem_filter.mpr ⟨(List.mem_filter.mp hx1).1,
              decide_eq_true (by omega)⟩
          · have h1 : lvlOf svcs ordered x = j :=
              of_decide_eq_true (List.mem_filter.mp hx2).2
            exact List.mem_filter.mpr ⟨(List.mem_filter.mp hx2).1,
              decide_eq_true (by omega)⟩
    have hnil : ordered.filter (fun n => lvlOf svcs ordered n < 0) = [] := by
      refine List.filter_eq_nil_iff.mpr ?_
      intro n _
      simp
    have := key ((ordered.map (lvlOf svcs ordered)).foldl max 0 + 1) 0
    rw [hnil] at this
    rw [List.range_eq_range']
    exact this

/-- The level groups built by `buildDependencyLevels` respect the
dependency layering: every dependency of a group member sits in an
earlier group. -/
theorem levels_layeredOK (svcs : Services) (ordered : List String)
    (hacyc : Acyclic svcs)
    (hclosed : ∀ u ∈ ordered, ∀ d ∈ depsOf svcs u, d ∈ ordered) :
    LayeredOK svcs [] (buildDependencyLevels svcs ordered) := by
  rw [buildDependencyLevels_eq]
  by_cases he : ordered.isEmpty
  · rw [if_pos he]
    trivial
  · rw [if_neg he]
    have key : ∀ (m j : Nat),
        LayeredOK svcs (ordered.filter (fun n => lvlOf svcs ordered n < j))
          ((List.range' j m).map
            (fun i => ordered.filter (fun n => lvlOf svcs ordered n = i))) := by
      intro m
      induction m with
      | zero => intro j; trivial
      | succ m ihm =>
        intro j
        refine ⟨?_, ?_⟩
        · intro n hn d hd
          have hno : n ∈ ordered := (List.mem_filter.mp hn).1
          have hnj : lvlOf svcs ordered n = j := of_decide_eq_true (List.mem_filter.mp hn).2
          have hdo : d ∈ ordered := hclosed n hno d hd
          have hdl : lvlOf svcs ordered d < lvlOf svcs ordered n :=
            lvlOf_dep_lt svcs hacyc ordered n hno d hd
          exact List.mem_filter.mpr ⟨hdo, decide_eq_true (by omega)⟩
        · refine LayeredOK_mono svcs _ _ _ ?_ (ihm (j + 1))
          intro x hx
          have h1 : lvlOf svcs ordered x < j + 1 :=
            of_decide_eq_true (List.mem_filter.mp hx).2
          by_cases hlt : lvlOf svcs ordered x < j
          · exact List.mem_append_left _ (List.mem_filter.mpr
              ⟨(List.mem_filter.mp hx).1, decide_eq_true hlt⟩)
          · exact List.mem_append_right _ (List.mem_filter.mpr
              ⟨(List.mem_filter.mp hx).1, decide_eq_true (by omega)⟩)
    have hnil : ordered.filter (fun n => lvlOf svcs ordered n < 0) = [] := by
      refine List.filter_eq_nil_iff.mpr ?_
      intro n _
      simp
    have := key ((ordered.map (lvlOf svcs ordered)).foldl max 0 + 1) 0
    rw [hnil] at this
    rw [List.range_eq_range']
    exact this

theorem startServicesInParallel_success (o : Oracle) (net : String) (names : List String)
    (st : RunSt) (hnd : names.Nodup)
    (hpend : ∀ n ∈ names, ∃ s0, getSvc st.services n = some s0 ∧ s0.state ≠ .running)
    (h : (startServicesInParallel o net names st).2 = []) :
    (startServicesInParallel o net names st).1.clock = st.clock + names.length ∧
    (∀ m, m ∉ names →
      getSvc (startServicesInParallel o net names st).1.services m
        = getSvc st.services m) ∧
    (∀ n ∈ names, ∀ s0, getSvc st.services n = some s0 →
      ∃ t, st.clock ≤ t ∧ t < st.clock + names.length ∧
        (ServiceR.start o t net s0).2 = .ok () ∧
        getSvc (startServicesInParallel o net names st).1.services n =
          some ((ServiceR.start o t net s0).1)) := by
  rw [startServicesInParallel_eq] at h ⊢
  exact startParFold_success o net names st [] hnd hpend h

theorem startServicesInParallel_trace (o : Oracle) (net : String) (names : List String)
    (st : RunSt) :
    ∃ tr, (startServicesInParallel o net names st).1.startTrace = st.startTrace ++ tr ∧
      ∀ p ∈ tr, (p : String × List (String × ServiceR)).1 ∈ names ∧
        ∀ m, m ∉ names → getSvc p.2 m = getSvc st.services m := by
  rw [startServicesInParallel_eq]
  exact startParFold_trace o net names st []

/-- Master invariant of the level loop: every `Start` invocation happens
with all of the unit's dependencies already running (and healthy when
probed) in the snapshot at invocation time, and a successful run leaves
every processed unit running, healthy when probed, and timestamped after
all of its dependencies. -/
theorem runLevels_depOrder (o : Oracle) (net : String)
    (reorder : Nat → List String → List String)
    (hperm : ∀ k l, List.Perm (reorder k l) l) (cfg : Services) :
    ∀ (LS : List (List String)) (k : Nat) (st : RunSt) (D : List String),
      GroupsOK D LS →
      LayeredOK cfg D LS →
      (∀ n ∈ D, ∃ s, getSvc st.services n = some s ∧ s.state = .running ∧
        (s.config.health.isSome → s.healthStatus = .healthy) ∧
        ∃ t, s.startedAt = some t ∧ t < st.clock) →
      (∀ g ∈ LS, ∀ n ∈ g, ∃ s, getSvc st.services n = some s ∧ s.state ≠ .running) →
      (∃ newtr, (runLevels o net reorder k LS st).1.startTrace = st.startTrace ++ newtr ∧
        ∀ p ∈ newtr, ∀ d ∈ depsOf cfg (p : String × List (String × ServiceR)).1,
          ∃ sd, getSvc p.2 d = some sd ∧ sd.state = .running ∧
            (sd.config.health.isSome → sd.healthStatus = .healthy)) ∧
      ((runLevels o net reorder k LS st).2.1 = .ok () →
        (∀ n ∈ D, getSvc (runLevels o net reorder k LS st).1.services n
            = getSvc st.services n) ∧
        (∀ n, (n ∈ D ∨ ∃ g ∈ LS, n ∈ g) → ∃ s t,
          getSvc (runLevels o net reorder k LS st).1.services n = some s ∧
          s.state = .running ∧ (s.config.health.isSome → s.healthStatus = .healthy) ∧
          s.startedAt = some t) ∧
        (∀ g ∈ LS, ∀ b ∈ g, ∀ a ∈ depsOf cfg b, ∃ sa sb ta tb,
          getSvc (runLevels o net reorder k LS st).1.services a = some sa ∧
          getSvc (runLevels o net reorder k LS st).1.services b = some sb ∧
          sa.startedAt = some ta ∧ sb.startedAt = some tb ∧ ta < tb)) := by
  intro LS
  induction LS with
  | nil =>
    intro k st D _ _ hD _
    refine ⟨⟨[], by simp [runLevels], fun p hp => absurd hp (List.not_mem_nil p)⟩, ?_⟩
    intro _
    refine ⟨fun n _ => rfl, ?_, ?_⟩
    · intro n hn
      rcases hn with hnD | ⟨g, hg, _⟩
      · obtain ⟨s, hs, hrun, hhp, t, hst, _⟩ := hD n hnD
        exact ⟨s, t, hs, hrun, hhp, hst⟩
      · exact absurd hg (List.not_mem_nil g)
    · intro g hg
      exact absurd hg (List.not_mem_nil g)
  | cons lvl rest ih =>
    intro k st D hGO hLO hD hpend
    obtain ⟨hndlvl, hdisj, hGOrest⟩ := hGO
    obtain ⟨hdeplvl, hLOrest⟩ := hLO
    have hmemiff : ∀ x, x ∈ reorder k lvl ↔ x ∈ lvl := fun x => (hperm k lvl).mem_iff
    have hndN : (reorder k lvl).Nodup := (hperm k lvl).nodup_iff.mpr hndlvl
    obtain ⟨tr1, htr1, htr1mem⟩ := startServicesInParallel_trace o net (reorder k lvl) st
    have htr1ok : ∀ p ∈ tr1, ∀ d ∈ depsOf cfg (p : String × List (String × ServiceR)).1,
        ∃ sd, getSvc p.2 d = some sd ∧ sd.state = .running ∧
          (sd.config.health.isSome → sd.healthStatus = .healthy) := by
      intro p hp d hd
      have hpn : p.1 ∈ lvl := (hmemiff p.1).mp (htr1mem p hp).1
      have hdD : d ∈ D := hdeplvl p.1 hpn d hd
      have hdnl : d ∉ reorder k lvl := fun hc => hdisj d ((hmemiff d).mp hc) hdD
      obtain ⟨sd, hsd, hrun, hhp, _⟩ := hD d hdD
      refine ⟨sd, ?_, hrun, hhp⟩
      rw [(htr1mem p hp).2 d hdnl]
      exact hsd
    rw [runLevels_cons]
    by_cases h1 : (startServicesInParallel o net (reorder k lvl) st).2 = []
    · rw [if_neg (fun hc => hc h1)]
      by_cases h2 : (waitForHealthy o lvl
          (startServicesInParallel o net (reorder k lvl) st).1).2 = []
      · rw [if_neg (fun hc => hc h2)]
        obtain ⟨spclock, spun, spper⟩ := startServicesInParallel_success o net
          (reorder k lvl) st hndN
          (fun n hn => hpend lvl (List.mem_cons_self _ _) n ((hmemiff n).mp hn))
          h1
        obtain ⟨gun, gper⟩ := waitForHealthy_success o lvl
          (startServicesInParallel o net (reorder k lvl) st).1 hndlvl h2
        obtain ⟨gw1, gw2, gw3⟩ := waitForHealthy_preserves o lvl
          (startServicesInParallel o net (reorder k lvl) st).1
        have fact_D : ∀ n ∈ D, getSvc (waitForHealthy o lvl
            (startServicesInParallel o net (reorder k lvl) st).1).1.services n
            = getSvc st.services n := by
          intro n hnD
          have hnl : n ∉ lvl := fun hc => hdisj n hc hnD
          rw [gun n hnl, spun n (fun hc => hdisj n ((hmemiff n).mp hc) hnD)]
        have fact_lvl : ∀ n ∈ lvl, ∃ s2 t,
            getSvc (waitForHealthy o lvl
              (startServicesInParallel o net (reorder k lvl) st).1).1.services n
              = some s2 ∧
            s2.state = .running ∧
            (s2.config.health.isSome → s2.healthStatus = .healthy) ∧
            s2.startedAt = some t ∧ st.clock ≤ t ∧
            t < st.clock + (reorder k lvl).length := by
          intro n hnl
          obtain ⟨s0, hg0, hnr0⟩ := hpend lvl (List.mem_cons_self _ _) n hnl
          obtain ⟨t, ht1, ht2, hok, hrec⟩ := spper n ((hmemiff n).mpr hnl) s0 hg0
          obtain ⟨hst_run, hst_at, hst_health, hst_cfg, hst_name⟩ :=
            ServiceR.start_ok o t net s0 hok
          obtain ⟨gnone, gsome⟩ := gper n hnl ((ServiceR.start o t net s0).1) hrec
          cases hh0 : ((ServiceR.start o t net s0).1).config.health with
          | none =>
            refine ⟨(ServiceR.start o t net s0).1, t, gnone hh0, hst_run, ?_, hst_at,
              ht1, ht2⟩
            intro hsome
            rw [hh0] at hsome
            exact absurd hsome (by simp)
          | some hc =>
            refine ⟨{(ServiceR.start o t net s0).1 with healthStatus := .healthy}, t,
              gsome (by rw [hh0]; rfl), hst_run, fun _ => rfl, hst_at, ht1, ht2⟩
        have fact_clock : (waitForHealthy o lvl
            (startServicesInParallel o net (reorder k lvl) st).1).1.clock
            = st.clock + (reorder k lvl).length := by
          rw [gw3, spclock]
        have ihD : ∀ n ∈ D ++ lvl, ∃ s,
            getSvc (waitForHealthy o lvl
              (startServicesInParallel o net (reorder k lvl) st).1).1.services n
              = some s ∧ s.state = .running ∧
            (s.config.health.isSome → s.healthStatus = .healthy) ∧
            ∃ t, s.startedAt = some t ∧
              t < (waitForHealthy o lvl
                (startServicesInParallel o net (reorder k lvl) st).1).1.clock := by
          intro n hn
          rcases List.mem_append.mp hn with hnD | hnl
          · obtain ⟨s, hs, hrun, hhp, t, hst, htlt⟩ := hD n hnD
            refine ⟨s, ?_, hrun, hhp, t, hst, ?_⟩
            · rw [fact_D n hnD]
              exact hs
            · rw [fact_clock]
              omega
          · obtain ⟨s2, t, hs2, hrun, hhp, hst, ht1, ht2⟩ := fact_lvl n hnl
            refine ⟨s2, hs2, hrun, hhp, t, hst, ?_⟩
            rw [fact_clock]
            omega
        have ihpend : ∀ g ∈ rest, ∀ n ∈ g, ∃ s,
            getSvc (waitForHealthy o lvl
              (startServicesInParallel o net (reorder k lvl) st).1).1.services n
              = some s ∧ s.state ≠ .running := by
          intro g hg n hn
          have hnDl : n ∉ D ++ lvl := GroupsOK_disjoint rest (D ++ lvl) hGOrest g hg n hn
          have hnl : n ∉ lvl := fun hc => hnDl (List.mem_append_right D hc)
          obtain ⟨s, hs, hnr⟩ := hpend g (List.mem_cons_of_mem lvl hg) n hn
          refine ⟨s, ?_, hnr⟩
          rw [gun n hnl, spun n (fun hc => hnl ((hmemiff n).mp hc))]
          exact hs
        obtain ⟨⟨newtr2, htr2, htr2ok⟩, ihok⟩ := ih (k + 1)
          (waitForHealthy o lvl (startServicesInParallel o net (reorder k lvl) st).1).1
          (D ++ lvl) hGOrest hLOrest ihD ihpend
        refine ⟨⟨tr1 ++ newtr2, ?_, ?_⟩, ?_⟩
        · rw [htr2, gw2, htr1, List.append_assoc]
        · intro p hp d hd
          rcases List.mem_append.mp hp with hp1 | hp2
          · exact htr1ok p hp1 d hd
          · exact htr2ok p hp2 d hd
        · intro hok
          obtain ⟨okD, okAll, okOrd⟩ := ihok hok
          refine ⟨?_, ?_, ?_⟩
          · intro n hnD
            rw [okD n (List.mem_append_left lvl hnD), fact_D n hnD]
          · intro n hn
            refine okAll n ?_
            rcases hn with hnD | ⟨g, hg, hng⟩
            · exact Or.inl (List.mem_append_left lvl hnD)
            · rcases List.mem_cons.mp hg with rfl | hg2
              · exact Or.inl (List.mem_append_right D hng)
              · exact Or.inr ⟨g, hg2, hng⟩
          · intro g hg b hb a ha
            rcases List.mem_cons.mp hg with rfl | hg2
            · have haD : a ∈ D := hdeplvl b hb a ha
              obtain ⟨sa, hsa, _, _, ta, hta, htalt⟩ := hD a haD
              obtain ⟨sb, tb, hsb, _, _, hstb, htb1, _⟩ := fact_lvl b hb
              refine ⟨sa, sb, ta, tb, ?_, ?_, hta, hstb, ?_⟩
              · rw [okD a (List.mem_append_left g haD), fact_D a haD]
                exact hsa
              · rw [okD b (List.mem_append_right D hb)]
                exact hsb
              · omega
            · exact okOrd g hg2 b hb a ha
      · rw [if_pos h2]
        obtain ⟨_, hrs, hrt⟩ := rollbackStartedServices_spec o
          (waitForHealthy o lvl
            (startServicesInParallel o net (reorder k lvl) st).1).1.started
          (waitForHealthy o lvl (startServicesInParallel o net (reorder k lvl) st).1).1
        obtain ⟨_, gw2, _⟩ := waitForHealthy_preserves o lvl
          (startServicesInParallel o net (reorder k lvl) st).1
        refine ⟨⟨tr1, ?_, htr1ok⟩, ?_⟩
        · show (rollbackStartedServices o _ _).1.startTrace = _
          rw [hrt, gw2, htr1]
        · intro hok
          exact absurd hok (by simp)
    · rw [if_pos h1]
      obtain ⟨_, hrs, hrt⟩ := rollbackStartedServices_spec o
        (startServicesInParallel o net (reorder k lvl) st).1.started
        (startServicesInParallel o net (reorder k lvl) st).1
      refine ⟨⟨tr1, ?_, htr1ok⟩, ?_⟩
      · show (rollbackStartedServices o _ _).1.startTrace = _
        rw [hrt, htr1]
      · intro hok
        exact absurd hok (by simp)

/-! ### Claim C5 -/

/-- C5: in every run over the resolver's closure of an acyclic,
duplicate-free declaration set, a unit's `Start` is only ever invoked
when, in the service map snapshot at the moment of invocation, every one
of its dependencies is already running and — when the dependency
declares a readiness probe — healthy (levels run strictly one at a time,
each level's launches and readiness gate completing before the next
level begins); and in any successful run, if unit `b` depends on unit
`a` then `a`'s recorded start timestamp strictly precedes `b`'s. -/
theorem C5_deps_before_start (o : Oracle) (net : String)
    (reorder : Nat → List String → List String)
    (hperm : ∀ k l, List.Perm (reorder k l) l)
    (cfg : Services) (ordered : List String)
    (hacyc : Acyclic cfg) (hnd : ordered.Nodup)
    (hclosed : ∀ u ∈ ordered, ∀ d ∈ depsOf cfg u, d ∈ ordered)
    (st : RunSt)
    (hinit : ∀ n ∈ ordered, ∃ s, getSvc st.services n = some s ∧ s.state ≠ .running) :
    (∃ newtr, (StartServicesInOrder o net reorder cfg ordered st).1.startTrace
        = st.startTrace ++ newtr ∧
      ∀ p ∈ newtr, ∀ d ∈ depsOf cfg (p : String × List (String × ServiceR)).1,
        ∃ sd, getSvc p.2 d = some sd ∧ sd.state = .running ∧
          (sd.config.health.isSome → sd.healthStatus = .healthy)) ∧
    ((StartServicesInOrder o net reorder cfg ordered st).2.1 = .ok () →
      ∀ b ∈ ordered, ∀ a ∈ depsOf cfg b, ∃ sa sb ta tb,
        getSvc (StartServicesInOrder o net reorder cfg ordered st).1.services a
          = some sa ∧
        getSvc (StartServicesInOrder o net reorder cfg ordered st).1.services b
          = some sb ∧
        sa.startedAt = some ta ∧ sb.startedAt = some tb ∧ ta < tb) := by
  have hGO := levels_groupsOK cfg ordered hnd
  have hLO := levels_layeredOK cfg ordered hacyc hclosed
  have hpend : ∀ g ∈ buildDependencyLevels cfg ordered, ∀ n ∈ g,
      ∃ s, getSvc st.services n = some s ∧ s.state ≠ .running := by
    intro g hg n hn
    exact hinit n (buildDependencyLevels_mem_ordered cfg ordered n g hg hn)
  obtain ⟨htr, hsucc⟩ := runLevels_depOrder o net reorder hperm cfg
    (buildDependencyLevels cfg ordered) 0 st []
    hGO hLO (fun n hn => absurd hn (List.not_mem_nil n)) hpend
  refine ⟨htr, ?_⟩
  intro hok b hb a ha
  obtain ⟨_, _, okOrd⟩ := hsucc hok
  obtain ⟨g, hg, hbg⟩ := buildDependencyLevels_mem_group cfg ordered b hb
  exact okOrd g hg b hbg a ha

theorem C5_witness :
    (StartServicesInOrder oracleConnectFails "net" idReorder exChain
        ["db", "api", "web"] exRunSt).2.1 = .ok () ∧
    (∃ sa sb ta tb,
      getSvc (StartServicesInOrder oracleConnectFails "net" idReorder exChain
          ["db", "api", "web"] exRunSt).1.services "db" = some sa ∧
      getSvc (StartServicesInOrder oracleConnectFails "net" idReorder exChain
          ["db", "api", "web"] exRunSt).1.services "api" = some sb ∧
      sa.startedAt = some ta ∧ sb.startedAt = some tb ∧ ta < tb) := by
  refine ⟨rfl, ?_⟩
  have h := C5_deps_before_start oracleConnectFails "net" idReorder
    (fun k l => List.Perm.refl l) exChain ["db", "api", "web"]
    (acyclic_of_detect_all_none exChain rfl) (by decide) (by decide) exRunSt
    (by
      intro n hn
      rcases List.mem_cons.mp hn with rfl | hn2
      · exact ⟨_, rfl, fun hc => SState.noConfusion hc⟩
      · rcases List.mem_cons.mp hn2 with rfl | hn3
        · exact ⟨_, rfl, fun hc => SState.noConfusion hc⟩
        · rcases List.mem_cons.mp hn3 with rfl | hn4
          · exact ⟨_, rfl, fun hc => SState.noConfusion hc⟩
          · exact absurd hn4 (List.not_mem_nil n))
  exact h.2 rfl "api" (by decide) "db" (by decide)

end Ork

